import Mathlib

/-!
Shallow embedding of the poker flop-helper core (card model, 5–7 card hand
evaluator, strength comparator, equity enumerator, decision rule) found in
`src/app/page.tsx`, together with theorems settling the specification claims.

JavaScript strings are modelled as `List Char`; the case mappings used by the
parser (`toUpperCase` / `toLowerCase`) are modelled character-wise on ASCII,
which agrees with the source on every character class the parser consults
(digits, `TJQKA`, `shdc`).  JavaScript numbers occurring in the core are
natural numbers (ranks 2..14, categories 0..8, counts); the comparator, which
subtracts, returns an integer.
-/

/-- A playing card, mirroring `type Card = { r: number; s: string }`:
rank `r` (2..14, 14 = Ace) and a one-character suit `s`. -/
structure Card where
  r : ℕ
  s : Char
deriving DecidableEq, Repr

/-- `suitChars = ["s","h","d","c"]`. -/
def suitChars : List Char := ['s', 'h', 'd', 'c']

/-- `rankChars = ["2",...,"9","T","J","Q","K","A"]`. -/
def rankChars : List Char :=
  ['2', '3', '4', '5', '6', '7', '8', '9', 'T', 'J', 'Q', 'K', 'A']

/-- `makeDeck()`: all 52 cards, rank ascending 2..14, suits in `suitChars`
order within each rank. -/
def makeDeck : List Card :=
  (List.range' 2 13).flatMap fun r => suitChars.map fun s => ⟨r, s⟩

/-- `cardsEqual(a,b)`: component-wise equality test. -/
def cardsEqual (a b : Card) : Bool := a.r == b.r && a.s == b.s

/-- `cardToStr(c) = rankChars[c.r-2] + c.s`. -/
def cardToStr (c : Card) : List Char := [rankChars.getD (c.r - 2) '?', c.s]

/-- The whitespace class used to model JavaScript's `trim` and `split(/\s+/)`
(ASCII whitespace plus NBSP; the spec's card grammar is ASCII). -/
def isJsSpace (c : Char) : Bool :=
  c == ' ' || c == '\t' || c == '\n' || c == '\r' || c == '\x0b' ||
    c == '\x0c' || c == '\xa0'

/-- `text.trim()`: strip leading and trailing whitespace. -/
def jsTrim (l : List Char) : List Char :=
  ((l.dropWhile isJsSpace).reverse.dropWhile isJsSpace).reverse

/-- `strToCard(t)`: trim and uppercase, take the FIRST character as the rank
and the LAST character (lowercased) as the suit; `null` when the trimmed text
is shorter than 2 characters or either character is not in its class. -/
def strToCard (t : List Char) : Option Card :=
  let v := (jsTrim t).map Char.toUpper
  if v.length < 2 then none
  else
    let rChar := v.headD ' '
    let sChar := (v.getLastD ' ').toLower
    if rankChars.contains rChar then
      if suitChars.contains sChar then some ⟨rankChars.indexOf rChar + 2, sChar⟩
      else none
    else none

/-- Helper for `tokenize`: accumulate the current (reversed) token. -/
def tokenizeAux : List Char → List Char → List (List Char)
  | [], cur => if cur.isEmpty then [] else [cur.reverse]
  | c :: rest, cur =>
    if isJsSpace c then
      if cur.isEmpty then tokenizeAux rest []
      else cur.reverse :: tokenizeAux rest []
    else tokenizeAux rest (c :: cur)

/-- `text.split(/\s+/).filter(Boolean)`: whitespace-delimited tokens, empty
tokens dropped. -/
def tokenize (l : List Char) : List (List Char) := tokenizeAux l []

/-- The loop body of `parseCards`: parse each token, rejecting a token that
fails `strToCard` or duplicates an already parsed card. -/
def parseCardsLoop : List (List Char) → List Card → Option (List Card)
  | [], cards => some cards
  | p :: ps, cards =>
    match strToCard p with
    | none => none
    | some c =>
      if cards.any fun x => cardsEqual x c then none
      else parseCardsLoop ps (cards ++ [c])

/-- `parseCards(text, n)`: tokenize, require exactly `n` tokens, parse each,
reject duplicates; returns the cards in token order. -/
def parseCards (text : List Char) (n : ℕ) : Option (List Card) :=
  let parts := tokenize text
  if parts.length ≠ n then none else parseCardsLoop parts []

/-- The JS comparator `(a,b) => b[1]-a[1] || b[0]-a[0]` as an order relation:
count descending, then rank descending. -/
def countCmp (a b : ℕ × ℕ) : Prop := b.2 < a.2 ∨ (a.2 = b.2 ∧ b.1 ≤ a.1)

instance : DecidableRel countCmp := fun _ _ =>
  inferInstanceAs (Decidable (Or _ _))

/-- `countsByRank(cards)`: one entry per distinct rank (first-occurrence
order, as a JS `Map`), annotated with its multiplicity, then sorted by count
descending, rank descending. -/
def countsByRank (cards : List Card) : List (ℕ × ℕ) :=
  (((cards.map Card.r).dedup).map fun r =>
    (r, (cards.filter fun c => c.r == r).length)).insertionSort countCmp

/-- `suitGroups(cards)`: the value lists of the suit-keyed JS `Map`, in
first-occurrence order of the suits. -/
def suitGroups (cards : List Card) : List (List Card) :=
  ((cards.map Card.s).dedup).map fun s => cards.filter fun c => c.s == s

/-- The `for` loop of `bestStraightHigh` over the strictly increasing rank
array: `prev` is the previous element, `run` the current consecutive-run
length, `best` the best straight high seen so far. -/
def straightLoop : List ℕ → ℕ → ℕ → ℕ → ℕ
  | [], _, _, best => best
  | x :: rest, prev, run, best =>
    if x = prev + 1 then
      straightLoop rest x (run + 1) (if 5 ≤ run + 1 then max best x else best)
    else if x ≠ prev then straightLoop rest x 1 best
    else straightLoop rest x run best

/-- `bestStraightHigh(ranks)`: deduplicate and sort ascending, prepend a low
ace (1) when an ace (14) is present, and scan for the highest endpoint of a
run of ≥ 5 consecutive values (0 when there is none). -/
def bestStraightHigh (ranks : List ℕ) : ℕ :=
  let arr := (ranks.dedup).insertionSort (· ≤ ·)
  let arr2 := if arr.contains 14 then 1 :: arr else arr
  match arr2 with
  | [] => 0
  | a :: rest => straightLoop rest a 1 0

/-- `topNDesc(vals, n)`: sort descending and take the first `n`. -/
def topNDesc (vals : List ℕ) (n : ℕ) : List ℕ :=
  (vals.insertionSort (· ≥ ·)).take n

/-- `evaluate(cards)`: the 5–7 card hand evaluator.  Returns
`[category, ...tiebreaks]` with category 8 = straight flush down to
0 = high card, testing the patterns in strict precedence order. -/
def evaluate (cards : List Card) : List ℕ :=
  let bySuit := suitGroups cards
  let sf := bySuit.findSome? fun cs =>
    if 5 ≤ cs.length then
      let high := bestStraightHigh ((cs.map Card.r).dedup)
      if 0 < high then some [8, high] else none
    else none
  match sf with
  | some t => t
  | none =>
    let cnts := countsByRank cards
    let quads := ((cnts.filter fun e => e.2 == 4).map Prod.fst).insertionSort (· ≥ ·)
    match quads with
    | q :: _ =>
      [7, q, ((topNDesc ((cards.filter fun c => c.r != q).map Card.r) 1).headD 0)]
    | [] =>
      let trips := ((cnts.filter fun e => e.2 == 3).map Prod.fst).insertionSort (· ≥ ·)
      let pairs := ((cnts.filter fun e => e.2 == 2).map Prod.fst).insertionSort (· ≥ ·)
      if 2 ≤ trips.length ∨ (1 ≤ trips.length ∧ 1 ≤ pairs.length) then
        [6, trips.headD 0,
          if 2 ≤ trips.length then trips.getD 1 0 else pairs.headD 0]
      else
        match bySuit.find? fun cs => 5 ≤ cs.length with
        | some cs => 5 :: topNDesc (cs.map Card.r) 5
        | none =>
          let sh := bestStraightHigh
            (((cards.map Card.r).dedup).insertionSort (· ≤ ·))
          if 0 < sh then [4, sh]
          else
            match trips with
            | t :: _ =>
              [3, t] ++ topNDesc ((cards.filter fun c => c.r != t).map Card.r) 2
            | [] =>
              match pairs with
              | p1 :: p2 :: _ =>
                [2, p1, p2,
                  ((topNDesc ((cards.filter fun c =>
                    c.r != p1 && c.r != p2).map Card.r) 1).headD 0)]
              | [p] =>
                [1, p] ++ topNDesc ((cards.filter fun c => c.r != p).map Card.r) 3
              | [] => 0 :: topNDesc (cards.map Card.r) 5

/-- The index loop of `compareRankTuples`, with `fuel = n - i` mirroring
`while i < n`; `a[i] ?? 0` is `List.getD i 0`, and the loop returns
`a[i] - b[i]` at the first differing index, else 0. -/
def cmpGo (a b : List ℕ) : ℕ → ℕ → ℤ
  | _, 0 => 0
  | i, fuel + 1 =>
    if a.getD i 0 ≠ b.getD i 0 then (a.getD i 0 : ℤ) - (b.getD i 0 : ℤ)
    else cmpGo a b (i + 1) fuel

/-- `compareRankTuples(a,b)`: lexicographic comparison over
`max(a.length, b.length)` positions, missing entries read as 0. -/
def compareRankTuples (a b : List ℕ) : ℤ :=
  cmpGo a b 0 (max a.length b.length)

/-- `catName(cat)`: display label of a category, `""` out of range. -/
def catName (cat : ℕ) : String :=
  (["High Card", "One Pair", "Two Pair", "Three of a Kind", "Straight",
    "Flush", "Full House", "Four of a Kind", "Straight Flush"]).getD cat ""

/-- One labelled bucket of a breakdown: combo count plus up to 3 samples. -/
structure BreakEntry where
  count : ℕ
  samples : List (List Char)
deriving DecidableEq, Repr

/-- A breakdown, modelled as a total map from labels to entries (labels never
touched stay at `{count: 0, samples: []}`, i.e. absent). -/
def Breakdown : Type := String → BreakEntry

/-- The empty breakdown (`{}`). -/
def emptyBreakdown : Breakdown := fun _ => ⟨0, []⟩

/-- Record one opponent combo under `label`: create the entry if absent,
increment its count, and append the sample while fewer than 3 are stored. -/
def bumpBreakdown (b : Breakdown) (label : String) (sample : List Char) :
    Breakdown := fun l =>
  if l = label then
    ⟨(b label).count + 1,
      if (b label).samples.length < 3 then (b label).samples ++ [sample]
      else (b label).samples⟩
  else b l

/-- The recommendation type (`"Fold" | "Call"`). -/
inductive Recommendation
  | fold
  | call
deriving DecidableEq, Repr

/-- The decision rule on line 170: `better > worse ? "Fold" : "Call"`. -/
def decideRec (better worse : ℕ) : Recommendation :=
  if worse < better then .fold else .call

/-- All unordered pairs of a list in `i < j` order, as produced by the nested
`for` loops of `analyzeSimple`. -/
def allPairs : List α → List (α × α)
  | [] => []
  | x :: xs => (xs.map fun y => (x, y)) ++ allPairs xs

/-- Mutable state of the enumeration loop of `analyzeSimple`. -/
structure AnalyzeState where
  better : ℕ
  worse : ℕ
  tie : ℕ
  betterBreakdown : Breakdown
  worseBreakdown : Breakdown

/-- One iteration of the enumeration loop: evaluate the opponent's two cards
with the flop, compare against the hero, and bump the matching bucket. -/
def analyzeStep (flop : List Card) (heroRank : List ℕ) (st : AnalyzeState)
    (opp : Card × Card) : AnalyzeState :=
  let oppRank := evaluate ([opp.1, opp.2] ++ flop)
  let cmp := compareRankTuples oppRank heroRank
  let sample := cardToStr opp.1 ++ [' '] ++ cardToStr opp.2
  if 0 < cmp then
    { st with
      better := st.better + 1
      betterBreakdown :=
        bumpBreakdown st.betterBreakdown (catName (oppRank.headD 0)) sample }
  else if cmp < 0 then
    { st with
      worse := st.worse + 1
      worseBreakdown :=
        bumpBreakdown st.worseBreakdown (catName (oppRank.headD 0)) sample }
  else { st with tie := st.tie + 1 }

/-- The result record of `analyzeSimple`. -/
structure SimpleResult where
  heroCat : String
  better : ℕ
  worse : ℕ
  tie : ℕ
  betterBreakdown : Breakdown
  worseBreakdown : Breakdown
  recommendation : Recommendation

/-- `analyzeSimple(hero, flop)`: remove the known cards from a fresh deck
(each `rm` erases the first matching card), evaluate the hero, classify each
unordered pair of remaining cards, and apply the decision rule. -/
def analyzeSimple (hero flop : List Card) : SimpleResult :=
  let deck := (hero ++ flop).foldl
    (fun d c => d.eraseP fun x => cardsEqual x c) makeDeck
  let heroRank := evaluate (hero ++ flop)
  let fin := (allPairs deck).foldl (analyzeStep flop heroRank)
    ⟨0, 0, 0, emptyBreakdown, emptyBreakdown⟩
  { heroCat := catName (heroRank.headD 0)
    better := fin.better
    worse := fin.worse
    tie := fin.tie
    betterBreakdown := fin.betterBreakdown
    worseBreakdown := fin.worseBreakdown
    recommendation := decideRec fin.better fin.worse }

-- Sanity checks of the embedding against the repository's dev tests.
example :
    evaluate ((["Ah", "Ad", "Ac", "Kc", "2d"].map
      (fun s => (strToCard s.toList).getD ⟨0, '?'⟩))) = [3, 14, 13, 2] := by
  decide

example :
    evaluate ((["Kc", "Qc", "Jc", "Tc", "9c"].map
      (fun s => (strToCard s.toList).getD ⟨0, '?'⟩))) = [8, 13] := by
  decide

example :
    evaluate ((["Ah", "Ad", "Kc", "7h", "2d"].map
      (fun s => (strToCard s.toList).getD ⟨0, '?'⟩))) = [1, 14, 13, 7, 2] := by
  decide

/-! ### The comparator as specified: lexicographic with zero padding -/

/-- The specification's comparator, written from the spec's words: compare the
two tuples position by position, the shorter tuple padded with trailing
zeros, returning the (integer) difference at the first differing position. -/
def lexPad : List ℕ → List ℕ → ℤ
  | [], [] => 0
  | x :: xs, [] => if x ≠ 0 then (x : ℤ) else lexPad xs []
  | [], y :: ys => if 0 ≠ y then -(y : ℤ) else lexPad [] ys
  | x :: xs, y :: ys => if x ≠ y then (x : ℤ) - (y : ℤ) else lexPad xs ys

lemma getD_tail (l : List ℕ) (i : ℕ) : l.tail.getD i 0 = l.getD (i + 1) 0 := by
  cases l <;> simp [List.getD]

lemma getD_nil_nat (i : ℕ) : ([] : List ℕ).getD i 0 = 0 := by simp [List.getD]

lemma cmpGo_shift (fuel : ℕ) : ∀ (a b : List ℕ) (i : ℕ),
    cmpGo a b (i + 1) fuel = cmpGo a.tail b.tail i fuel := by
  induction fuel with
  | zero => intro a b i; rfl
  | succ f ih =>
    intro a b i
    simp only [cmpGo, getD_tail]
    by_cases h : a.getD (i + 1) 0 = b.getD (i + 1) 0
    · have h1 : ¬(a.getD (i + 1) 0 ≠ b.getD (i + 1) 0) := by simpa using h
      rw [if_neg h1, if_neg h1]
      exact ih a b (i + 1)
    · rw [if_pos h, if_pos h]

lemma cmpGo_eq_lexPad (fuel : ℕ) : ∀ a b : List ℕ,
    fuel = max a.length b.length → cmpGo a b 0 fuel = lexPad a b := by
  induction fuel with
  | zero =>
    intro a b h
    cases a <;> cases b <;> simp_all [lexPad, cmpGo] <;> omega
  | succ f ih =>
    intro a b h
    cases a with
    | nil =>
      cases b with
      | nil => simp at h
      | cons y ys =>
        simp only [cmpGo, getD_nil_nat, List.getD_cons_zero, lexPad,
          cmpGo_shift, List.tail_cons, List.tail_nil]
        by_cases hy : (0 : ℕ) ≠ y
        · rw [if_pos hy, if_pos hy]; omega
        · rw [if_neg hy, if_neg hy]
          exact ih [] ys (by simp at h ⊢; omega)
    | cons x xs =>
      cases b with
      | nil =>
        simp only [cmpGo, getD_nil_nat, List.getD_cons_zero, lexPad,
          cmpGo_shift, List.tail_cons, List.tail_nil]
        by_cases hx : x ≠ 0
        · rw [if_pos hx, if_pos hx]; omega
        · rw [if_neg hx, if_neg hx]
          exact ih xs [] (by simp at h ⊢; omega)
      | cons y ys =>
        simp only [cmpGo, List.getD_cons_zero, lexPad, cmpGo_shift,
          List.tail_cons]
        by_cases hxy : x ≠ y
        · rw [if_pos hxy, if_pos hxy]
        · rw [if_neg hxy, if_neg hxy]
          exact ih xs ys (by simp at h ⊢; omega)

/-- The source comparator coincides with the padded lexicographic spec. -/
lemma compareRankTuples_eq_lexPad (a b : List ℕ) :
    compareRankTuples a b = lexPad a b :=
  cmpGo_eq_lexPad _ a b rfl

lemma lexPad_self (a : List ℕ) : lexPad a a = 0 := by
  induction a with
  | nil => simp [lexPad]
  | cons x xs ih => simpa [lexPad] using ih

lemma lexPad_swap (a : List ℕ) : ∀ b : List ℕ, lexPad a b = -lexPad b a := by
  induction a with
  | nil =>
    intro b
    induction b with
    | nil => simp [lexPad]
    | cons y ys ihb =>
      simp only [lexPad]
      by_cases hy : (0 : ℕ) ≠ y
      · rw [if_pos hy, if_pos (Ne.symm hy)]
      · rw [if_neg hy, if_neg fun hc => hy (Ne.symm hc)]
        exact ihb
  | cons x xs ih =>
    intro b
    cases b with
    | nil =>
      simp only [lexPad]
      by_cases hx : x ≠ 0
      · rw [if_pos hx, if_pos (Ne.symm hx)]; omega
      · rw [if_neg hx, if_neg fun hc => hx (Ne.symm hc)]
        simpa using ih []
    | cons y ys =>
      simp only [lexPad]
      by_cases hxy : x ≠ y
      · rw [if_pos hxy, if_pos (Ne.symm hxy)]; omega
      · rw [if_neg hxy, if_neg fun hc => hxy (Ne.symm hc)]
        exact ih ys

lemma lexPad_zero_iff (a : List ℕ) : ∀ b : List ℕ,
    (lexPad a b = 0 ↔ ∀ i, a.getD i 0 = b.getD i 0) := by
  induction a with
  | nil =>
    intro b
    induction b with
    | nil => simp [lexPad]
    | cons y ys ihb =>
      simp only [lexPad]
      by_cases hy : (0 : ℕ) ≠ y
      · rw [if_pos hy]
        constructor
        · intro hc; omega
        · intro hall
          have := hall 0
          simp [getD_nil_nat] at this
          omega
      · rw [if_neg hy]
        have hy0 : y = 0 := by omega
        subst hy0
        rw [ihb]
        constructor
        · intro hall i
          cases i with
          | zero => simp [getD_nil_nat]
          | succ j => simpa [getD_nil_nat] using hall j
        · intro hall i
          simpa [getD_nil_nat] using hall (i + 1)
  | cons x xs ih =>
    intro b
    cases b with
    | nil =>
      simp only [lexPad]
      by_cases hx : x ≠ 0
      · rw [if_pos hx]
        constructor
        · intro hc; omega
        · intro hall
          have := hall 0
          simp [getD_nil_nat] at this
          omega
      · rw [if_neg hx]
        have hx0 : x = 0 := by omega
        subst hx0
        rw [ih []]
        constructor
        · intro hall i
          cases i with
          | zero => simp [getD_nil_nat]
          | succ j => simpa [getD_nil_nat] using hall j
        · intro hall i
          simpa [getD_nil_nat] using hall (i + 1)
    | cons y ys =>
      simp only [lexPad]
      by_cases hxy : x ≠ y
      · rw [if_pos hxy]
        constructor
        · intro hc
          exfalso
          have : (x : ℤ) = y := by omega
          exact hxy (by exact_mod_cast this)
        · intro hall
          have := hall 0
          simp at this
          exact absurd this hxy
      · rw [if_neg hxy]
        have hxy0 : x = y := by omega
        subst hxy0
        rw [ih ys]
        constructor
        · intro hall i
          cases i with
          | zero => simp
          | succ j => simpa using hall j
        · intro hall i
          simpa using hall (i + 1)

lemma lexPad_neg_iff (a : List ℕ) : ∀ b : List ℕ,
    (lexPad a b < 0 ↔
      ∃ i, a.getD i 0 < b.getD i 0 ∧ ∀ j < i, a.getD j 0 = b.getD j 0) := by
  induction a with
  | nil =>
    intro b
    induction b with
    | nil => simp [lexPad, getD_nil_nat]
    | cons y ys ihb =>
      simp only [lexPad]
      by_cases hy : (0 : ℕ) ≠ y
      · rw [if_pos hy]
        constructor
        · intro _
          exact ⟨0, by simp [getD_nil_nat]; omega, by omega⟩
        · intro _; omega
      · rw [if_neg hy]
        have hy0 : y = 0 := by omega
        subst hy0
        rw [ihb]
        constructor
        · rintro ⟨i, hi, hj⟩
          refine ⟨i + 1, by simpa [getD_nil_nat] using hi, ?_⟩
          intro j hji
          cases j with
          | zero => simp [getD_nil_nat]
          | succ j0 => simpa [getD_nil_nat] using hj j0 (by omega)
        · rintro ⟨i, hi, hj⟩
          cases i with
          | zero => simp [getD_nil_nat] at hi
          | succ i0 =>
            refine ⟨i0, by simpa [getD_nil_nat] using hi, ?_⟩
            intro j hji
            simpa [getD_nil_nat] using hj (j + 1) (by omega)
  | cons x xs ih =>
    intro b
    cases b with
    | nil =>
      simp only [lexPad]
      by_cases hx : x ≠ 0
      · rw [if_pos hx]
        constructor
        · intro hc; omega
        · rintro ⟨i, hi, hj⟩
          exfalso
          cases i with
          | zero => simp [getD_nil_nat] at hi
          | succ i0 =>
            have := hj 0 (by omega)
            simp [getD_nil_nat] at this
            simp [getD_nil_nat] at hi
      · rw [if_neg hx]
        have hx0 : x = 0 := by omega
        subst hx0
        rw [ih []]
        constructor
        · rintro ⟨i, hi, hj⟩
          refine ⟨i + 1, by simpa [getD_nil_nat] using hi, ?_⟩
          intro j hji
          cases j with
          | zero => simp [getD_nil_nat]
          | succ j0 => simpa [getD_nil_nat] using hj j0 (by omega)
        · rintro ⟨i, hi, hj⟩
          cases i with
          | zero => simp [getD_nil_nat] at hi
          | succ i0 =>
            refine ⟨i0, by simpa [getD_nil_nat] using hi, ?_⟩
            intro j hji
            simpa [getD_nil_nat] using hj (j + 1) (by omega)
    | cons y ys =>
      simp only [lexPad]
      by_cases hxy : x ≠ y
      · rw [if_pos hxy]
        constructor
        · intro hc
          exact ⟨0, by simp; omega, by omega⟩
        · rintro ⟨i, hi, hj⟩
          cases i with
          | zero => simp at hi; omega
          | succ i0 =>
            have := hj 0 (by omega)
            simp at this
            exact absurd this hxy
      · rw [if_neg hxy]
        have hxy0 : x = y := by omega
        subst hxy0
        rw [ih ys]
        constructor
        · rintro ⟨i, hi, hj⟩
          refine ⟨i + 1, by simpa using hi, ?_⟩
          intro j hji
          cases j with
          | zero => simp
          | succ j0 => simpa using hj j0 (by omega)
        · rintro ⟨i, hi, hj⟩
          cases i with
          | zero => simp at hi
          | succ i0 =>
            refine ⟨i0, by simpa using hi, ?_⟩
            intro j hji
            simpa using hj (j + 1) (by omega)

lemma lexPad_trans {a b c : List ℕ} (hab : lexPad a b < 0)
    (hbc : lexPad b c < 0) : lexPad a c < 0 := by
  rw [lexPad_neg_iff] at hab hbc ⊢
  obtain ⟨i, hi, hji⟩ := hab
  obtain ⟨k, hk, hjk⟩ := hbc
  rcases lt_trichotomy i k with h | h | h
  · refine ⟨i, ?_, ?_⟩
    · rw [← hjk i h]; exact hi
    · intro j hj
      rw [hji j hj, hjk j (lt_trans hj h)]
  · subst h
    exact ⟨i, lt_trans hi hk, fun j hj => by rw [hji j hj, hjk j hj]⟩
  · refine ⟨k, ?_, ?_⟩
    · rw [hji k h]; exact hk
    · intro j hj
      rw [hji j (lt_trans hj h), hjk j hj]

/-! ### Claim theorems: decision rule and comparator -/

/-- C3: the decision rule is a pure total function on pairs of naturals:
`decideRec better worse` is `Fold` exactly when `better > worse`, is `Call`
exactly when `better ≤ worse`, in particular at `better = worse = 0`, and it
is precisely the rule `analyzeSimple` applies to its final counts. -/
theorem C3_decide_rule :
    (∀ b w : ℕ, decideRec b w = Recommendation.fold ↔ w < b) ∧
    (∀ b w : ℕ, decideRec b w = Recommendation.call ↔ b ≤ w) ∧
    decideRec 0 0 = Recommendation.call ∧
    (∀ hero flop : List Card, (analyzeSimple hero flop).recommendation =
      decideRec (analyzeSimple hero flop).better
        (analyzeSimple hero flop).worse) := by
  refine ⟨fun b w => ?_, fun b w => ?_, rfl, fun hero flop => rfl⟩
  · unfold decideRec
    split
    · simp_all
    · simp_all
  · unfold decideRec
    split
    · simp_all
    · simp_all

/-- C6: `compareRankTuples` is exactly the lexicographic comparison with
missing trailing positions read as 0 (`lexPad`, written from the spec);
it satisfies `compare x x = 0`, antisymmetry (`compare a b = -compare b a`,
so nonzero values have opposite signs), transitivity of the strict order,
and the category (position 0) dominates all tiebreaks. -/
theorem C6_compare_total_order :
    (∀ a b : List ℕ, compareRankTuples a b = lexPad a b) ∧
    (∀ x : List ℕ, compareRankTuples x x = 0) ∧
    (∀ a b : List ℕ, compareRankTuples a b = -compareRankTuples b a) ∧
    (∀ a b c : List ℕ, compareRankTuples a b < 0 → compareRankTuples b c < 0 →
      compareRankTuples a c < 0) ∧
    (∀ a b : List ℕ, a.getD 0 0 < b.getD 0 0 → compareRankTuples a b < 0) := by
  refine ⟨compareRankTuples_eq_lexPad, ?_, ?_, ?_, ?_⟩
  · intro x
    rw [compareRankTuples_eq_lexPad]; exact lexPad_self x
  · intro a b
    rw [compareRankTuples_eq_lexPad, compareRankTuples_eq_lexPad]
    exact lexPad_swap a b
  · intro a b c hab hbc
    rw [compareRankTuples_eq_lexPad] at hab hbc ⊢
    exact lexPad_trans hab hbc
  · intro a b h
    rw [compareRankTuples_eq_lexPad, lexPad_neg_iff]
    exact ⟨0, h, by omega⟩

/-- Witness for C6 at concrete tuples: `[1,2] < [1,3] < [2]`, with
transitivity and category dominance applied at these inputs. -/
theorem C6_witness :
    compareRankTuples [1, 2] [2] < 0 ∧ compareRankTuples [1, 3] [2] < 0 := by
  have h := C6_compare_total_order
  refine ⟨h.2.2.2.1 [1, 2] [1, 3] [2] (by decide) (by decide), ?_⟩
  exact h.2.2.2.2 [1, 3] [2] (by decide)

/-- C7 counterexample: the tuples `[1]` and `[1,0]` are not identical yet
compare equal, because missing trailing positions are padded with 0. -/
theorem C7_counterexample :
    compareRankTuples [1] [1, 0] = 0 ∧ ([1] : List ℕ) ≠ [1, 0] := by
  refine ⟨by decide, by decide⟩

/-- C7 (amended): `compareRankTuples a b = 0` exactly when `a` and `b` agree
at every position once missing trailing entries are read as 0, i.e. when they
are identical up to trailing zeros — not only when they are identical. -/
theorem C7_compare_zero_iff (a b : List ℕ) :
    compareRankTuples a b = 0 ↔ ∀ i, a.getD i 0 = b.getD i 0 := by
  rw [compareRankTuples_eq_lexPad]
  exact lexPad_zero_iff a b

/-! ### Claim theorems: evaluator totality (C4) -/

/-- `evaluate` always returns a nonempty tuple led by a category in [0,8]:
every branch of the pattern chain returns an explicit category head. -/
lemma evaluate_shape (cards : List Card) :
    ∃ c t, evaluate cards = c :: t ∧ c ≤ 8 := by
  simp only [evaluate]
  split
  next t heq =>
    obtain ⟨cs, _, hf⟩ := List.exists_of_findSome?_eq_some heq
    split at hf
    · split at hf
      · have ht := Option.some.inj hf
        exact ⟨8, [bestStraightHigh ((cs.map Card.r).dedup)], ht.symm, by omega⟩
      · simp at hf
    · simp at hf
  next heq =>
    split
    next q l heq2 => exact ⟨7, _, rfl, by omega⟩
    next heq2 =>
      split
      · exact ⟨6, _, rfl, by omega⟩
      · split
        next cs heq3 => exact ⟨5, _, rfl, by omega⟩
        next heq3 =>
          split
          · exact ⟨4, _, rfl, by omega⟩
          · split
            next t l heq4 => exact ⟨3, _, rfl, by omega⟩
            next heq4 =>
              split
              next p1 p2 l heq5 => exact ⟨2, _, rfl, by omega⟩
              next p heq5 => exact ⟨1, _, rfl, by omega⟩
              next heq5 => exact ⟨0, _, rfl, by omega⟩

/-- C4 counterexample: `evaluate` does not fail on invalid input.  On a
4-card input it returns the high-card tuple, and on a 5-card input containing
a duplicated ace it returns a one-pair tuple — no `InvalidHandSize` or
`DuplicateCard` failure exists in the code. -/
theorem C4_counterexample :
    evaluate [⟨14, 'h'⟩, ⟨13, 'c'⟩, ⟨12, 'd'⟩, ⟨11, 's'⟩] = [0, 14, 13, 12, 11] ∧
    evaluate [⟨14, 'h'⟩, ⟨14, 'h'⟩, ⟨13, 'c'⟩, ⟨12, 'd'⟩, ⟨11, 's'⟩] =
      [1, 14, 13, 12, 11] := ⟨by decide, by decide⟩

/-- C4 (amended): `evaluate` performs no input validation at all — it is a
total function that, for every card list (undersized, oversized, or with
duplicates alike), returns a tuple headed by a category in [0,8]. -/
theorem C4_evaluate_total (cards : List Card) :
    ∃ c t, evaluate cards = c :: t ∧ c ≤ 8 :=
  evaluate_shape cards

/-! ### Claim theorems: card parsing (C5) -/

lemma headD_map_space (l : List Char) :
    ((l.map Char.toUpper).headD ' ') = (l.headD ' ').toUpper := by
  cases l <;> simp

lemma getLastD_map_space (l : List Char) :
    ((l.map Char.toUpper).getLastD ' ') = (l.getLastD ' ').toUpper := by
  rw [List.getLastD_eq_getLast?, List.getLastD_eq_getLast?, List.getLast?_map]
  cases h : l.getLast? with
  | none => simp [Option.getD]
  | some x => simp [Option.getD]

/-- C5 counterexample: `strToCard` accepts the 3-character text `AXh`
(returning the ace of hearts) although that text is not one rank character
immediately followed by one suit character. -/
theorem C5_counterexample :
    strToCard ['A', 'X', 'h'] = some ⟨14, 'h'⟩ ∧
    (['A', 'X', 'h'] : List Char).length ≠ 2 := ⟨by decide, by decide⟩

/-- C5 (amended): `strToCard` succeeds exactly when, after trimming
surrounding whitespace, the text has length ≥ 2, its FIRST character
uppercases to a rank character, and its LAST character case-normalizes to a
suit character; every character in between is ignored, and the returned card
is built from those two characters alone. -/
theorem C5_strToCard_eq (t : List Char) :
    strToCard t =
      if 2 ≤ (jsTrim t).length ∧
          ((jsTrim t).headD ' ').toUpper ∈ rankChars ∧
          ((jsTrim t).getLastD ' ').toUpper.toLower ∈ suitChars then
        some ⟨rankChars.indexOf ((jsTrim t).headD ' ').toUpper + 2,
          ((jsTrim t).getLastD ' ').toUpper.toLower⟩
      else none := by
  simp only [strToCard, headD_map_space, getLastD_map_space, List.length_map,
    List.elem_eq_mem, decide_eq_true_eq]
  by_cases h1 : 2 ≤ (jsTrim t).length
  · rw [if_neg (by omega)]
    by_cases h2 : ((jsTrim t).headD ' ').toUpper ∈ rankChars
    · rw [if_pos (by simpa using h2)]
      by_cases h3 : ((jsTrim t).getLastD ' ').toUpper.toLower ∈ suitChars
      · rw [if_pos (by simpa using h3), if_pos ⟨h1, h2, h3⟩]
      · rw [if_neg (by simpa using h3), if_neg (by tauto)]
    · rw [if_neg (by simpa using h2), if_neg (by tauto)]
  · rw [if_pos (by omega), if_neg (by tauto)]

/-! ### Claim theorems: card-set parsing (C9) -/

lemma cardsEqual_iff (a b : Card) : cardsEqual a b = true ↔ a = b := by
  unfold cardsEqual
  cases a
  cases b
  simp [Card.mk.injEq]

lemma any_cardsEqual (l : List Card) (c : Card) :
    (l.any fun x => cardsEqual x c) = true ↔ c ∈ l := by
  simp only [List.any_eq_true, cardsEqual_iff]
  constructor
  · rintro ⟨x, hx, rfl⟩; exact hx
  · intro h; exact ⟨c, h, rfl⟩

/-- Spec-side: parse every token with `strToCard`, succeeding only when all
tokens parse, and return the cards in token order. -/
def parseTokens : List (List Char) → Option (List Card)
  | [] => some []
  | p :: ps => (strToCard p).bind fun c => (parseTokens ps).map fun cs => c :: cs

lemma parseCardsLoop_eq (ps : List (List Char)) : ∀ acc : List Card,
    acc.Nodup →
    parseCardsLoop ps acc =
      (parseTokens ps).bind fun cs =>
        if (acc ++ cs).Nodup then some (acc ++ cs) else none := by
  induction ps with
  | nil =>
    intro acc hacc
    simp [parseCardsLoop, parseTokens, hacc]
  | cons p ps ih =>
    intro acc hacc
    simp only [parseCardsLoop, parseTokens]
    cases hp : strToCard p with
    | none => simp
    | some c =>
      simp only [Option.some_bind]
      by_cases hmem : c ∈ acc
      · rw [if_pos (by rw [any_cardsEqual]; exact hmem)]
        cases hps : parseTokens ps with
        | none => simp
        | some cs2 =>
          simp only [Option.map_some']
          simp only [Option.some_bind]
          rw [if_neg fun hnd =>
            (List.nodup_append.mp hnd).2.2 hmem (List.mem_cons_self c cs2)]
      · have hne : ¬((acc.any fun x => cardsEqual x c) = true) :=
          fun hc => hmem ((any_cardsEqual acc c).mp hc)
        rw [if_neg hne]
        rw [ih (acc ++ [c]) (by
          rw [List.nodup_append]
          exact ⟨hacc, List.nodup_singleton c, by
            intro x hx hxc
            rcases List.mem_singleton.mp hxc with rfl
            exact hmem hx⟩)]
        cases hps : parseTokens ps with
        | none => simp
        | some cs2 =>
          simp only [Option.map_some']
          simp only [Option.some_bind]
          rw [List.append_assoc]
          rfl

/-- C9: `parseCards(text, n)` fails exactly when the whitespace-token count
differs from `n`, some token fails `strToCard`, or two parsed cards are
equal; otherwise it returns the parsed cards in token order (captured by the
spec-side `parseTokens`).  In particular `parseCards "Ah" 2` and
`parseCards "Ah Ah" 2` both fail. -/
theorem C9_parseCards_characterization :
    (∀ (text : List Char) (n : ℕ),
      parseCards text n =
        if (tokenize text).length = n then
          (parseTokens (tokenize text)).bind fun cs =>
            if cs.Nodup then some cs else none
        else none) ∧
    parseCards ['A', 'h'] 2 = none ∧
    parseCards ['A', 'h', ' ', 'A', 'h'] 2 = none := by
  refine ⟨fun text n => ?_, by decide, by decide⟩
  unfold parseCards
  by_cases h : (tokenize text).length = n
  · rw [if_neg (by omega), if_pos h]
    simpa using parseCardsLoop_eq (tokenize text) [] List.nodup_nil
  · rw [if_pos h, if_neg h]

/-! ### Claim theorems: exhaustive enumeration count (C2) -/

lemma makeDeck_nodup : makeDeck.Nodup := by decide

lemma makeDeck_length : makeDeck.length = 52 := by decide

lemma removeKnown_length (known : List Card) : ∀ d : List Card, d.Nodup →
    known.Nodup → (∀ c ∈ known, c ∈ d) →
    (known.foldl (fun d c => d.eraseP fun x => cardsEqual x c) d).length
      = d.length - known.length := by
  induction known with
  | nil => intro d _ _ _; simp
  | cons c ks ih =>
    intro d hd hk hsub
    simp only [List.foldl_cons]
    have hcd : c ∈ d := hsub c (List.mem_cons_self c ks)
    have hpa : (fun x => cardsEqual x c) c = true := by
      simp [cardsEqual_iff]
    have hlen : (d.eraseP fun x => cardsEqual x c).length = d.length - 1 :=
      List.length_eraseP_of_mem hcd hpa
    have hnd : (d.eraseP fun x => cardsEqual x c).Nodup :=
      List.Nodup.eraseP _ hd
    have hsub2 : ∀ x ∈ ks, x ∈ d.eraseP fun y => cardsEqual y c := by
      intro x hx
      have hxc : x ≠ c := by
        intro hxeq
        subst hxeq
        exact (List.nodup_cons.mp hk).1 hx
      have hnp : ¬((fun y => cardsEqual y c) x = true) := by
        simp [cardsEqual_iff]
        exact hxc
      exact (List.mem_eraseP_of_neg (p := fun y => cardsEqual y c) (a := x)
        hnp).mpr (hsub x (List.mem_cons_of_mem c hx))
    rw [ih _ hnd (List.nodup_cons.mp hk).2 hsub2, hlen]
    simp only [List.length_cons]
    omega

lemma length_allPairs {α : Type} : ∀ l : List α,
    (allPairs l).length = l.length.choose 2 := by
  intro l
  induction l with
  | nil => simp [allPairs]
  | cons x xs ih =>
    simp only [allPairs, List.length_append, List.length_map, ih,
      List.length_cons, Nat.choose_succ_succ, Nat.choose_one_right]

lemma analyze_counts (flop : List Card) (heroRank : List ℕ) :
    ∀ (ps : List (Card × Card)) (st : AnalyzeState),
      (ps.foldl (analyzeStep flop heroRank) st).better +
        (ps.foldl (analyzeStep flop heroRank) st).worse +
        (ps.foldl (analyzeStep flop heroRank) st).tie
        = st.better + st.worse + st.tie + ps.length := by
  intro ps
  induction ps with
  | nil => intro st; simp
  | cons q qs ih =>
    intro st
    simp only [List.foldl_cons, List.length_cons]
    rw [ih]
    simp only [analyzeStep]
    split
    · simp
      omega
    · split
      · simp
        omega
      · simp
        omega

/-- C2: for a valid scenario (2 hero cards, 3 flop cards, all five distinct
and drawn from the 52-card deck), the remaining deck has exactly 47 cards and
the enumeration classifies each of the C(47,2) = 1081 unordered pairs into
exactly one bucket, so `better + worse + tie = 1081`. -/
theorem C2_count_conservation (hero flop : List Card)
    (h2 : hero.length = 2) (h3 : flop.length = 3)
    (hn : (hero ++ flop).Nodup) (hv : ∀ c ∈ hero ++ flop, c ∈ makeDeck) :
    ((hero ++ flop).foldl (fun d c => d.eraseP fun x => cardsEqual x c)
      makeDeck).length = 47 ∧
    (analyzeSimple hero flop).better + (analyzeSimple hero flop).worse +
      (analyzeSimple hero flop).tie = 1081 := by
  have hdl : ((hero ++ flop).foldl
      (fun d c => d.eraseP fun x => cardsEqual x c) makeDeck).length = 47 := by
    rw [removeKnown_length (hero ++ flop) makeDeck makeDeck_nodup hn hv,
      makeDeck_length]
    simp [List.length_append, h2, h3]
  refine ⟨hdl, ?_⟩
  simp only [analyzeSimple]
  rw [analyze_counts]
  rw [length_allPairs, hdl]
  decide

/-- Witness for C2 at the repository's default scenario
(hero `Ah Ad`, flop `Kc 7h 2d`). -/
theorem C2_witness :
    (analyzeSimple [⟨14, 'h'⟩, ⟨14, 'd'⟩] [⟨13, 'c'⟩, ⟨7, 'h'⟩, ⟨2, 'd'⟩]).better +
      (analyzeSimple [⟨14, 'h'⟩, ⟨14, 'd'⟩] [⟨13, 'c'⟩, ⟨7, 'h'⟩, ⟨2, 'd'⟩]).worse +
      (analyzeSimple [⟨14, 'h'⟩, ⟨14, 'd'⟩] [⟨13, 'c'⟩, ⟨7, 'h'⟩, ⟨2, 'd'⟩]).tie = 1081 :=
  (C2_count_conservation [⟨14, 'h'⟩, ⟨14, 'd'⟩] [⟨13, 'c'⟩, ⟨7, 'h'⟩, ⟨2, 'd'⟩]
    (by decide) (by decide) (by decide) (by decide)).2

/-! ### Claim theorems: breakdown invariants (C10) -/

/-- Total count recorded in a breakdown across the nine category labels. -/
def sumB (b : Breakdown) : ℕ := ∑ c ∈ Finset.range 9, (b (catName c)).count

/-- Sample-list bound: every label stores at most `min 3 count` samples. -/
def sampOK (b : Breakdown) : Prop :=
  ∀ l, (b l).samples.length ≤ min 3 (b l).count

lemma catName_inj : ∀ i < 9, ∀ j < 9, catName i = catName j → i = j := by
  decide

lemma bump_count (b : Breakdown) (L : String) (s : List Char) (l : String) :
    ((bumpBreakdown b L s) l).count = (b l).count + if l = L then 1 else 0 := by
  unfold bumpBreakdown
  split
  next h => subst h; simp
  next h => simp [h]

lemma sumB_bump (b : Breakdown) (c0 : ℕ) (hc : c0 < 9) (s : List Char) :
    sumB (bumpBreakdown b (catName c0) s) = sumB b + 1 := by
  unfold sumB
  simp only [bump_count]
  rw [Finset.sum_add_distrib]
  congr 1
  have he : ∀ c ∈ Finset.range 9,
      (if catName c = catName c0 then 1 else 0) = if c = c0 then 1 else 0 := by
    intro c hcr
    by_cases h : c = c0
    · subst h; simp
    · rw [if_neg h, if_neg]
      intro hcat
      exact h (catName_inj c (Finset.mem_range.mp hcr) c0 hc hcat)
  rw [Finset.sum_congr rfl he, Finset.sum_ite_eq' (Finset.range 9) c0 fun _ => 1,
    if_pos (Finset.mem_range.mpr hc)]

lemma sampOK_empty : sampOK emptyBreakdown := by
  intro l
  simp [emptyBreakdown]

lemma sumB_empty : sumB emptyBreakdown = 0 := by
  unfold sumB
  simp [emptyBreakdown]

lemma sampOK_bump (b : Breakdown) (L : String) (s : List Char)
    (h : sampOK b) : sampOK (bumpBreakdown b L s) := by
  intro l
  unfold bumpBreakdown
  split
  next hl =>
    have hb := h L
    subst hl
    by_cases h3 : (b l).samples.length < 3
    · simp only [if_pos h3, List.length_append, List.length_cons,
        List.length_nil]
      omega
    · simp only [if_neg h3]
      omega
  next hl => exact h l

/-- Combined loop invariant for the breakdown aggregation. -/
def analyzeInv (st : AnalyzeState) : Prop :=
  sumB st.betterBreakdown = st.better ∧ sumB st.worseBreakdown = st.worse ∧
    sampOK st.betterBreakdown ∧ sampOK st.worseBreakdown

lemma analyzeStep_inv (flop : List Card) (heroRank : List ℕ)
    (st : AnalyzeState) (q : Card × Card) (h : analyzeInv st) :
    analyzeInv (analyzeStep flop heroRank st q) := by
  obtain ⟨c0, t0, heq, hle⟩ := evaluate_shape ([q.1, q.2] ++ flop)
  obtain ⟨h1, h2, h3, h4⟩ := h
  simp only [analyzeStep]
  split
  · refine ⟨?_, h2, sampOK_bump _ _ _ h3, h4⟩
    rw [heq]
    simp only [List.headD_cons]
    rw [sumB_bump _ c0 (by omega) _, h1]
  · split
    · refine ⟨h1, ?_, h3, sampOK_bump _ _ _ h4⟩
      rw [heq]
      simp only [List.headD_cons]
      rw [sumB_bump _ c0 (by omega) _, h2]
    · exact ⟨h1, h2, h3, h4⟩

lemma analyzeFold_inv (flop : List Card) (heroRank : List ℕ) :
    ∀ (ps : List (Card × Card)) (st : AnalyzeState), analyzeInv st →
      analyzeInv (ps.foldl (analyzeStep flop heroRank) st) := by
  intro ps
  induction ps with
  | nil => intro st h; exact h
  | cons q qs ih =>
    intro st h
    exact ih _ (analyzeStep_inv flop heroRank st q h)

/-- C10: in every analysis result the per-category counts of each breakdown
sum to the corresponding bucket total, and each label stores at most
`min 3 count` samples. -/
theorem C10_breakdown_invariants (hero flop : List Card) :
    sumB (analyzeSimple hero flop).betterBreakdown =
      (analyzeSimple hero flop).better ∧
    sumB (analyzeSimple hero flop).worseBreakdown =
      (analyzeSimple hero flop).worse ∧
    sampOK (analyzeSimple hero flop).betterBreakdown ∧
    sampOK (analyzeSimple hero flop).worseBreakdown := by
  simp only [analyzeSimple]
  exact analyzeFold_inv _ _ _ _ ⟨sumB_empty, sumB_empty, sampOK_empty, sampOK_empty⟩

/-! ### Straight detection: spec characterization (C8, also used for C1) -/

/-- Ace-low closure of a rank set: when an ace (14) is present, the low ace
(1) counts as present too. -/
def aceLow (S : Finset ℕ) : Finset ℕ := if 14 ∈ S then insert 1 S else S

/-- Values that end a run of 5 consecutive present values. -/
def goodEnds (S : Finset ℕ) : Finset ℕ :=
  S.filter fun v => v - 1 ∈ S ∧ v - 2 ∈ S ∧ v - 3 ∈ S ∧ v - 4 ∈ S

/-- Spec-side straight high: the largest endpoint of a run of ≥ 5 consecutive
ranks (ace counting low and high), 0 when there is none. -/
def specStraightHigh (S : Finset ℕ) : ℕ := (goodEnds (aceLow S)).sup id

lemma straightLoop_spec (S : Finset ℕ) :
    ∀ (l : List ℕ) (prev run best : ℕ),
      l.Sorted (· < ·) →
      (∀ x ∈ l, prev < x) →
      (∀ x ∈ l, x ∈ S) →
      (∀ x ∈ S, prev < x → x ∈ l) →
      prev ∈ S →
      1 ≤ run →
      (∀ j < run, prev - j ∈ S) →
      prev - run ∉ S →
      best = ((goodEnds S).filter (· ≤ prev)).sup id →
      straightLoop l prev run best = (goodEnds S).sup id := by
  intro l
  induction l with
  | nil =>
    intro prev run best _ _ _ habove hprev _ _ _ hbest
    have hall : (goodEnds S).filter (· ≤ prev) = goodEnds S := by
      apply Finset.filter_true_of_mem
      intro v hv
      have hvS : v ∈ S := (Finset.mem_filter.mp hv).1
      by_contra hle
      exact absurd (habove v hvS (by omega)) (List.not_mem_nil v)
    rw [straightLoop, hbest, hall]
  | cons x l ih =>
    intro prev run best hsort hgt hS habove hprev hrun hchain hmax hbest
    have hpx : prev < x := hgt x (List.mem_cons_self x l)
    have hxS : x ∈ S := hS x (List.mem_cons_self x l)
    have hsl : l.Sorted (· < ·) := (List.sorted_cons.mp hsort).2
    have hlgt : ∀ y ∈ l, x < y := (List.sorted_cons.mp hsort).1
    have hlS : ∀ y ∈ l, y ∈ S := fun y hy => hS y (List.mem_cons_of_mem x hy)
    have hlabove : ∀ y ∈ S, x < y → y ∈ l := by
      intro y hy hxy
      rcases List.mem_cons.mp (habove y hy (by omega)) with h | h
      · omega
      · exact h
    simp only [straightLoop]
    by_cases hcons : x = prev + 1
    · rw [if_pos hcons]
      -- the chain extends through x
      have hchain2 : ∀ j < run + 1, x - j ∈ S := by
        intro j hj
        cases j with
        | zero => simpa using hxS
        | succ k =>
          have : x - (k + 1) = prev - k := by omega
          rw [this]
          exact hchain k (by omega)
      have hmax2 : x - (run + 1) ∉ S := by
        have : x - (run + 1) = prev - run := by omega
        rw [this]
        exact hmax
      have hgood_iff : x ∈ goodEnds S ↔ 5 ≤ run + 1 := by
        constructor
        · intro hg
          by_contra hlt
          have hr4 : run + 1 ≤ 4 := by omega
          obtain ⟨-, h1, h2, h3, h4⟩ := Finset.mem_filter.mp hg
          have hxr : x - (run + 1) ∈ S := by
            have hcase : run = 1 ∨ run = 2 ∨ run = 3 := by omega
            rcases hcase with rfl | rfl | rfl
            · simpa using h2
            · simpa using h3
            · simpa using h4
          exact hmax2 hxr
        · intro h5
          refine Finset.mem_filter.mpr ⟨hxS, ?_, ?_, ?_, ?_⟩
          · exact hchain2 1 (by omega)
          · exact hchain2 2 (by omega)
          · exact hchain2 3 (by omega)
          · exact hchain2 4 (by omega)
      have hsup : ∀ v ∈ goodEnds S, v ≤ x → v ≤ prev ∨ v = x := by
        intro v _ hvx
        omega
      by_cases hxg : x ∈ goodEnds S
      · have hfe : (goodEnds S).filter (· ≤ x) =
            insert x ((goodEnds S).filter (· ≤ prev)) := by
          ext v
          simp only [Finset.mem_filter, Finset.mem_insert]
          constructor
          · rintro ⟨hv, hvx⟩
            rcases hsup v hv hvx with h | h
            · exact Or.inr ⟨hv, h⟩
            · exact Or.inl h
          · rintro (rfl | ⟨hv, hvp⟩)
            · exact ⟨hxg, le_refl _⟩
            · exact ⟨hv, by omega⟩
        have h5 : 5 ≤ run + 1 := hgood_iff.mp hxg
        rw [if_pos h5]
        refine ih x (run + 1) (max best x) hsl hlgt hlS hlabove hxS
          (by omega) hchain2 hmax2 ?_
        rw [hfe, hbest, Finset.sup_insert]
        simp only [id_eq, sup_eq_max]
        exact max_comm _ _
      · have hfe : (goodEnds S).filter (· ≤ x) =
            (goodEnds S).filter (· ≤ prev) := by
          ext v
          simp only [Finset.mem_filter]
          constructor
          · rintro ⟨hv, hvx⟩
            rcases hsup v hv hvx with h | h
            · exact ⟨hv, h⟩
            · exact absurd (h ▸ hv) hxg
          · rintro ⟨hv, hvp⟩
            exact ⟨hv, by omega⟩
        have h5 : ¬(5 ≤ run + 1) := fun h => hxg (hgood_iff.mpr h)
        rw [if_neg h5]
        refine ih x (run + 1) best hsl hlgt hlS hlabove hxS
          (by omega) hchain2 hmax2 ?_
        rw [hfe, hbest]
    · rw [if_neg hcons, if_pos (by omega : x ≠ prev)]
      have hchain1 : ∀ j < 1, x - j ∈ S := by
        intro j hj
        have : j = 0 := by omega
        subst this
        simpa using hxS
      have hmax1 : x - 1 ∉ S := by
        intro hx1
        have hgt1 : prev < x - 1 := by omega
        rcases List.mem_cons.mp (habove (x - 1) hx1 hgt1) with h | h
        · omega
        · have := hlgt (x - 1) h
          omega
      have hxg : x ∉ goodEnds S := by
        intro hg
        exact hmax1 (Finset.mem_filter.mp hg).2.1
      have hfe : (goodEnds S).filter (· ≤ x) =
          (goodEnds S).filter (· ≤ prev) := by
        ext v
        simp only [Finset.mem_filter]
        constructor
        · rintro ⟨hv, hvx⟩
          refine ⟨hv, ?_⟩
          by_contra hvp
          have hvS : v ∈ S := (Finset.mem_filter.mp hv).1
          have hvl : v ∈ x :: l := habove v hvS (by omega)
          rcases List.mem_cons.mp hvl with h | h
          · exact hxg (h ▸ hv)
          · have := hlgt v h
            omega
        · rintro ⟨hv, hvp⟩
          exact ⟨hv, by omega⟩
      refine ih x 1 best hsl hlgt hlS hlabove hxS (le_refl 1) hchain1 hmax1 ?_
      rw [hfe, hbest]

lemma sorted_lt_of_sorted_le_nodup {l : List ℕ} (hs : l.Sorted (· ≤ ·))
    (hn : l.Nodup) : l.Sorted (· < ·) :=
  (hs.and hn).imp fun h => lt_of_le_of_ne h.1 h.2

lemma bestStraightHigh_eq_spec (l : List ℕ) (hb : ∀ x ∈ l, 2 ≤ x ∧ x ≤ 14) :
    bestStraightHigh l = specStraightHigh l.toFinset := by
  have hperm : List.Perm ((l.dedup).insertionSort (· ≤ ·)) l.dedup :=
    List.perm_insertionSort _ _
  set arr := (l.dedup).insertionSort (· ≤ ·) with harr
  have hnodup : arr.Nodup := hperm.symm.nodup (List.nodup_dedup l)
  have hsle : arr.Sorted (· ≤ ·) := List.sorted_insertionSort _ _
  have hslt : arr.Sorted (· < ·) := sorted_lt_of_sorted_le_nodup hsle hnodup
  have hmem : ∀ x, x ∈ arr ↔ x ∈ l.toFinset := by
    intro x
    rw [List.mem_toFinset, hperm.mem_iff, List.mem_dedup]
  have hbnds : ∀ x ∈ arr, 2 ≤ x ∧ x ≤ 14 := by
    intro x hx
    exact hb x (List.mem_dedup.mp (hperm.subset hx))
  have h0S : (0 : ℕ) ∉ l.toFinset := fun h => by
    have := hb 0 (List.mem_toFinset.mp h)
    omega
  simp only [bestStraightHigh]
  rw [← harr]
  by_cases hc : arr.contains 14
  · have h14arr : (14 : ℕ) ∈ arr := by
      simpa using hc
    have h14S : (14 : ℕ) ∈ l.toFinset := (hmem 14).mp h14arr
    have hS2 : aceLow l.toFinset = insert 1 l.toFinset := by
      unfold aceLow
      rw [if_pos h14S]
    rw [if_pos hc]
    have := straightLoop_spec (insert 1 l.toFinset) arr 1 1 0 hslt
      (fun x hx => by have := hbnds x hx; omega)
      (fun x hx => Finset.mem_insert_of_mem ((hmem x).mp hx))
      (by
        intro x hx h1x
        rcases Finset.mem_insert.mp hx with rfl | hxS
        · omega
        · exact (hmem x).mpr hxS)
      (Finset.mem_insert_self 1 _)
      (le_refl 1)
      (by
        intro j hj
        have : j = 0 := by omega
        subst this
        simpa using Finset.mem_insert_self 1 _)
      (by
        intro h01
        rcases Finset.mem_insert.mp h01 with h | h
        · omega
        · exact h0S (by simpa using h))
      (by
        have hemp : (goodEnds (insert 1 l.toFinset)).filter (· ≤ 1) = ∅ := by
          rw [Finset.filter_eq_empty_iff]
          intro v hv
          obtain ⟨hvS, hv1, -, -, -⟩ := Finset.mem_filter.mp hv
          intro hle
          have hv1' : v = 1 := by
            rcases Finset.mem_insert.mp hvS with rfl | hvS2
            · rfl
            · have := hb v (List.mem_toFinset.mp hvS2)
              omega
          subst hv1'
          rcases Finset.mem_insert.mp hv1 with h | h
          · omega
          · exact h0S (by simpa using h)
        rw [hemp]
        simp)
    unfold specStraightHigh
    rw [hS2]
    exact this
  · rw [if_neg hc]
    have h14S : (14 : ℕ) ∉ l.toFinset := by
      intro h
      exact hc (by simpa using (hmem 14).mpr h)
    have hS2 : aceLow l.toFinset = l.toFinset := by
      unfold aceLow
      rw [if_neg h14S]
    unfold specStraightHigh
    rw [hS2]
    cases harr2 : arr with
    | nil =>
      have hSe : l.toFinset = ∅ := by
        rw [Finset.eq_empty_iff_forall_not_mem]
        intro x hx
        rw [← hmem x, harr2] at hx
        exact List.not_mem_nil x hx
      rw [hSe]
      simp [goodEnds]
    | cons a rest =>
      have hsltc := harr2 ▸ hslt
      have hmemc : ∀ x, x ∈ a :: rest ↔ x ∈ l.toFinset := fun x => harr2 ▸ hmem x
      have hbndsc : ∀ x ∈ a :: rest, 2 ≤ x ∧ x ≤ 14 := fun x hx =>
        hbnds x (harr2 ▸ hx)
      have hagt : ∀ y ∈ rest, a < y := (List.sorted_cons.mp hsltc).1
      have haS : a ∈ l.toFinset := (hmemc a).mp (List.mem_cons_self a rest)
      have ha2 : 2 ≤ a := (hbndsc a (List.mem_cons_self a rest)).1
      refine straightLoop_spec l.toFinset rest a 1 0
        (List.sorted_cons.mp hsltc).2 hagt
        (fun x hx => (hmemc x).mp (List.mem_cons_of_mem a hx))
        (by
          intro x hx hax
          rcases List.mem_cons.mp ((hmemc x).mpr hx) with rfl | h
          · omega
          · exact h)
        haS (le_refl 1)
        (by
          intro j hj
          have : j = 0 := by omega
          subst this
          simpa using haS)
        (by
          intro hm
          rcases List.mem_cons.mp ((hmemc (a - 1)).mpr hm) with h | h
          · omega
          · have := hagt (a - 1) h
            omega)
        (by
          have hemp : (goodEnds l.toFinset).filter (· ≤ a) = ∅ := by
            rw [Finset.filter_eq_empty_iff]
            intro v hv
            obtain ⟨hvS, hv1, -, -, -⟩ := Finset.mem_filter.mp hv
            intro hle
            rcases List.mem_cons.mp ((hmemc (v - 1)).mpr hv1) with h | h
            · omega
            · have := hagt (v - 1) h
              omega
          rw [hemp]
          simp)

/-! ### Rank-count characterizations and the C8 theorem -/

/-- Number of cards of rank `r` (the count tracked by `countsByRank`). -/
def rankCount (cards : List Card) (r : ℕ) : ℕ :=
  (cards.filter fun c => c.r == r).length

/-- Number of cards of suit `s` (the size of that suit's group). -/
def suitCount (cards : List Card) (s : Char) : ℕ :=
  (cards.filter fun c => c.s == s).length

/-- The distinct ranks held with multiplicity exactly `k`. -/
def ranksWithCount (cards : List Card) (k : ℕ) : List ℕ :=
  ((cards.map Card.r).dedup).filter fun r => rankCount cards r == k

lemma insertionSort_desc_eq_of_perm {l₁ l₂ : List ℕ}
    (h : List.Perm l₁ l₂) :
    l₁.insertionSort (· ≥ ·) = l₂.insertionSort (· ≥ ·) :=
  List.eq_of_perm_of_sorted
    (((List.perm_insertionSort _ l₁).trans h).trans
      (List.perm_insertionSort _ l₂).symm)
    (List.sorted_insertionSort _ l₁) (List.sorted_insertionSort _ l₂)

lemma countsByRank_perm (cards : List Card) :
    List.Perm (countsByRank cards)
      (((cards.map Card.r).dedup).map fun r => (r, rankCount cards r)) :=
  List.perm_insertionSort _ _

/-- The `quads`/`trips`/`pairs` lists of `evaluate` are the descending sorts
of the ranks with exactly that multiplicity. -/
lemma countFilter_eq (cards : List Card) (k : ℕ) :
    (((countsByRank cards).filter fun e => e.2 == k).map Prod.fst).insertionSort (· ≥ ·)
      = (ranksWithCount cards k).insertionSort (· ≥ ·) := by
  apply insertionSort_desc_eq_of_perm
  have hp := ((countsByRank_perm cards).filter fun e => e.2 == k).map Prod.fst
  refine hp.trans ?_
  rw [List.filter_map]
  rw [List.map_map]
  have : (Prod.fst ∘ fun r => (r, rankCount cards r)) = id := rfl
  rw [this, List.map_id]
  rfl

lemma suitGroups_mem {cards : List Card} {g : List Card}
    (hg : g ∈ suitGroups cards) :
    ∃ s ∈ (cards.map Card.s).dedup, g = cards.filter fun c => c.s == s := by
  unfold suitGroups at hg
  obtain ⟨s, hs, rfl⟩ := List.mem_map.mp hg
  exact ⟨s, hs, rfl⟩

lemma mem_makeDeck_iff (c : Card) :
    c ∈ makeDeck ↔ 2 ≤ c.r ∧ c.r ≤ 14 ∧ c.s ∈ suitChars := by
  unfold makeDeck
  rw [List.mem_flatMap]
  constructor
  · rintro ⟨r, hr, hc⟩
    obtain ⟨s, hs, rfl⟩ := List.mem_map.mp hc
    obtain ⟨i, hi, rfl⟩ := List.mem_range'.mp hr
    refine ⟨by simp, by simp; omega, hs⟩
  · rintro ⟨h2, h14, hs⟩
    refine ⟨c.r, ?_, ?_⟩
    · rw [List.mem_range']
      exact ⟨c.r - 2, by omega, by omega⟩
    · exact List.mem_map.mpr ⟨c.s, hs, rfl⟩

/-- The straight-branch input of `evaluate` evaluates to the spec straight
high of the rank set, for cards from the real deck. -/
lemma straight_branch_eq (cards : List Card)
    (hv : ∀ c ∈ cards, c ∈ makeDeck) :
    bestStraightHigh (((cards.map Card.r).dedup).insertionSort (· ≤ ·))
      = specStraightHigh (cards.map Card.r).toFinset := by
  have hb : ∀ x ∈ ((cards.map Card.r).dedup).insertionSort (· ≤ ·),
      2 ≤ x ∧ x ≤ 14 := by
    intro x hx
    have hx2 : x ∈ (cards.map Card.r).dedup :=
      (List.perm_insertionSort _ _).subset hx
    obtain ⟨c, hc, rfl⟩ := List.mem_map.mp (List.mem_dedup.mp hx2)
    have := (mem_makeDeck_iff c).mp (hv c hc)
    exact ⟨this.1, this.2.1⟩
  rw [bestStraightHigh_eq_spec _ hb]
  congr 1
  ext x
  simp only [List.mem_toFinset]
  rw [(List.perm_insertionSort _ _).mem_iff, List.mem_dedup]

/-- C8: for a duplicate-free 5–7 card hand from the deck with no flush (so
also no straight flush), no quads, and no full house, `evaluate` reports
category 4 exactly when the distinct ranks (ace also counting low, so the
wheel ends at 5) contain a run of ≥ 5 consecutive values, and it then returns
`[4, h]` where `h` is the highest endpoint of the highest such run
(`specStraightHigh`). -/
theorem C8_straight_detection (cards : List Card)
    (hv : ∀ c ∈ cards, c ∈ makeDeck) (hn : cards.Nodup)
    (h5 : 5 ≤ cards.length) (h7 : cards.length ≤ 7)
    (hf : ∀ s ∈ cards.map Card.s, suitCount cards s < 5)
    (hq : ranksWithCount cards 4 = [])
    (hfh : ¬(2 ≤ (ranksWithCount cards 3).length ∨
      (1 ≤ (ranksWithCount cards 3).length ∧
        1 ≤ (ranksWithCount cards 2).length))) :
    ((evaluate cards).headD 0 = 4 ↔
      0 < specStraightHigh (cards.map Card.r).toFinset) ∧
    (0 < specStraightHigh (cards.map Card.r).toFinset →
      evaluate cards = [4, specStraightHigh (cards.map Card.r).toFinset]) := by
  have hsf : ((suitGroups cards).findSome? fun cs =>
      if 5 ≤ cs.length then
        if 0 < bestStraightHigh ((cs.map Card.r).dedup) then
          some [8, bestStraightHigh ((cs.map Card.r).dedup)]
        else none
      else none) = none := by
    rw [List.findSome?_eq_none_iff]
    intro cs hcs
    obtain ⟨s, hs, rfl⟩ := suitGroups_mem hcs
    rw [if_neg]
    have := hf s (List.mem_dedup.mp hs)
    unfold suitCount at this
    omega
  have hfind : ((suitGroups cards).find? fun cs => 5 ≤ cs.length) = none := by
    rw [List.find?_eq_none]
    intro cs hcs
    obtain ⟨s, hs, rfl⟩ := suitGroups_mem hcs
    have := hf s (List.mem_dedup.mp hs)
    unfold suitCount at this
    simp only [decide_eq_true_eq]
    omega
  have key : (0 < specStraightHigh (cards.map Card.r).toFinset →
      evaluate cards = [4, specStraightHigh (cards.map Card.r).toFinset]) ∧
      (specStraightHigh (cards.map Card.r).toFinset = 0 →
        ∃ c t, evaluate cards = c :: t ∧ c ≤ 3) := by
    simp only [evaluate, hsf, countFilter_eq, hq, List.insertionSort,
      hfind, straight_branch_eq cards hv]
    rw [if_neg]
    · constructor
      · intro hpos
        rw [if_pos hpos]
      · intro hzero
        rw [if_neg (by omega)]
        split
        next t l heq4 => exact ⟨3, _, rfl, by omega⟩
        next heq4 =>
          split
          next p1 p2 l heq5 => exact ⟨2, _, rfl, by omega⟩
          next p heq5 => exact ⟨1, _, rfl, by omega⟩
          next heq5 => exact ⟨0, _, rfl, by omega⟩
    · rw [(List.perm_insertionSort _ _).length_eq,
        (List.perm_insertionSort _ _).length_eq]
      exact hfh
  constructor
  · constructor
    · intro h4
      by_contra hz
      obtain ⟨c, t, heq, hle⟩ := key.2 (by omega)
      rw [heq] at h4
      simp at h4
      omega
    · intro hpos
      rw [key.1 hpos]
      rfl
  · exact key.1

/-- Witness for C8 at the wheel hand A-2-3-4-5 (no flush): the straight is
detected with tiebreak 5. -/
theorem C8_witness :
    evaluate [⟨14, 's'⟩, ⟨2, 'h'⟩, ⟨3, 'd'⟩, ⟨4, 'c'⟩, ⟨5, 's'⟩] = [4, 5] := by
  have h := C8_straight_detection
    [⟨14, 's'⟩, ⟨2, 'h'⟩, ⟨3, 'd'⟩, ⟨4, 'c'⟩, ⟨5, 's'⟩]
    (by decide) (by decide) (by decide) (by decide) (by decide) (by decide)
    (by decide)
  have h2 := h.2 (by decide)
  have hs : specStraightHigh
      (([⟨14, 's'⟩, ⟨2, 'h'⟩, ⟨3, 'd'⟩, ⟨4, 'c'⟩,
        (⟨5, 's'⟩ : Card)].map Card.r).toFinset) = 5 := by decide
  rw [hs] at h2
  exact h2

/-! ### Refinement infrastructure (C1): comparator order and fold maximum -/

/-! Comparator order infrastructure for the refinement proof. -/

lemma cmp_cons_eq (a : ℕ) (as bs : List ℕ) :
    compareRankTuples (a :: as) (a :: bs) = compareRankTuples as bs := by
  rw [compareRankTuples_eq_lexPad, compareRankTuples_eq_lexPad]
  simp [lexPad]

lemma cmp_cons_lt {a b : ℕ} (h : a < b) (as bs : List ℕ) :
    compareRankTuples (a :: as) (b :: bs) < 0 := by
  rw [compareRankTuples_eq_lexPad]
  simp only [lexPad]
  rw [if_pos (by omega : a ≠ b)]
  omega

lemma cmp_self (a : List ℕ) : compareRankTuples a a = 0 := by
  rw [compareRankTuples_eq_lexPad]
  exact lexPad_self a

lemma cmp_nonpos_of_pointwise {a b : List ℕ}
    (h : ∀ i, a.getD i 0 ≤ b.getD i 0) : compareRankTuples a b ≤ 0 := by
  rw [compareRankTuples_eq_lexPad]
  by_cases hall : ∀ i, a.getD i 0 = b.getD i 0
  · rw [(lexPad_zero_iff a b).mpr hall]
  · push_neg at hall
    have hex : ∃ i, a.getD i 0 ≠ b.getD i 0 := hall
    have hfind := Nat.find_spec hex
    refine le_of_lt ((lexPad_neg_iff a b).mpr ⟨Nat.find hex, ?_, ?_⟩)
    · have := h (Nat.find hex)
      omega
    · intro j hj
      have := Nat.find_min hex hj
      omega

lemma cmp_le_trans {a b c : List ℕ} (hab : compareRankTuples a b ≤ 0)
    (hbc : compareRankTuples b c ≤ 0) : compareRankTuples a c ≤ 0 := by
  rw [compareRankTuples_eq_lexPad] at hab hbc ⊢
  rcases lt_or_eq_of_le hab with hab | hab
  · rcases lt_or_eq_of_le hbc with hbc | hbc
    · exact le_of_lt (lexPad_trans hab hbc)
    · have heq := (lexPad_zero_iff b c).mp hbc
      refine le_of_lt ((lexPad_neg_iff a c).mpr ?_)
      obtain ⟨i, hi, hj⟩ := (lexPad_neg_iff a b).mp hab
      exact ⟨i, heq i ▸ hi, fun j hji => (heq j) ▸ hj j hji⟩
  · have heq := (lexPad_zero_iff a b).mp hab
    rcases lt_or_eq_of_le hbc with hbc | hbc
    · refine le_of_lt ((lexPad_neg_iff a c).mpr ?_)
      obtain ⟨i, hi, hj⟩ := (lexPad_neg_iff b c).mp hbc
      exact ⟨i, (heq i).symm ▸ hi, fun j hji => (heq j).symm ▸ hj j hji⟩
    · refine le_of_eq ((lexPad_zero_iff a c).mpr ?_)
      intro i
      rw [heq i]
      exact (lexPad_zero_iff b c).mp hbc i

/-- Antisymmetry to equality for tuples whose tails are positive. -/
lemma cmp_zero_eq {a b : List ℕ} (ha : a ≠ []) (hb : b ≠ [])
    (hta : ∀ x ∈ a.tail, 0 < x) (htb : ∀ x ∈ b.tail, 0 < x)
    (h : compareRankTuples a b = 0) : a = b := by
  rw [compareRankTuples_eq_lexPad] at h
  have heq := (lexPad_zero_iff a b).mp h
  have hlen : a.length = b.length := by
    by_contra hne
    rcases Nat.lt_or_ge a.length b.length with hlt | hge
    · have h1 : 1 ≤ a.length := by
        cases a
        · exact absurd rfl ha
        · simp
      have hb0 : b.getD a.length 0 = 0 := by
        rw [← heq a.length]
        exact List.getD_eq_default _ _ (le_refl _)
      have hmem : b.getD a.length 0 ∈ b.tail := by
        rcases b with - | ⟨y, ys⟩
        · exact absurd rfl hb
        · have hlt2 : a.length - 1 < ys.length := by
            simp at hlt
            omega
          have : (y :: ys).getD a.length 0 = ys.getD (a.length - 1) 0 := by
            rcases Nat.exists_eq_add_of_le h1 with ⟨k, hk⟩
            have hks : a.length = k + 1 := by omega
            rw [hks]
            simp
          rw [this, List.tail_cons]
          rw [List.getD_eq_getElem _ _ hlt2]
          exact List.getElem_mem hlt2
      have := htb _ hmem
      omega
    · rcases Nat.lt_or_ge b.length a.length with hlt | hge2
      · have h1 : 1 ≤ b.length := by
          cases b
          · exact absurd rfl hb
          · simp
        have ha0 : a.getD b.length 0 = 0 := by
          rw [heq b.length]
          exact List.getD_eq_default _ _ (le_refl _)
        have hmem : a.getD b.length 0 ∈ a.tail := by
          rcases a with - | ⟨y, ys⟩
          · exact absurd rfl ha
          · have hlt2 : b.length - 1 < ys.length := by
              simp at hlt
              omega
            have : (y :: ys).getD b.length 0 = ys.getD (b.length - 1) 0 := by
              rcases Nat.exists_eq_add_of_le h1 with ⟨k, hk⟩
              have hks : b.length = k + 1 := by omega
              rw [hks]
              simp
            rw [this, List.tail_cons]
            rw [List.getD_eq_getElem _ _ hlt2]
            exact List.getElem_mem hlt2
        have := hta _ hmem
        omega
      · omega
  apply List.ext_getElem hlen
  intro i h1 h2
  have := heq i
  rw [List.getD_eq_getElem _ _ h1, List.getD_eq_getElem _ _ h2] at this
  exact this

/-- Modelled from the spec: the maximum of a list of strength tuples under
the comparator (the scan keeps the current best, replacing it only on a
strictly greater tuple). -/
def maxByCompare (l : List (List ℕ)) : List ℕ :=
  l.foldl (fun acc t => if compareRankTuples acc t < 0 then t else acc) []

lemma foldMax_spec (l : List (List ℕ)) : ∀ acc : List ℕ,
    (l.foldl (fun acc t => if compareRankTuples acc t < 0 then t else acc) acc
        = acc ∨
      l.foldl (fun acc t => if compareRankTuples acc t < 0 then t else acc) acc
        ∈ l) ∧
    compareRankTuples acc
      (l.foldl (fun acc t => if compareRankTuples acc t < 0 then t else acc)
        acc) ≤ 0 ∧
    ∀ t ∈ l, compareRankTuples t
      (l.foldl (fun acc t => if compareRankTuples acc t < 0 then t else acc)
        acc) ≤ 0 := by
  induction l with
  | nil =>
    intro acc
    refine ⟨Or.inl rfl, le_of_eq (cmp_self acc), ?_⟩
    intro t ht
    simp at ht
  | cons t0 l ih =>
    intro acc
    simp only [List.foldl_cons]
    by_cases h0 : compareRankTuples acc t0 < 0
    · rw [if_pos h0]
      obtain ⟨hmem, hle, hall⟩ := ih t0
      refine ⟨?_, ?_, ?_⟩
      · rcases hmem with h | h
        · exact Or.inr (by rw [h]; exact List.mem_cons_self t0 l)
        · exact Or.inr (List.mem_cons_of_mem t0 h)
      · exact cmp_le_trans (le_of_lt h0) hle
      · intro t ht
        rcases List.mem_cons.mp ht with rfl | ht2
        · exact hle
        · exact hall t ht2
    · rw [if_neg h0]
      obtain ⟨hmem, hle, hall⟩ := ih acc
      refine ⟨?_, hle, ?_⟩
      · rcases hmem with h | h
        · exact Or.inl h
        · exact Or.inr (List.mem_cons_of_mem t0 h)
      · intro t ht
        rcases List.mem_cons.mp ht with rfl | ht2
        · have hn : compareRankTuples t acc ≤ 0 := by
            rw [compareRankTuples_eq_lexPad] at h0 ⊢
            have := lexPad_swap acc t
            omega
          exact cmp_le_trans hn hle
        · exact hall t ht2

/-! ### Refinement infrastructure (C1): counting and sorted prefixes -/

lemma rankCount_eq_countP (cards : List Card) (r : ℕ) :
    rankCount cards r = cards.countP fun c => c.r == r := by
  rw [rankCount, List.countP_eq_length_filter]

lemma suitCount_eq_countP (cards : List Card) (s : Char) :
    suitCount cards s = cards.countP fun c => c.s == s := by
  rw [suitCount, List.countP_eq_length_filter]

lemma rankCount_sublist_le {s cards : List Card} (h : s.Sublist cards)
    (r : ℕ) : rankCount s r ≤ rankCount cards r := by
  rw [rankCount_eq_countP, rankCount_eq_countP]
  exact h.countP_le _

lemma suitCount_sublist_le {s cards : List Card} (h : s.Sublist cards)
    (c : Char) : suitCount s c ≤ suitCount cards c := by
  rw [suitCount_eq_countP, suitCount_eq_countP]
  exact h.countP_le _

lemma rank_bounds {cards : List Card} (hv : ∀ c ∈ cards, c ∈ makeDeck) :
    ∀ c ∈ cards, 2 ≤ c.r ∧ c.r ≤ 14 := fun c hc =>
  ⟨((mem_makeDeck_iff c).mp (hv c hc)).1, ((mem_makeDeck_iff c).mp (hv c hc)).2.1⟩

lemma rankCount_le_four {cards : List Card} (hv : ∀ c ∈ cards, c ∈ makeDeck)
    (hn : cards.Nodup) (r : ℕ) : rankCount cards r ≤ 4 := by
  unfold rankCount
  have hsub : (cards.filter fun c => c.r == r).Sublist cards :=
    List.filter_sublist _
  have hnd : ((cards.filter fun c => c.r == r).map Card.s).Nodup := by
    refine (hsub.nodup hn).map_on ?_
    intro a ha b hb hab
    have har : a.r = r := by simpa using (List.mem_filter.mp ha).2
    have hbr : b.r = r := by simpa using (List.mem_filter.mp hb).2
    cases a
    cases b
    simp_all
  have hss : ((cards.filter fun c => c.r == r).map Card.s) ⊆ suitChars := by
    intro x hx
    obtain ⟨c, hc, rfl⟩ := List.mem_map.mp hx
    exact ((mem_makeDeck_iff c).mp (hv c (hsub.subset hc))).2.2
  have := (List.subperm_of_subset hnd hss).length_le
  simpa using this

lemma rankCount_pos_iff (cards : List Card) (r : ℕ) :
    0 < rankCount cards r ↔ r ∈ cards.map Card.r := by
  unfold rankCount
  rw [List.length_pos_iff_exists_mem]
  constructor
  · rintro ⟨c, hc⟩
    obtain ⟨hc2, hc3⟩ := List.mem_filter.mp hc
    exact List.mem_map.mpr ⟨c, hc2, by simpa using hc3⟩
  · intro h
    obtain ⟨c, hc, rfl⟩ := List.mem_map.mp h
    exact ⟨c, List.mem_filter.mpr ⟨hc, by simp⟩⟩

lemma mem_ranksWithCount {cards : List Card} {k q : ℕ} (hk : 0 < k) :
    q ∈ ranksWithCount cards k ↔ rankCount cards q = k := by
  unfold ranksWithCount
  rw [List.mem_filter]
  constructor
  · rintro ⟨-, h⟩
    simpa using h
  · intro h
    refine ⟨List.mem_dedup.mpr ((rankCount_pos_iff cards q).mp (by omega)), by simpa using h⟩

lemma countP_add_le_of_disjoint {α : Type} {l : List α} {p q : α → Bool}
    (h : ∀ x ∈ l, p x → ¬ q x) : l.countP p + l.countP q ≤ l.length := by
  rw [List.length_eq_countP_add_countP (p := p) (l := l)]
  have : l.countP q ≤ l.countP fun a => ¬ p a := by
    apply List.countP_mono_left
    intro x hx hq
    simp only [decide_eq_true_eq]
    intro hp
    exact h x hx hp hq
  omega

lemma rankCount_add_le {cards : List Card} {r1 r2 : ℕ} (h : r1 ≠ r2) :
    rankCount cards r1 + rankCount cards r2 ≤ cards.length := by
  rw [rankCount_eq_countP, rankCount_eq_countP]
  apply countP_add_le_of_disjoint
  intro c _ h1
  simp only [beq_iff_eq] at h1 ⊢
  omega

lemma length_filter_rne (cards : List Card) (r : ℕ) :
    (cards.filter fun c => c.r != r).length = cards.length - rankCount cards r := by
  have := List.length_eq_countP_add_countP (p := fun c : Card => c.r == r)
    (l := cards)
  rw [rankCount_eq_countP]
  have heq : (cards.filter fun c => c.r != r).length
      = cards.countP fun c => ¬(c.r == r) := by
    rw [List.countP_eq_length_filter]
    congr 1
    apply List.filter_congr
    intro c _
    cases h2 : (c.r == r) <;> simp_all [bne]
  omega

/-! Sorted-descending prefix facts. -/

lemma sortDesc_perm (l : List ℕ) :
    List.Perm (l.insertionSort (· ≥ ·)) l := List.perm_insertionSort _ _

lemma sortDesc_sorted (l : List ℕ) :
    (l.insertionSort (· ≥ ·)).Sorted (· ≥ ·) := List.sorted_insertionSort _ _

lemma sortDesc_headD_mem {l : List ℕ} (h : l ≠ []) :
    (l.insertionSort (· ≥ ·)).headD 0 ∈ l := by
  rcases hs : l.insertionSort (· ≥ ·) with - | ⟨a, t⟩
  · exact absurd ((sortDesc_perm l).symm.trans (hs ▸ List.Perm.refl _)).eq_nil h
  · have : a ∈ l.insertionSort (· ≥ ·) := by
      rw [hs]
      exact List.mem_cons_self a t
    simpa using (sortDesc_perm l).subset this

lemma le_sortDesc_headD {l : List ℕ} {x : ℕ} (hx : x ∈ l) :
    x ≤ (l.insertionSort (· ≥ ·)).headD 0 := by
  have hx2 : x ∈ l.insertionSort (· ≥ ·) := (sortDesc_perm l).symm.subset hx
  rcases hs : l.insertionSort (· ≥ ·) with - | ⟨a, t⟩
  · rw [hs] at hx2
    simp at hx2
  · rw [hs] at hx2
    have hsort := sortDesc_sorted l
    rw [hs, List.sorted_cons] at hsort
    rcases List.mem_cons.mp hx2 with rfl | h
    · simp
    · simpa using hsort.1 x h

lemma topNDesc_subset {l : List ℕ} {n : ℕ} {x : ℕ}
    (hx : x ∈ topNDesc l n) : x ∈ l := by
  unfold topNDesc at hx
  exact (sortDesc_perm l).subset ((List.take_sublist _ _).subset hx)

lemma topNDesc_headD_mem {l : List ℕ} {n : ℕ} (h : l ≠ []) (hn : 0 < n) :
    (topNDesc l n).headD 0 ∈ l := by
  unfold topNDesc
  rcases hs : l.insertionSort (· ≥ ·) with - | ⟨a, t⟩
  · exfalso
    exact h ((sortDesc_perm l).symm.trans (hs ▸ List.Perm.refl _)).eq_nil
  · rcases n with - | n
    · omega
    · simp only [List.take_succ_cons, List.headD_cons]
      have : a ∈ l.insertionSort (· ≥ ·) := by
        rw [hs]
        exact List.mem_cons_self a t
      exact (sortDesc_perm l).subset this

lemma le_topNDesc_headD {l : List ℕ} {n x : ℕ} (hx : x ∈ l) (hn : 0 < n) :
    x ≤ (topNDesc l n).headD 0 := by
  unfold topNDesc
  rcases hs : l.insertionSort (· ≥ ·) with - | ⟨a, t⟩
  · exfalso
    have : x ∈ l.insertionSort (· ≥ ·) := (sortDesc_perm l).symm.subset hx
    rw [hs] at this
    simp at this
  · rcases n with - | n
    · omega
    · simp only [List.take_succ_cons, List.headD_cons]
      have := le_sortDesc_headD hx
      rw [hs] at this
      simpa using this

/-! Pointwise domination of sorted-descending prefixes under sub-permutation. -/

lemma countGe_le_of_sorted_getD {u : List ℕ} (hu : u.Sorted (· ≥ ·))
    {v i : ℕ} (h : i + 1 ≤ u.countP fun x => decide (v ≤ x)) :
    v ≤ u.getD i 0 := by
  have hil : i < u.length := by
    have := List.countP_le_length (p := fun x => decide (v ≤ x)) (l := u)
    omega
  rw [List.getD_eq_getElem _ _ hil]
  by_contra hlt
  push_neg at hlt
  have hsplit : u.countP (fun x => decide (v ≤ x))
      = (u.take i).countP (fun x => decide (v ≤ x))
        + (u.drop i).countP (fun x => decide (v ≤ x)) := by
    conv_lhs => rw [← List.take_append_drop i u]
    rw [List.countP_append]
  have hdrop : (u.drop i).countP (fun x => decide (v ≤ x)) = 0 := by
    rw [List.countP_eq_zero]
    intro x hx
    obtain ⟨k, hk, hget⟩ := List.getElem_of_mem hx
    rw [List.getElem_drop] at hget
    have hle : x ≤ u[i] := by
      rcases Nat.eq_zero_or_pos k with rfl | hkpos
      · rw [← hget]
        have : i + 0 = i := by omega
        simp [this]
      · have hij : i < i + k := by omega
        have := hu.rel_get_of_lt
          (a := ⟨i, hil⟩) (b := ⟨i + k, by simp at hk; omega⟩)
          (by simpa using hij)
        simp only [List.get_eq_getElem] at this
        rw [← hget]
        exact this
    simp only [decide_eq_true_eq]
    omega
  have htake : (u.take i).countP (fun x => decide (v ≤ x)) ≤ i := by
    have := List.countP_le_length (p := fun x => decide (v ≤ x)) (l := u.take i)
    have hlen : (u.take i).length ≤ i := by
      simp
    omega
  omega

lemma sorted_countGe_ge {u : List ℕ} (hu : u.Sorted (· ≥ ·)) {i : ℕ}
    (hil : i < u.length) :
    i + 1 ≤ u.countP fun x => decide (u.getD i 0 ≤ x) := by
  have hall : ∀ a ∈ u.take (i + 1), decide (u.getD i 0 ≤ a) = true := by
    intro a ha
    obtain ⟨k, hk, hget⟩ := List.getElem_of_mem ha
    have hk2 : k < i + 1 := by
      have := List.length_take_le (i + 1) u
      omega
    rw [List.getElem_take] at hget
    simp only [decide_eq_true_eq]
    rw [List.getD_eq_getElem _ _ hil, ← hget]
    rcases Nat.lt_or_ge k i with hki | hki
    · have := hu.rel_get_of_lt
        (a := ⟨k, by omega⟩) (b := ⟨i, hil⟩) (by simpa using hki)
      simpa using this
    · have : k = i := by omega
      subst this
      simp
  have h1 : (u.take (i + 1)).countP (fun x => decide (u.getD i 0 ≤ x))
      = (u.take (i + 1)).length := List.countP_eq_length.mpr hall
  have h2 : (u.take (i + 1)).length = i + 1 := by
    rw [List.length_take]
    omega
  have h3 := (List.take_sublist (i + 1) u).countP_le
    (p := fun x => decide (u.getD i 0 ≤ x))
  omega

lemma sortDesc_getD_le_of_subperm {s t : List ℕ} (h : s.Subperm t) (i : ℕ) :
    (s.insertionSort (· ≥ ·)).getD i 0 ≤ (t.insertionSort (· ≥ ·)).getD i 0 := by
  rcases Nat.lt_or_ge i (s.insertionSort (· ≥ ·)).length with hil | hil
  · have h1 := sorted_countGe_ge (sortDesc_sorted s) hil
    have h2 := (sortDesc_perm s).countP_eq
      fun x => decide ((s.insertionSort (· ≥ ·)).getD i 0 ≤ x)
    have h3 := h.countP_le
      fun x => decide ((s.insertionSort (· ≥ ·)).getD i 0 ≤ x)
    have h4 := (sortDesc_perm t).countP_eq
      fun x => decide ((s.insertionSort (· ≥ ·)).getD i 0 ≤ x)
    exact countGe_le_of_sorted_getD (sortDesc_sorted t) (by omega)
  · rw [List.getD_eq_default _ _ hil]
    omega

lemma getD_take_of_lt {u : List ℕ} {n i : ℕ} (h : i < n) :
    (u.take n).getD i 0 = u.getD i 0 := by
  rw [List.getD, List.getD, List.get?_eq_getElem?, List.get?_eq_getElem?,
    List.getElem?_take_of_lt h]

lemma topNDesc_getD_le {s t : List ℕ} (h : s.Subperm t) (n i : ℕ) :
    (topNDesc s n).getD i 0 ≤ (topNDesc t n).getD i 0 := by
  unfold topNDesc
  rcases Nat.lt_or_ge i n with hin | hin
  · rw [getD_take_of_lt hin, getD_take_of_lt hin]
    exact sortDesc_getD_le_of_subperm h i
  · have hlen : ((s.insertionSort (· ≥ ·)).take n).length ≤ i := by
      have := List.length_take_le n (s.insertionSort (· ≥ ·))
      omega
    rw [List.getD_eq_default _ _ hlen]
    omega

/-! ### Refinement infrastructure (C1): category predicates and branch equations -/

/-! Category predicates of a hand, phrased over the counting spec. -/

/-- The set of ranks a hand holds in suit `s`. -/
def suitRanks (X : List Card) (s : Char) : Finset ℕ :=
  ((X.filter fun c => c.s == s).map Card.r).toFinset

/-- Straight flush: some suit holds ≥ 5 cards whose ranks contain a 5-run. -/
def hasSF (X : List Card) : Prop :=
  ∃ s ∈ (X.map Card.s).dedup,
    5 ≤ suitCount X s ∧ 0 < specStraightHigh (suitRanks X s)

/-- Four of a kind: some rank held exactly 4 times. -/
def hasQuads (X : List Card) : Prop := ranksWithCount X 4 ≠ []

/-- Full house: two trip ranks, or a trip rank and a pair rank. -/
def hasFH (X : List Card) : Prop :=
  2 ≤ (ranksWithCount X 3).length ∨
    (1 ≤ (ranksWithCount X 3).length ∧ 1 ≤ (ranksWithCount X 2).length)

/-- Flush: some suit held ≥ 5 times. -/
def hasFlush (X : List Card) : Prop :=
  ∃ s ∈ (X.map Card.s).dedup, 5 ≤ suitCount X s

/-- Straight: the rank set (ace low and high) contains a 5-run. -/
def hasStraight (X : List Card) : Prop :=
  0 < specStraightHigh (X.map Card.r).toFinset

/-- Three of a kind: some rank held exactly 3 times. -/
def hasTrips (X : List Card) : Prop := ranksWithCount X 3 ≠ []

/-- Two pair: at least two ranks held exactly twice. -/
def hasTwoPair (X : List Card) : Prop := 2 ≤ (ranksWithCount X 2).length

/-- One pair: some rank held exactly twice. -/
def hasPair (X : List Card) : Prop := ranksWithCount X 2 ≠ []

instance (X : List Card) : Decidable (hasSF X) :=
  inferInstanceAs (Decidable (∃ s ∈ (X.map Card.s).dedup,
    5 ≤ suitCount X s ∧ 0 < specStraightHigh (suitRanks X s)))

instance (X : List Card) : Decidable (hasQuads X) :=
  inferInstanceAs (Decidable (ranksWithCount X 4 ≠ []))

instance (X : List Card) : Decidable (hasFH X) :=
  inferInstanceAs (Decidable (2 ≤ (ranksWithCount X 3).length ∨
    (1 ≤ (ranksWithCount X 3).length ∧ 1 ≤ (ranksWithCount X 2).length)))

instance (X : List Card) : Decidable (hasFlush X) :=
  inferInstanceAs (Decidable (∃ s ∈ (X.map Card.s).dedup, 5 ≤ suitCount X s))

instance (X : List Card) : Decidable (hasStraight X) :=
  inferInstanceAs (Decidable (0 < specStraightHigh (X.map Card.r).toFinset))

instance (X : List Card) : Decidable (hasTrips X) :=
  inferInstanceAs (Decidable (ranksWithCount X 3 ≠ []))

instance (X : List Card) : Decidable (hasTwoPair X) :=
  inferInstanceAs (Decidable (2 ≤ (ranksWithCount X 2).length))

instance (X : List Card) : Decidable (hasPair X) :=
  inferInstanceAs (Decidable (ranksWithCount X 2 ≠ []))

/-- The category `evaluate`'s precedence chain assigns to a hand. -/
def catOf (X : List Card) : ℕ :=
  if hasSF X then 8
  else if hasQuads X then 7
  else if hasFH X then 6
  else if hasFlush X then 5
  else if hasStraight X then 4
  else if hasTrips X then 3
  else if hasTwoPair X then 2
  else if hasPair X then 1
  else 0

lemma hasQuads_iff (X : List Card) : hasQuads X ↔ ∃ q, rankCount X q = 4 := by
  unfold hasQuads
  rw [← List.length_pos_iff_ne_nil, List.length_pos_iff_exists_mem]
  constructor
  · rintro ⟨q, hq⟩
    exact ⟨q, (mem_ranksWithCount (by omega)).mp hq⟩
  · rintro ⟨q, hq⟩
    exact ⟨q, (mem_ranksWithCount (by omega)).mpr hq⟩

lemma hasTrips_iff (X : List Card) : hasTrips X ↔ ∃ q, rankCount X q = 3 := by
  unfold hasTrips
  rw [← List.length_pos_iff_ne_nil, List.length_pos_iff_exists_mem]
  constructor
  · rintro ⟨q, hq⟩
    exact ⟨q, (mem_ranksWithCount (by omega)).mp hq⟩
  · rintro ⟨q, hq⟩
    exact ⟨q, (mem_ranksWithCount (by omega)).mpr hq⟩

lemma hasPair_iff (X : List Card) : hasPair X ↔ ∃ q, rankCount X q = 2 := by
  unfold hasPair
  rw [← List.length_pos_iff_ne_nil, List.length_pos_iff_exists_mem]
  constructor
  · rintro ⟨q, hq⟩
    exact ⟨q, (mem_ranksWithCount (by omega)).mp hq⟩
  · rintro ⟨q, hq⟩
    exact ⟨q, (mem_ranksWithCount (by omega)).mpr hq⟩

lemma ranksWithCount_nodup (X : List Card) (k : ℕ) :
    (ranksWithCount X k).Nodup :=
  ((X.map Card.r).nodup_dedup).filter _

lemma two_le_length_iff {l : List ℕ} (hn : l.Nodup) :
    2 ≤ l.length ↔ ∃ a b, a ≠ b ∧ a ∈ l ∧ b ∈ l := by
  constructor
  · intro h
    rcases l with - | ⟨a, l2⟩
    · simp at h
    rcases l2 with - | ⟨b, l3⟩
    · simp at h
    refine ⟨a, b, ?_, List.mem_cons_self a _,
      List.mem_cons_of_mem a (List.mem_cons_self b _)⟩
    intro hab
    subst hab
    simp at hn
  · rintro ⟨a, b, hab, ha, hb⟩
    have : [a, b].Subperm l := by
      apply List.subperm_of_subset
      · simp [hab]
      · intro x hx
        rcases List.mem_cons.mp hx with rfl | hx2
        · exact ha
        · rcases List.mem_cons.mp hx2 with rfl | hx3
          · exact hb
          · simp at hx3
    simpa using this.length_le

lemma hasTwoPair_iff (X : List Card) :
    hasTwoPair X ↔ ∃ a b, a ≠ b ∧ rankCount X a = 2 ∧ rankCount X b = 2 := by
  unfold hasTwoPair
  rw [two_le_length_iff (ranksWithCount_nodup X 2)]
  constructor
  · rintro ⟨a, b, hab, ha, hb⟩
    exact ⟨a, b, hab, (mem_ranksWithCount (by omega)).mp ha,
      (mem_ranksWithCount (by omega)).mp hb⟩
  · rintro ⟨a, b, hab, ha, hb⟩
    exact ⟨a, b, hab, (mem_ranksWithCount (by omega)).mpr ha,
      (mem_ranksWithCount (by omega)).mpr hb⟩

lemma hasFH_iff (X : List Card) :
    hasFH X ↔ ∃ a b, a ≠ b ∧ rankCount X a = 3 ∧
      (rankCount X b = 3 ∨ rankCount X b = 2) := by
  unfold hasFH
  constructor
  · rintro (h2 | ⟨h1, hp⟩)
    · obtain ⟨a, b, hab, ha, hb⟩ :=
        (two_le_length_iff (ranksWithCount_nodup X 3)).mp h2
      exact ⟨a, b, hab, (mem_ranksWithCount (by omega)).mp ha,
        Or.inl ((mem_ranksWithCount (by omega)).mp hb)⟩
    · obtain ⟨a, ha⟩ := List.length_pos_iff_exists_mem.mp (by omega : 0 < (ranksWithCount X 3).length)
      obtain ⟨b, hb⟩ := List.length_pos_iff_exists_mem.mp (by omega : 0 < (ranksWithCount X 2).length)
      have ha2 := (mem_ranksWithCount (by omega)).mp ha
      have hb2 := (mem_ranksWithCount (by omega)).mp hb
      refine ⟨a, b, ?_, ha2, Or.inr hb2⟩
      intro h
      rw [h] at ha2
      omega
  · rintro ⟨a, b, hab, ha, hb | hb⟩
    · exact Or.inl ((two_le_length_iff (ranksWithCount_nodup X 3)).mpr
        ⟨a, b, hab, (mem_ranksWithCount (by omega)).mpr ha,
          (mem_ranksWithCount (by omega)).mpr hb⟩)
    · refine Or.inr ⟨?_, ?_⟩
      · have := (mem_ranksWithCount (by omega)).mpr ha
        have hpos := List.length_pos_iff_exists_mem.mpr ⟨a, this⟩
        omega
      · have := (mem_ranksWithCount (by omega)).mpr hb
        have hpos := List.length_pos_iff_exists_mem.mpr ⟨b, this⟩
        omega

/-! Monotonicity of the category predicates under sublists. -/

lemma specStraightHigh_mono {S T : Finset ℕ} (h : S ⊆ T) :
    specStraightHigh S ≤ specStraightHigh T := by
  unfold specStraightHigh
  apply Finset.sup_mono
  intro v hv
  obtain ⟨hvS, h1, h2, h3, h4⟩ := Finset.mem_filter.mp hv
  have hmono : aceLow S ⊆ aceLow T := by
    unfold aceLow
    intro x hx
    split at hx
    · split
      · rcases Finset.mem_insert.mp hx with rfl | hx2
        · exact Finset.mem_insert_self 1 T
        · exact Finset.mem_insert_of_mem (h hx2)
      · next h14T =>
        rcases Finset.mem_insert.mp hx with rfl | hx2
        · next h14S => exact absurd (h h14S) h14T
        · exact h hx2
    · split
      · exact Finset.mem_insert_of_mem (h hx)
      · exact h hx
  exact Finset.mem_filter.mpr
    ⟨hmono hvS, hmono h1, hmono h2, hmono h3, hmono h4⟩

lemma suitRanks_mono {s X : List Card} (h : s.Sublist X) (c : Char) :
    suitRanks s c ⊆ suitRanks X c := by
  unfold suitRanks
  intro x hx
  rw [List.mem_toFinset] at hx ⊢
  obtain ⟨cd, hcd, rfl⟩ := List.mem_map.mp hx
  exact List.mem_map.mpr ⟨cd, (h.filter _).subset hcd, rfl⟩

lemma dedup_suits_mono {s X : List Card} (h : s.Sublist X) {c : Char}
    (hc : c ∈ (s.map Card.s).dedup) : c ∈ (X.map Card.s).dedup := by
  rw [List.mem_dedup] at hc ⊢
  exact (h.map Card.s).subset hc

lemma hasSF_mono {s X : List Card} (h : s.Sublist X) (hs : hasSF s) :
    hasSF X := by
  obtain ⟨c, hc, h5, hrun⟩ := hs
  refine ⟨c, dedup_suits_mono h hc, le_trans h5 (suitCount_sublist_le h c), ?_⟩
  have := specStraightHigh_mono (suitRanks_mono h c)
  omega

lemma hasFlush_mono {s X : List Card} (h : s.Sublist X) (hs : hasFlush s) :
    hasFlush X := by
  obtain ⟨c, hc, h5⟩ := hs
  exact ⟨c, dedup_suits_mono h hc, le_trans h5 (suitCount_sublist_le h c)⟩

lemma hasStraight_mono {s X : List Card} (h : s.Sublist X)
    (hs : hasStraight s) : hasStraight X := by
  unfold hasStraight at *
  have hsub : (s.map Card.r).toFinset ⊆ (X.map Card.r).toFinset := by
    intro x hx
    rw [List.mem_toFinset] at hx ⊢
    exact (h.map Card.r).subset hx
  have := specStraightHigh_mono hsub
  omega

lemma hasQuads_mono {s X : List Card} (h : s.Sublist X)
    (hv : ∀ c ∈ X, c ∈ makeDeck) (hn : X.Nodup) (hs : hasQuads s) :
    hasQuads X := by
  rw [hasQuads_iff] at *
  obtain ⟨q, hq⟩ := hs
  have h1 := rankCount_sublist_le h q
  have h2 := rankCount_le_four hv hn q
  exact ⟨q, by omega⟩

/-- A trip rank of a sub-hand is a trip or quad rank of the full hand. -/
lemma trip_up {s X : List Card} (h : s.Sublist X)
    (hv : ∀ c ∈ X, c ∈ makeDeck) (hn : X.Nodup) {q : ℕ}
    (hq : rankCount s q = 3) :
    rankCount X q = 3 ∨ rankCount X q = 4 := by
  have h1 := rankCount_sublist_le h q
  have h2 := rankCount_le_four hv hn q
  omega

lemma pair_up {s X : List Card} (h : s.Sublist X)
    (hv : ∀ c ∈ X, c ∈ makeDeck) (hn : X.Nodup) {q : ℕ}
    (hq : rankCount s q = 2) :
    rankCount X q = 2 ∨ rankCount X q = 3 ∨ rankCount X q = 4 := by
  have h1 := rankCount_sublist_le h q
  have h2 := rankCount_le_four hv hn q
  omega

/-! Scrutinee reductions for the branches of `evaluate`. -/

lemma suitCount_add_le {cards : List Card} {s1 s2 : Char} (h : s1 ≠ s2) :
    suitCount cards s1 + suitCount cards s2 ≤ cards.length := by
  rw [suitCount_eq_countP, suitCount_eq_countP]
  apply countP_add_le_of_disjoint
  intro c _ h1
  simp only [beq_iff_eq] at h1 ⊢
  intro h2
  exact h (h1 ▸ h2 ▸ rfl)

lemma findSome?_eq_some_of {α β : Type} {l : List α} {f : α → Option β}
    {g : α} {v : β} (hg : g ∈ l) (hsome : f g = some v)
    (hothers : ∀ x ∈ l, f x = none ∨ f x = some v) :
    l.findSome? f = some v := by
  induction l with
  | nil => simp at hg
  | cons x t ih =>
    rw [List.findSome?_cons]
    cases hx : f x with
    | some w =>
      rcases hothers x (List.mem_cons_self x t) with h | h
      · rw [hx] at h
        simp at h
      · rw [hx] at h
        exact h
    | none =>
      rcases List.mem_cons.mp hg with rfl | hgt
      · rw [hx] at hsome
        simp at hsome
      · exact ih hgt fun y hy => hothers y (List.mem_cons_of_mem x hy)

lemma find?_eq_some_of_pred_unique {α : Type} {l : List α} {p : α → Bool}
    {g : α} (hg : g ∈ l) (hp : p g = true)
    (huniq : ∀ x ∈ l, p x = true → x = g) : l.find? p = some g := by
  induction l with
  | nil => simp at hg
  | cons x t ih =>
    rw [List.find?_cons]
    cases hx : p x with
    | true => rw [huniq x (List.mem_cons_self x t) hx]
    | false =>
      rcases List.mem_cons.mp hg with rfl | hgt
      · rw [hx] at hp
        simp at hp
      · exact ih hgt fun y hy => huniq y (List.mem_cons_of_mem x hy)

lemma group_straight_eq (X : List Card) (hv : ∀ c ∈ X, c ∈ makeDeck)
    (σ : Char) :
    bestStraightHigh (((X.filter fun c => c.s == σ).map Card.r).dedup)
      = specStraightHigh (suitRanks X σ) := by
  have hb : ∀ x ∈ ((X.filter fun c => c.s == σ).map Card.r).dedup,
      2 ≤ x ∧ x ≤ 14 := by
    intro x hx
    obtain ⟨c, hc, rfl⟩ := List.mem_map.mp (List.mem_dedup.mp hx)
    exact rank_bounds hv c ((List.filter_sublist _).subset hc)
  rw [bestStraightHigh_eq_spec _ hb]
  congr 1
  ext x
  unfold suitRanks
  simp [List.mem_dedup]

lemma sfScrNone (X : List Card) (hv : ∀ c ∈ X, c ∈ makeDeck)
    (h : ¬hasSF X) :
    ((suitGroups X).findSome? fun cs =>
      if 5 ≤ cs.length then
        if 0 < bestStraightHigh ((cs.map Card.r).dedup) then
          some [8, bestStraightHigh ((cs.map Card.r).dedup)]
        else none
      else none) = none := by
  rw [List.findSome?_eq_none_iff]
  intro cs hcs
  obtain ⟨σ, hσ, rfl⟩ := suitGroups_mem hcs
  by_cases h5 : 5 ≤ (X.filter fun c => c.s == σ).length
  · rw [if_pos h5, group_straight_eq X hv σ]
    rw [if_neg]
    intro hrun
    exact h ⟨σ, hσ, h5, hrun⟩
  · rw [if_neg h5]

lemma sfScrSome (X : List Card) (σ : Char) (hv : ∀ c ∈ X, c ∈ makeDeck)
    (h7 : X.length ≤ 7) (hσ : σ ∈ (X.map Card.s).dedup)
    (h5 : 5 ≤ suitCount X σ) (hrun : 0 < specStraightHigh (suitRanks X σ)) :
    ((suitGroups X).findSome? fun cs =>
      if 5 ≤ cs.length then
        if 0 < bestStraightHigh ((cs.map Card.r).dedup) then
          some [8, bestStraightHigh ((cs.map Card.r).dedup)]
        else none
      else none) = some [8, specStraightHigh (suitRanks X σ)] := by
  have hmem : (X.filter fun c => c.s == σ) ∈ suitGroups X := by
    unfold suitGroups
    exact List.mem_map.mpr ⟨σ, hσ, rfl⟩
  apply findSome?_eq_some_of hmem
  · rw [if_pos (show 5 ≤ (X.filter fun c => c.s == σ).length from h5),
      group_straight_eq X hv σ, if_pos hrun]
  · intro g hg
    obtain ⟨τ, hτ, rfl⟩ := suitGroups_mem hg
    by_cases hτ5 : 5 ≤ (X.filter fun c => c.s == τ).length
    · have hστ : τ = σ := by
        by_contra hne
        have : suitCount X τ + suitCount X σ ≤ X.length :=
          suitCount_add_le hne
        unfold suitCount at this h5
        omega
      subst hστ
      rw [if_pos hτ5, group_straight_eq X hv τ, if_pos hrun]
      right
      rfl
    · rw [if_neg hτ5]
      left
      rfl

lemma flushScrNone (X : List Card) (h : ¬hasFlush X) :
    ((suitGroups X).find? fun cs => 5 ≤ cs.length) = none := by
  rw [List.find?_eq_none]
  intro cs hcs
  obtain ⟨σ, hσ, rfl⟩ := suitGroups_mem hcs
  simp only [decide_eq_true_eq]
  intro h5
  exact h ⟨σ, hσ, h5⟩

lemma flushScrSome (X : List Card) (σ : Char) (h7 : X.length ≤ 7)
    (hσ : σ ∈ (X.map Card.s).dedup) (h5 : 5 ≤ suitCount X σ) :
    ((suitGroups X).find? fun cs => 5 ≤ cs.length)
      = some (X.filter fun c => c.s == σ) := by
  have hmem : (X.filter fun c => c.s == σ) ∈ suitGroups X := by
    unfold suitGroups
    exact List.mem_map.mpr ⟨σ, hσ, rfl⟩
  apply find?_eq_some_of_pred_unique hmem
  · simpa using (show 5 ≤ (X.filter fun c => c.s == σ).length from h5)
  · intro g hg hpg
    obtain ⟨τ, hτ, rfl⟩ := suitGroups_mem hg
    simp only [decide_eq_true_eq] at hpg
    have hστ : τ = σ := by
      by_contra hne
      have : suitCount X τ + suitCount X σ ≤ X.length :=
        suitCount_add_le hne
      unfold suitCount at this h5
      omega
    rw [hστ]

/-- The descending trip-rank list `evaluate` computes. -/
def tripsOf (X : List Card) : List ℕ :=
  (ranksWithCount X 3).insertionSort (· ≥ ·)

/-- The descending pair-rank list `evaluate` computes. -/
def pairsOf (X : List Card) : List ℕ :=
  (ranksWithCount X 2).insertionSort (· ≥ ·)

/-- The descending quad-rank list `evaluate` computes. -/
def quadsOf (X : List Card) : List ℕ :=
  (ranksWithCount X 4).insertionSort (· ≥ ·)

lemma quadsOf_nil {X : List Card} (h : ¬hasQuads X) : quadsOf X = [] := by
  unfold hasQuads at h
  push_neg at h
  rw [quadsOf, h]
  rfl

lemma sortDesc_nil_iff {l : List ℕ} :
    l.insertionSort (· ≥ ·) = [] ↔ l = [] := by
  constructor
  · intro h
    exact ((sortDesc_perm l).symm.trans (h ▸ List.Perm.refl _)).eq_nil
  · rintro rfl
    rfl

lemma tripsOf_length (X : List Card) :
    (tripsOf X).length = (ranksWithCount X 3).length :=
  (sortDesc_perm _).length_eq

lemma pairsOf_length (X : List Card) :
    (pairsOf X).length = (ranksWithCount X 2).length :=
  (sortDesc_perm _).length_eq

/-- Branch equation: straight flush. -/
lemma evaluate_SF (X : List Card) (σ : Char) (hv : ∀ c ∈ X, c ∈ makeDeck)
    (h7 : X.length ≤ 7) (hσ : σ ∈ (X.map Card.s).dedup)
    (h5 : 5 ≤ suitCount X σ)
    (hrun : 0 < specStraightHigh (suitRanks X σ)) :
    evaluate X = [8, specStraightHigh (suitRanks X σ)] := by
  simp only [evaluate, sfScrSome X σ hv h7 hσ h5 hrun]

/-- Branch equation: four of a kind. -/
lemma evaluate_quads (X : List Card) (hv : ∀ c ∈ X, c ∈ makeDeck)
    (hnSF : ¬hasSF X) (hq : hasQuads X) :
    evaluate X = [7, (quadsOf X).headD 0,
      (topNDesc ((X.filter fun c =>
        c.r != (quadsOf X).headD 0).map Card.r) 1).headD 0] := by
  have hne : quadsOf X ≠ [] := fun h => hq (sortDesc_nil_iff.mp h)
  rcases hqq : quadsOf X with - | ⟨q, rest⟩
  · exact absurd hqq hne
  simp only [evaluate, sfScrNone X hv hnSF, countFilter_eq]
  rw [show (ranksWithCount X 4).insertionSort (· ≥ ·) = q :: rest from hqq]
  simp

/-- Branch equation: full house. -/
lemma evaluate_FH (X : List Card) (hv : ∀ c ∈ X, c ∈ makeDeck)
    (hnSF : ¬hasSF X) (hnQ : ¬hasQuads X) (hfh : hasFH X) :
    evaluate X = [6, (tripsOf X).headD 0,
      if 2 ≤ (tripsOf X).length then (tripsOf X).getD 1 0
      else (pairsOf X).headD 0] := by
  simp only [evaluate, sfScrNone X hv hnSF, countFilter_eq]
  rw [show (ranksWithCount X 4).insertionSort (· ≥ ·) = [] from quadsOf_nil hnQ]
  rw [if_pos]
  · rfl
  · rw [show (ranksWithCount X 3).insertionSort (· ≥ ·) = tripsOf X from rfl,
      show (ranksWithCount X 2).insertionSort (· ≥ ·) = pairsOf X from rfl,
      tripsOf_length, pairsOf_length]
    exact hfh

/-- Branch equation: flush. -/
lemma evaluate_flush (X : List Card) (σ : Char) (hv : ∀ c ∈ X, c ∈ makeDeck)
    (h7 : X.length ≤ 7) (hσ : σ ∈ (X.map Card.s).dedup)
    (h5 : 5 ≤ suitCount X σ)
    (hnSF : ¬hasSF X) (hnQ : ¬hasQuads X) (hnFH : ¬hasFH X) :
    evaluate X = 5 :: topNDesc ((X.filter fun c => c.s == σ).map Card.r) 5 := by
  simp only [evaluate, sfScrNone X hv hnSF, countFilter_eq]
  rw [show (ranksWithCount X 4).insertionSort (· ≥ ·) = [] from quadsOf_nil hnQ]
  rw [if_neg, flushScrSome X σ h7 hσ h5]
  rw [show (ranksWithCount X 3).insertionSort (· ≥ ·) = tripsOf X from rfl,
    show (ranksWithCount X 2).insertionSort (· ≥ ·) = pairsOf X from rfl,
    tripsOf_length, pairsOf_length]
  exact hnFH

/-- Branch equation: straight. -/
lemma evaluate_straight (X : List Card) (hv : ∀ c ∈ X, c ∈ makeDeck)
    (hnSF : ¬hasSF X) (hnQ : ¬hasQuads X) (hnFH : ¬hasFH X)
    (hnFl : ¬hasFlush X) (hst : hasStraight X) :
    evaluate X = [4, specStraightHigh (X.map Card.r).toFinset] := by
  have hFHc : ¬(2 ≤ ((ranksWithCount X 3).insertionSort (· ≥ ·)).length ∨
      (1 ≤ ((ranksWithCount X 3).insertionSort (· ≥ ·)).length ∧
        1 ≤ ((ranksWithCount X 2).insertionSort (· ≥ ·)).length)) := by
    rw [(sortDesc_perm (ranksWithCount X 3)).length_eq,
      (sortDesc_perm (ranksWithCount X 2)).length_eq]
    exact hnFH
  simp only [evaluate, sfScrNone X hv hnSF, countFilter_eq,
    flushScrNone X hnFl, straight_branch_eq X hv]
  rw [show (ranksWithCount X 4).insertionSort (· ≥ ·) = [] from quadsOf_nil hnQ]
  rw [if_neg hFHc,
    if_pos (show 0 < specStraightHigh (X.map Card.r).toFinset from hst)]

/-- Branch equation: three of a kind. -/
lemma evaluate_trips (X : List Card) (hv : ∀ c ∈ X, c ∈ makeDeck)
    (hnSF : ¬hasSF X) (hnQ : ¬hasQuads X) (hnFH : ¬hasFH X)
    (hnFl : ¬hasFlush X) (hnSt : ¬hasStraight X) (htr : hasTrips X) :
    evaluate X = [3, (tripsOf X).headD 0] ++
      topNDesc ((X.filter fun c =>
        c.r != (tripsOf X).headD 0).map Card.r) 2 := by
  have hFHc : ¬(2 ≤ ((ranksWithCount X 3).insertionSort (· ≥ ·)).length ∨
      (1 ≤ ((ranksWithCount X 3).insertionSort (· ≥ ·)).length ∧
        1 ≤ ((ranksWithCount X 2).insertionSort (· ≥ ·)).length)) := by
    rw [(sortDesc_perm (ranksWithCount X 3)).length_eq,
      (sortDesc_perm (ranksWithCount X 2)).length_eq]
    exact hnFH
  have hne : tripsOf X ≠ [] := fun h => htr (sortDesc_nil_iff.mp h)
  rcases htt : tripsOf X with - | ⟨t, rest⟩
  · exact absurd htt hne
  simp only [evaluate, sfScrNone X hv hnSF, countFilter_eq,
    flushScrNone X hnFl, straight_branch_eq X hv]
  rw [show (ranksWithCount X 4).insertionSort (· ≥ ·) = [] from quadsOf_nil hnQ]
  rw [if_neg hFHc,
    if_neg (show ¬(0 < specStraightHigh (X.map Card.r).toFinset) from hnSt)]
  rw [show (ranksWithCount X 3).insertionSort (· ≥ ·) = t :: rest from htt]
  simp

lemma tripsOf_nil {X : List Card} (h : ¬hasTrips X) : tripsOf X = [] := by
  unfold hasTrips at h
  push_neg at h
  rw [tripsOf, h]
  rfl

/-- Branch equation: two pair. -/
lemma evaluate_twoPair (X : List Card) (hv : ∀ c ∈ X, c ∈ makeDeck)
    (hnSF : ¬hasSF X) (hnQ : ¬hasQuads X) (hnFH : ¬hasFH X)
    (hnFl : ¬hasFlush X) (hnSt : ¬hasStraight X) (hnTr : ¬hasTrips X)
    (htp : hasTwoPair X) :
    evaluate X = [2, (pairsOf X).getD 0 0, (pairsOf X).getD 1 0,
      (topNDesc ((X.filter fun c =>
        c.r != (pairsOf X).getD 0 0 && c.r != (pairsOf X).getD 1 0).map
          Card.r) 1).headD 0] := by
  have hFHc : ¬(2 ≤ ((ranksWithCount X 3).insertionSort (· ≥ ·)).length ∨
      (1 ≤ ((ranksWithCount X 3).insertionSort (· ≥ ·)).length ∧
        1 ≤ ((ranksWithCount X 2).insertionSort (· ≥ ·)).length)) := by
    rw [(sortDesc_perm (ranksWithCount X 3)).length_eq,
      (sortDesc_perm (ranksWithCount X 2)).length_eq]
    exact hnFH
  have hlen : 2 ≤ (pairsOf X).length := by
    rw [pairsOf_length]
    exact htp
  rcases hpp : pairsOf X with - | ⟨p1, rest⟩
  · rw [hpp] at hlen
    simp at hlen
  rcases rest with - | ⟨p2, rest2⟩
  · rw [hpp] at hlen
    simp at hlen
  simp only [evaluate, sfScrNone X hv hnSF, countFilter_eq,
    flushScrNone X hnFl, straight_branch_eq X hv]
  rw [show (ranksWithCount X 4).insertionSort (· ≥ ·) = [] from quadsOf_nil hnQ]
  rw [if_neg hFHc,
    if_neg (show ¬(0 < specStraightHigh (X.map Card.r).toFinset) from hnSt)]
  rw [show (ranksWithCount X 3).insertionSort (· ≥ ·) = []
    from tripsOf_nil hnTr]
  rw [show (ranksWithCount X 2).insertionSort (· ≥ ·) = p1 :: p2 :: rest2
    from hpp]
  simp

/-- Branch equation: one pair. -/
lemma evaluate_pair (X : List Card) (hv : ∀ c ∈ X, c ∈ makeDeck)
    (hnSF : ¬hasSF X) (hnQ : ¬hasQuads X) (hnFH : ¬hasFH X)
    (hnFl : ¬hasFlush X) (hnSt : ¬hasStraight X) (hnTr : ¬hasTrips X)
    (hnTP : ¬hasTwoPair X) (hp : hasPair X) :
    evaluate X = [1, (pairsOf X).headD 0] ++
      topNDesc ((X.filter fun c =>
        c.r != (pairsOf X).headD 0).map Card.r) 3 := by
  have hFHc : ¬(2 ≤ ((ranksWithCount X 3).insertionSort (· ≥ ·)).length ∨
      (1 ≤ ((ranksWithCount X 3).insertionSort (· ≥ ·)).length ∧
        1 ≤ ((ranksWithCount X 2).insertionSort (· ≥ ·)).length)) := by
    rw [(sortDesc_perm (ranksWithCount X 3)).length_eq,
      (sortDesc_perm (ranksWithCount X 2)).length_eq]
    exact hnFH
  have hne : pairsOf X ≠ [] := fun h => hp (sortDesc_nil_iff.mp h)
  have hlen : (pairsOf X).length < 2 := by
    rw [pairsOf_length]
    unfold hasTwoPair at hnTP
    omega
  rcases hpp : pairsOf X with - | ⟨p, rest⟩
  · exact absurd hpp hne
  rcases rest with - | ⟨p2, rest2⟩
  · simp only [evaluate, sfScrNone X hv hnSF, countFilter_eq,
      flushScrNone X hnFl, straight_branch_eq X hv]
    rw [show (ranksWithCount X 4).insertionSort (· ≥ ·) = []
      from quadsOf_nil hnQ]
    rw [if_neg hFHc,
      if_neg (show ¬(0 < specStraightHigh (X.map Card.r).toFinset) from hnSt)]
    rw [show (ranksWithCount X 3).insertionSort (· ≥ ·) = []
      from tripsOf_nil hnTr]
    rw [show (ranksWithCount X 2).insertionSort (· ≥ ·) = [p] from hpp]
    simp
  · rw [hpp] at hlen
    simp at hlen
    omega

/-- Branch equation: high card. -/
lemma evaluate_high (X : List Card) (hv : ∀ c ∈ X, c ∈ makeDeck)
    (hnSF : ¬hasSF X) (hnQ : ¬hasQuads X) (hnFH : ¬hasFH X)
    (hnFl : ¬hasFlush X) (hnSt : ¬hasStraight X) (hnTr : ¬hasTrips X)
    (hnP : ¬hasPair X) :
    evaluate X = 0 :: topNDesc (X.map Card.r) 5 := by
  have hFHc : ¬(2 ≤ ((ranksWithCount X 3).insertionSort (· ≥ ·)).length ∨
      (1 ≤ ((ranksWithCount X 3).insertionSort (· ≥ ·)).length ∧
        1 ≤ ((ranksWithCount X 2).insertionSort (· ≥ ·)).length)) := by
    rw [(sortDesc_perm (ranksWithCount X 3)).length_eq,
      (sortDesc_perm (ranksWithCount X 2)).length_eq]
    exact hnFH
  have hpe : pairsOf X = [] := by
    unfold hasPair at hnP
    push_neg at hnP
    rw [pairsOf, hnP]
    rfl
  simp only [evaluate, sfScrNone X hv hnSF, countFilter_eq,
    flushScrNone X hnFl, straight_branch_eq X hv]
  rw [show (ranksWithCount X 4).insertionSort (· ≥ ·) = [] from quadsOf_nil hnQ]
  rw [if_neg hFHc,
    if_neg (show ¬(0 < specStraightHigh (X.map Card.r).toFinset) from hnSt)]
  rw [show (ranksWithCount X 3).insertionSort (· ≥ ·) = []
    from tripsOf_nil hnTr]
  rw [show (ranksWithCount X 2).insertionSort (· ≥ ·) = [] from hpe]

/-! ### Refinement infrastructure (C1): category chain monotonicity -/

/-! Category chain facts. -/

lemma catOf_of_hasSF {X : List Card} (h : hasSF X) : catOf X = 8 := by
  unfold catOf
  rw [if_pos h]

lemma catOf_ge_of_hasQuads {X : List Card} (h : hasQuads X) : 7 ≤ catOf X := by
  unfold catOf
  split_ifs <;> omega

lemma catOf_ge_of_hasFH {X : List Card} (h : hasFH X) : 6 ≤ catOf X := by
  unfold catOf
  split_ifs <;> first | omega | exact absurd h (by assumption)

lemma catOf_ge_of_hasFlush {X : List Card} (h : hasFlush X) : 5 ≤ catOf X := by
  unfold catOf
  split_ifs <;> first | omega | exact absurd h (by assumption)

lemma catOf_ge_of_hasStraight {X : List Card} (h : hasStraight X) :
    4 ≤ catOf X := by
  unfold catOf
  split_ifs <;> first | omega | exact absurd h (by assumption)

lemma catOf_ge_of_hasTrips {X : List Card} (h : hasTrips X) : 3 ≤ catOf X := by
  unfold catOf
  split_ifs <;> first | omega | exact absurd h (by assumption)

lemma catOf_ge_of_hasTwoPair {X : List Card} (h : hasTwoPair X) :
    2 ≤ catOf X := by
  unfold catOf
  split_ifs <;> first | omega | exact absurd h (by assumption)

lemma catOf_ge_of_hasPair {X : List Card} (h : hasPair X) : 1 ≤ catOf X := by
  unfold catOf
  split_ifs <;> first | omega | exact absurd h (by assumption)

/-- Upper bounds along the chain. -/

lemma catOf_le_eight (X : List Card) : catOf X ≤ 8 := by
  unfold catOf
  split_ifs <;> omega

lemma catOf_le_seven {X : List Card} (h8 : ¬hasSF X) : catOf X ≤ 7 := by
  unfold catOf
  split_ifs <;> omega

lemma catOf_le_six {X : List Card} (h8 : ¬hasSF X) (h7 : ¬hasQuads X) :
    catOf X ≤ 6 := by
  unfold catOf
  split_ifs <;> omega

lemma catOf_le_five {X : List Card} (h8 : ¬hasSF X) (h7 : ¬hasQuads X)
    (h6 : ¬hasFH X) : catOf X ≤ 5 := by
  unfold catOf
  split_ifs <;> omega

lemma catOf_le_four {X : List Card} (h8 : ¬hasSF X) (h7 : ¬hasQuads X)
    (h6 : ¬hasFH X) (h5 : ¬hasFlush X) : catOf X ≤ 4 := by
  unfold catOf
  split_ifs <;> omega

lemma catOf_le_three {X : List Card} (h8 : ¬hasSF X) (h7 : ¬hasQuads X)
    (h6 : ¬hasFH X) (h5 : ¬hasFlush X) (h4 : ¬hasStraight X) :
    catOf X ≤ 3 := by
  unfold catOf
  split_ifs <;> omega

lemma catOf_le_two {X : List Card} (h8 : ¬hasSF X) (h7 : ¬hasQuads X)
    (h6 : ¬hasFH X) (h5 : ¬hasFlush X) (h4 : ¬hasStraight X)
    (h3 : ¬hasTrips X) : catOf X ≤ 2 := by
  unfold catOf
  split_ifs <;> omega

lemma catOf_le_one {X : List Card} (h8 : ¬hasSF X) (h7 : ¬hasQuads X)
    (h6 : ¬hasFH X) (h5 : ¬hasFlush X) (h4 : ¬hasStraight X)
    (h3 : ¬hasTrips X) (h2 : ¬hasTwoPair X) : catOf X ≤ 1 := by
  unfold catOf
  split_ifs <;> omega

lemma catOf_le_zero {X : List Card} (h8 : ¬hasSF X) (h7 : ¬hasQuads X)
    (h6 : ¬hasFH X) (h5 : ¬hasFlush X) (h4 : ¬hasStraight X)
    (h3 : ¬hasTrips X) (h2 : ¬hasTwoPair X) (h1 : ¬hasPair X) :
    catOf X ≤ 0 := by
  unfold catOf
  split_ifs <;> omega

/-- A full house below stays worth ≥ 6 above. -/
lemma hasFH_up {s X : List Card} (hsub : s.Sublist X)
    (hv : ∀ c ∈ X, c ∈ makeDeck) (hn : X.Nodup) (h : hasFH s) :
    6 ≤ catOf X := by
  obtain ⟨a, b, hab, ha, hb⟩ := (hasFH_iff s).mp h
  rcases trip_up hsub hv hn ha with ha3 | ha4
  · rcases hb with hb3 | hb2
    · rcases trip_up hsub hv hn hb3 with hb3c | hb4
      · exact catOf_ge_of_hasFH ((hasFH_iff X).mpr ⟨a, b, hab, ha3, Or.inl hb3c⟩)
      · have := catOf_ge_of_hasQuads ((hasQuads_iff X).mpr ⟨b, hb4⟩)
        omega
    · rcases pair_up hsub hv hn hb2 with hb2c | hb3c | hb4
      · exact catOf_ge_of_hasFH ((hasFH_iff X).mpr ⟨a, b, hab, ha3, Or.inr hb2c⟩)
      · exact catOf_ge_of_hasFH ((hasFH_iff X).mpr ⟨a, b, hab, ha3, Or.inl hb3c⟩)
      · have := catOf_ge_of_hasQuads ((hasQuads_iff X).mpr ⟨b, hb4⟩)
        omega
  · have := catOf_ge_of_hasQuads ((hasQuads_iff X).mpr ⟨a, ha4⟩)
    omega

lemma hasTrips_up {s X : List Card} (hsub : s.Sublist X)
    (hv : ∀ c ∈ X, c ∈ makeDeck) (hn : X.Nodup) (h : hasTrips s) :
    3 ≤ catOf X := by
  obtain ⟨q, hq⟩ := (hasTrips_iff s).mp h
  rcases trip_up hsub hv hn hq with h3 | h4
  · exact catOf_ge_of_hasTrips ((hasTrips_iff X).mpr ⟨q, h3⟩)
  · have := catOf_ge_of_hasQuads ((hasQuads_iff X).mpr ⟨q, h4⟩)
    omega

lemma hasTwoPair_up {s X : List Card} (hsub : s.Sublist X)
    (hv : ∀ c ∈ X, c ∈ makeDeck) (hn : X.Nodup) (h : hasTwoPair s) :
    2 ≤ catOf X := by
  obtain ⟨a, b, hab, ha, hb⟩ := (hasTwoPair_iff s).mp h
  rcases pair_up hsub hv hn ha with ha2 | ha3 | ha4
  · rcases pair_up hsub hv hn hb with hb2 | hb3 | hb4
    · exact catOf_ge_of_hasTwoPair ((hasTwoPair_iff X).mpr ⟨a, b, hab, ha2, hb2⟩)
    · have := catOf_ge_of_hasTrips ((hasTrips_iff X).mpr ⟨b, hb3⟩)
      omega
    · have := catOf_ge_of_hasQuads ((hasQuads_iff X).mpr ⟨b, hb4⟩)
      omega
  · have := catOf_ge_of_hasTrips ((hasTrips_iff X).mpr ⟨a, ha3⟩)
    omega
  · have := catOf_ge_of_hasQuads ((hasQuads_iff X).mpr ⟨a, ha4⟩)
    omega

lemma hasPair_up {s X : List Card} (hsub : s.Sublist X)
    (hv : ∀ c ∈ X, c ∈ makeDeck) (hn : X.Nodup) (h : hasPair s) :
    1 ≤ catOf X := by
  obtain ⟨q, hq⟩ := (hasPair_iff s).mp h
  rcases pair_up hsub hv hn hq with h2 | h3 | h4
  · exact catOf_ge_of_hasPair ((hasPair_iff X).mpr ⟨q, h2⟩)
  · have := catOf_ge_of_hasTrips ((hasTrips_iff X).mpr ⟨q, h3⟩)
    omega
  · have := catOf_ge_of_hasQuads ((hasQuads_iff X).mpr ⟨q, h4⟩)
    omega

/-- Category monotonicity: a sub-hand never outranks the full hand in
category. -/
lemma catOf_le_of_sublist {s X : List Card} (hsub : s.Sublist X)
    (hv : ∀ c ∈ X, c ∈ makeDeck) (hn : X.Nodup) : catOf s ≤ catOf X := by
  by_cases h8 : hasSF s
  · rw [catOf_of_hasSF h8, catOf_of_hasSF (hasSF_mono hsub h8)]
  by_cases h7 : hasQuads s
  · have := catOf_ge_of_hasQuads (hasQuads_mono hsub hv hn h7)
    have := catOf_le_seven h8
    omega
  by_cases h6 : hasFH s
  · have := hasFH_up hsub hv hn h6
    have := catOf_le_six h8 h7
    omega
  by_cases h5 : hasFlush s
  · have := catOf_ge_of_hasFlush (hasFlush_mono hsub h5)
    have := catOf_le_five h8 h7 h6
    omega
  by_cases h4 : hasStraight s
  · have := catOf_ge_of_hasStraight (hasStraight_mono hsub h4)
    have := catOf_le_four h8 h7 h6 h5
    omega
  by_cases h3 : hasTrips s
  · have := hasTrips_up hsub hv hn h3
    have := catOf_le_three h8 h7 h6 h5 h4
    omega
  by_cases h2 : hasTwoPair s
  · have := hasTwoPair_up hsub hv hn h2
    have := catOf_le_two h8 h7 h6 h5 h4 h3
    omega
  by_cases h1 : hasPair s
  · have := hasPair_up hsub hv hn h1
    have := catOf_le_one h8 h7 h6 h5 h4 h3 h2
    omega
  · have := catOf_le_zero h8 h7 h6 h5 h4 h3 h2 h1
    omega

/-! Pointwise-domination helpers for comparator tuples. -/

lemma getD_zero_eq_headD (l : List ℕ) : l.getD 0 0 = l.headD 0 := by
  cases l <;> rfl

lemma pointwise_nil (l : List ℕ) :
    ∀ i, ([] : List ℕ).getD i 0 ≤ l.getD i 0 := by
  intro i
  simp

lemma pointwise_cons {a b : ℕ} {as bs : List ℕ} (hab : a ≤ b)
    (h : ∀ i, as.getD i 0 ≤ bs.getD i 0) :
    ∀ i, (a :: as).getD i 0 ≤ (b :: bs).getD i 0 := by
  intro i
  cases i with
  | zero => simpa using hab
  | succ n => simpa using h n

/-! Singleton characterization for unique-membership lists. -/

lemma eq_single_of_unique_mem {l : List ℕ} (hnd : l.Nodup) {q : ℕ}
    (hq : q ∈ l) (hu : ∀ x ∈ l, x = q) : l = [q] := by
  rcases l with - | ⟨a, t⟩
  · simp at hq
  rcases t with - | ⟨b, t2⟩
  · rw [hu a (List.mem_cons_self a [])]
  · exfalso
    rw [List.nodup_cons] at hnd
    have hb : b = q :=
      hu b (List.mem_cons_of_mem a (List.mem_cons_self b t2))
    have ha : a = q := hu a (List.mem_cons_self a _)
    exact hnd.1 (by rw [ha, ← hb]; exact List.mem_cons_self b t2)

/-! Count arithmetic: cons step and three-way disjoint bound. -/

lemma rankCount_cons (c : Card) (t : List Card) (r : ℕ) :
    rankCount (c :: t) r = (if c.r = r then 1 else 0) + rankCount t r := by
  simp only [rankCount, List.filter_cons]
  by_cases h : c.r = r
  · simp [h]
    omega
  · simp [h]

lemma rankCount_add3_le {cards : List Card} {r1 r2 r3 : ℕ}
    (h12 : r1 ≠ r2) (h13 : r1 ≠ r3) (h23 : r2 ≠ r3) :
    rankCount cards r1 + rankCount cards r2 + rankCount cards r3
      ≤ cards.length := by
  induction cards with
  | nil => simp [rankCount]
  | cons c t ih =>
    rw [rankCount_cons, rankCount_cons, rankCount_cons, List.length_cons]
    split_ifs <;> omega

lemma countP_or_le {α : Type} (l : List α) (p q : α → Bool) :
    l.countP (fun x => p x || q x) ≤ l.countP p + l.countP q := by
  induction l with
  | nil => simp
  | cons a t ih =>
    rw [List.countP_cons, List.countP_cons, List.countP_cons]
    cases hp : p a <;> cases hq : q a <;> simp [hp, hq] <;> omega

lemma filter2_length_ge (cards : List Card) (q1 q2 : ℕ) :
    cards.length ≤ (cards.filter fun c => c.r != q1 && c.r != q2).length
      + rankCount cards q1 + rankCount cards q2 := by
  have hsplit := List.length_eq_countP_add_countP
    (p := fun c : Card => c.r != q1 && c.r != q2) (l := cards)
  have hmono : (cards.countP fun c => ¬(c.r != q1 && c.r != q2))
      ≤ cards.countP fun c => c.r == q1 || c.r == q2 := by
    apply List.countP_mono_left
    intro c _ hc
    cases h1 : (c.r == q1) <;> cases h2 : (c.r == q2) <;> simp_all [bne]
  have hor := countP_or_le cards (fun c => c.r == q1) (fun c => c.r == q2)
  have hflt : (cards.filter fun c => c.r != q1 && c.r != q2).length
      = cards.countP fun c => c.r != q1 && c.r != q2 :=
    (List.countP_eq_length_filter _ _).symm
  rw [rankCount_eq_countP, rankCount_eq_countP]
  omega

/-! Second element of the descending sort. -/

lemma sortDesc_second_mem {l : List ℕ} (h2 : 2 ≤ l.length) :
    (l.insertionSort (· ≥ ·)).getD 1 0 ∈ l := by
  have hlen : 2 ≤ (l.insertionSort (· ≥ ·)).length := by
    rw [(sortDesc_perm l).length_eq]
    exact h2
  rcases hs : l.insertionSort (· ≥ ·) with - | ⟨a, t⟩
  · rw [hs] at hlen
    simp at hlen
  rcases t with - | ⟨b, t2⟩
  · rw [hs] at hlen
    simp at hlen
  · have hb : b ∈ l.insertionSort (· ≥ ·) := by
      rw [hs]
      exact List.mem_cons_of_mem a (List.mem_cons_self b t2)
    simpa using (sortDesc_perm l).subset hb

lemma le_sortDesc_second {l : List ℕ} {x : ℕ} (hx : x ∈ l)
    (hne : x ≠ (l.insertionSort (· ≥ ·)).getD 0 0) :
    x ≤ (l.insertionSort (· ≥ ·)).getD 1 0 := by
  have hx2 : x ∈ l.insertionSort (· ≥ ·) := (sortDesc_perm l).symm.subset hx
  rcases hs : l.insertionSort (· ≥ ·) with - | ⟨a, t⟩
  · rw [hs] at hx2
    simp at hx2
  rw [hs] at hx2 hne
  have hsort := sortDesc_sorted l
  rw [hs, List.sorted_cons] at hsort
  rcases List.mem_cons.mp hx2 with rfl | hmem
  · simp at hne
  rcases t with - | ⟨b, t2⟩
  · simp at hmem
  · rw [List.sorted_cons] at hsort
    rcases List.mem_cons.mp hmem with rfl | hmem2
    · simp
    · simpa using hsort.2.1 x hmem2

lemma sortDesc_nodup {l : List ℕ} (hnd : l.Nodup) :
    (l.insertionSort (· ≥ ·)).Nodup :=
  (sortDesc_perm l).nodup_iff.mpr hnd

/-! Extraction of the predicate chain from a category value. -/

lemma catOf_eq_eight {X : List Card} (h : catOf X = 8) : hasSF X := by
  by_contra h8
  have := catOf_le_seven h8
  omega

lemma catOf_eq_seven {X : List Card} (h : catOf X = 7) :
    ¬hasSF X ∧ hasQuads X := by
  have h8 : ¬hasSF X := fun h8 => by rw [catOf_of_hasSF h8] at h; omega
  refine ⟨h8, ?_⟩
  by_contra h7
  have := catOf_le_six h8 h7
  omega

lemma catOf_eq_six {X : List Card} (h : catOf X = 6) :
    ¬hasSF X ∧ ¬hasQuads X ∧ hasFH X := by
  have h8 : ¬hasSF X := fun h8 => by rw [catOf_of_hasSF h8] at h; omega
  have h7 : ¬hasQuads X := fun h7 => by
    have := catOf_ge_of_hasQuads h7
    omega
  refine ⟨h8, h7, ?_⟩
  by_contra h6
  have := catOf_le_five h8 h7 h6
  omega

lemma catOf_eq_five {X : List Card} (h : catOf X = 5) :
    ¬hasSF X ∧ ¬hasQuads X ∧ ¬hasFH X ∧ hasFlush X := by
  have h8 : ¬hasSF X := fun h8 => by rw [catOf_of_hasSF h8] at h; omega
  have h7 : ¬hasQuads X := fun h7 => by
    have := catOf_ge_of_hasQuads h7
    omega
  have h6 : ¬hasFH X := fun h6 => by
    have := catOf_ge_of_hasFH h6
    omega
  refine ⟨h8, h7, h6, ?_⟩
  by_contra h5
  have := catOf_le_four h8 h7 h6 h5
  omega

lemma catOf_eq_four {X : List Card} (h : catOf X = 4) :
    ¬hasSF X ∧ ¬hasQuads X ∧ ¬hasFH X ∧ ¬hasFlush X ∧ hasStraight X := by
  have h8 : ¬hasSF X := fun h8 => by rw [catOf_of_hasSF h8] at h; omega
  have h7 : ¬hasQuads X := fun h7 => by
    have := catOf_ge_of_hasQuads h7
    omega
  have h6 : ¬hasFH X := fun h6 => by
    have := catOf_ge_of_hasFH h6
    omega
  have h5 : ¬hasFlush X := fun h5 => by
    have := catOf_ge_of_hasFlush h5
    omega
  refine ⟨h8, h7, h6, h5, ?_⟩
  by_contra h4
  have := catOf_le_three h8 h7 h6 h5 h4
  omega

lemma catOf_eq_three {X : List Card} (h : catOf X = 3) :
    ¬hasSF X ∧ ¬hasQuads X ∧ ¬hasFH X ∧ ¬hasFlush X ∧ ¬hasStraight X ∧
      hasTrips X := by
  have h8 : ¬hasSF X := fun h8 => by rw [catOf_of_hasSF h8] at h; omega
  have h7 : ¬hasQuads X := fun h7 => by
    have := catOf_ge_of_hasQuads h7
    omega
  have h6 : ¬hasFH X := fun h6 => by
    have := catOf_ge_of_hasFH h6
    omega
  have h5 : ¬hasFlush X := fun h5 => by
    have := catOf_ge_of_hasFlush h5
    omega
  have h4 : ¬hasStraight X := fun h4 => by
    have := catOf_ge_of_hasStraight h4
    omega
  refine ⟨h8, h7, h6, h5, h4, ?_⟩
  by_contra h3
  have := catOf_le_two h8 h7 h6 h5 h4 h3
  omega

lemma catOf_eq_two {X : List Card} (h : catOf X = 2) :
    ¬hasSF X ∧ ¬hasQuads X ∧ ¬hasFH X ∧ ¬hasFlush X ∧ ¬hasStraight X ∧
      ¬hasTrips X ∧ hasTwoPair X := by
  have h8 : ¬hasSF X := fun h8 => by rw [catOf_of_hasSF h8] at h; omega
  have h7 : ¬hasQuads X := fun h7 => by
    have := catOf_ge_of_hasQuads h7
    omega
  have h6 : ¬hasFH X := fun h6 => by
    have := catOf_ge_of_hasFH h6
    omega
  have h5 : ¬hasFlush X := fun h5 => by
    have := catOf_ge_of_hasFlush h5
    omega
  have h4 : ¬hasStraight X := fun h4 => by
    have := catOf_ge_of_hasStraight h4
    omega
  have h3 : ¬hasTrips X := fun h3 => by
    have := catOf_ge_of_hasTrips h3
    omega
  refine ⟨h8, h7, h6, h5, h4, h3, ?_⟩
  by_contra h2
  have := catOf_le_one h8 h7 h6 h5 h4 h3 h2
  omega

lemma catOf_eq_one {X : List Card} (h : catOf X = 1) :
    ¬hasSF X ∧ ¬hasQuads X ∧ ¬hasFH X ∧ ¬hasFlush X ∧ ¬hasStraight X ∧
      ¬hasTrips X ∧ ¬hasTwoPair X ∧ hasPair X := by
  have h8 : ¬hasSF X := fun h8 => by rw [catOf_of_hasSF h8] at h; omega
  have h7 : ¬hasQuads X := fun h7 => by
    have := catOf_ge_of_hasQuads h7
    omega
  have h6 : ¬hasFH X := fun h6 => by
    have := catOf_ge_of_hasFH h6
    omega
  have h5 : ¬hasFlush X := fun h5 => by
    have := catOf_ge_of_hasFlush h5
    omega
  have h4 : ¬hasStraight X := fun h4 => by
    have := catOf_ge_of_hasStraight h4
    omega
  have h3 : ¬hasTrips X := fun h3 => by
    have := catOf_ge_of_hasTrips h3
    omega
  have h2 : ¬hasTwoPair X := fun h2 => by
    have := catOf_ge_of_hasTwoPair h2
    omega
  refine ⟨h8, h7, h6, h5, h4, h3, h2, ?_⟩
  by_contra h1
  have := catOf_le_zero h8 h7 h6 h5 h4 h3 h2 h1
  omega

lemma catOf_eq_zero {X : List Card} (h : catOf X = 0) :
    ¬hasSF X ∧ ¬hasQuads X ∧ ¬hasFH X ∧ ¬hasFlush X ∧ ¬hasStraight X ∧
      ¬hasTrips X ∧ ¬hasTwoPair X ∧ ¬hasPair X := by
  have h8 : ¬hasSF X := fun h8 => by rw [catOf_of_hasSF h8] at h; omega
  have h7 : ¬hasQuads X := fun h7 => by
    have := catOf_ge_of_hasQuads h7
    omega
  have h6 : ¬hasFH X := fun h6 => by
    have := catOf_ge_of_hasFH h6
    omega
  have h5 : ¬hasFlush X := fun h5 => by
    have := catOf_ge_of_hasFlush h5
    omega
  have h4 : ¬hasStraight X := fun h4 => by
    have := catOf_ge_of_hasStraight h4
    omega
  have h3 : ¬hasTrips X := fun h3 => by
    have := catOf_ge_of_hasTrips h3
    omega
  have h2 : ¬hasTwoPair X := fun h2 => by
    have := catOf_ge_of_hasTwoPair h2
    omega
  have h1 : ¬hasPair X := fun h1 => by
    have := catOf_ge_of_hasPair h1
    omega
  exact ⟨h8, h7, h6, h5, h4, h3, h2, h1⟩

/-! The first entry of an evaluation is the hand category. -/

lemma evaluate_head (X : List Card) (hv : ∀ c ∈ X, c ∈ makeDeck)
    (h7 : X.length ≤ 7) : ∃ t, evaluate X = catOf X :: t := by
  by_cases h8 : hasSF X
  · obtain ⟨σ, hσ, h5c, hrun⟩ := id h8
    rw [catOf_of_hasSF h8, evaluate_SF X σ hv h7 hσ h5c hrun]
    exact ⟨_, rfl⟩
  by_cases h7q : hasQuads X
  · have hk : catOf X = 7 := by
      have := catOf_ge_of_hasQuads h7q
      have := catOf_le_seven h8
      omega
    rw [hk, evaluate_quads X hv h8 h7q]
    exact ⟨_, rfl⟩
  by_cases h6 : hasFH X
  · have hk : catOf X = 6 := by
      have := catOf_ge_of_hasFH h6
      have := catOf_le_six h8 h7q
      omega
    rw [hk, evaluate_FH X hv h8 h7q h6]
    exact ⟨_, rfl⟩
  by_cases h5 : hasFlush X
  · obtain ⟨σ, hσ, h5c⟩ := id h5
    have hk : catOf X = 5 := by
      have := catOf_ge_of_hasFlush h5
      have := catOf_le_five h8 h7q h6
      omega
    rw [hk, evaluate_flush X σ hv h7 hσ h5c h8 h7q h6]
    exact ⟨_, rfl⟩
  by_cases h4 : hasStraight X
  · have hk : catOf X = 4 := by
      have := catOf_ge_of_hasStraight h4
      have := catOf_le_four h8 h7q h6 h5
      omega
    rw [hk, evaluate_straight X hv h8 h7q h6 h5 h4]
    exact ⟨_, rfl⟩
  by_cases h3 : hasTrips X
  · have hk : catOf X = 3 := by
      have := catOf_ge_of_hasTrips h3
      have := catOf_le_three h8 h7q h6 h5 h4
      omega
    rw [hk, evaluate_trips X hv h8 h7q h6 h5 h4 h3]
    exact ⟨_, rfl⟩
  by_cases h2 : hasTwoPair X
  · have hk : catOf X = 2 := by
      have := catOf_ge_of_hasTwoPair h2
      have := catOf_le_two h8 h7q h6 h5 h4 h3
      omega
    rw [hk, evaluate_twoPair X hv h8 h7q h6 h5 h4 h3 h2]
    exact ⟨_, rfl⟩
  by_cases h1 : hasPair X
  · have hk : catOf X = 1 := by
      have := catOf_ge_of_hasPair h1
      have := catOf_le_one h8 h7q h6 h5 h4 h3 h2
      omega
    rw [hk, evaluate_pair X hv h8 h7q h6 h5 h4 h3 h2 h1]
    exact ⟨_, rfl⟩
  · have hk : catOf X = 0 := by
      have := catOf_le_zero h8 h7q h6 h5 h4 h3 h2 h1
      omega
    rw [hk, evaluate_high X hv h8 h7q h6 h5 h4 h3 h1]
    exact ⟨_, rfl⟩

/-! Unique quad rank of a hand of at most seven cards. -/

lemma quadsOf_eq_single {X : List Card} (h7 : X.length ≤ 7) {q : ℕ}
    (hq : rankCount X q = 4) : quadsOf X = [q] := by
  have hmem : q ∈ ranksWithCount X 4 :=
    (mem_ranksWithCount (by omega)).mpr hq
  have huniq : ∀ x ∈ ranksWithCount X 4, x = q := by
    intro x hx
    have hx4 := (mem_ranksWithCount (by omega : (0:ℕ) < 4)).mp hx
    by_contra hne
    have hsum : rankCount X x + rankCount X q ≤ X.length :=
      rankCount_add_le hne
    omega
  rw [quadsOf, eq_single_of_unique_mem (ranksWithCount_nodup X 4) hmem huniq]
  rfl

/-! Diagonal comparisons: a five-card sub-hand in the same category as the
full hand never beats it. -/

lemma diagSF {s X : List Card} (hsub : s.Sublist X)
    (hvX : ∀ c ∈ X, c ∈ makeDeck) (h7X : X.length ≤ 7)
    (h8s : hasSF s) :
    compareRankTuples (evaluate s) (evaluate X) ≤ 0 := by
  have hvs : ∀ c ∈ s, c ∈ makeDeck := fun c hc => hvX c (hsub.subset hc)
  have hs7 : s.length ≤ 7 := le_trans hsub.length_le h7X
  obtain ⟨σ, hσ, h5c, hrun⟩ := id h8s
  have hσX : σ ∈ (X.map Card.s).dedup := dedup_suits_mono hsub hσ
  have h5X : 5 ≤ suitCount X σ := le_trans h5c (suitCount_sublist_le hsub σ)
  have hmono := specStraightHigh_mono (suitRanks_mono hsub σ)
  have hrunX : 0 < specStraightHigh (suitRanks X σ) := by omega
  rw [evaluate_SF s σ hvs hs7 hσ h5c hrun,
    evaluate_SF X σ hvX h7X hσX h5X hrunX]
  exact cmp_nonpos_of_pointwise
    (pointwise_cons le_rfl (pointwise_cons hmono (pointwise_nil [])))

lemma diagQuads {s X : List Card} (hsub : s.Sublist X) (hs5 : s.length = 5)
    (hvX : ∀ c ∈ X, c ∈ makeDeck) (hnX : X.Nodup) (h7X : X.length ≤ 7)
    (hn8s : ¬hasSF s) (hqs : hasQuads s) (hn8X : ¬hasSF X) :
    compareRankTuples (evaluate s) (evaluate X) ≤ 0 := by
  have hvs : ∀ c ∈ s, c ∈ makeDeck := fun c hc => hvX c (hsub.subset hc)
  obtain ⟨q, hq4⟩ := (hasQuads_iff s).mp hqs
  have hle := rankCount_sublist_le hsub q
  have hle4 := rankCount_le_four hvX hnX q
  have hq4X : rankCount X q = 4 := by omega
  have hqX : hasQuads X := (hasQuads_iff X).mpr ⟨q, hq4X⟩
  have hqs1 : quadsOf s = [q] := quadsOf_eq_single (by omega) hq4
  have hqX1 : quadsOf X = [q] := quadsOf_eq_single h7X hq4X
  rw [evaluate_quads s hvs hn8s hqs, evaluate_quads X hvX hn8X hqX, hqs1, hqX1]
  simp only [List.headD_cons]
  have hrem : (s.filter fun c => c.r != q) ≠ [] := by
    have hlf := length_filter_rne s q
    intro hnil
    rw [hnil] at hlf
    simp only [List.length_nil] at hlf
    omega
  have hmapne : ((s.filter fun c => c.r != q).map Card.r) ≠ [] := by
    simpa using hrem
  have hks := topNDesc_headD_mem hmapne (by omega : (0:ℕ) < 1)
  have hksX : (topNDesc ((s.filter fun c => c.r != q).map Card.r) 1).headD 0
      ∈ (X.filter fun c => c.r != q).map Card.r :=
    ((hsub.filter _).map Card.r).subset hks
  have hkle := le_topNDesc_headD hksX (by omega : (0:ℕ) < 1)
  exact cmp_nonpos_of_pointwise
    (pointwise_cons le_rfl (pointwise_cons le_rfl
      (pointwise_cons hkle (pointwise_nil []))))

lemma diagFlush {s X : List Card} (hsub : s.Sublist X)
    (hvX : ∀ c ∈ X, c ∈ makeDeck) (h7X : X.length ≤ 7)
    (hn8s : ¬hasSF s) (hn7s : ¬hasQuads s) (hn6s : ¬hasFH s)
    (hfls : hasFlush s)
    (hn8X : ¬hasSF X) (hn7X : ¬hasQuads X) (hn6X : ¬hasFH X) :
    compareRankTuples (evaluate s) (evaluate X) ≤ 0 := by
  have hvs : ∀ c ∈ s, c ∈ makeDeck := fun c hc => hvX c (hsub.subset hc)
  have hs7 : s.length ≤ 7 := le_trans hsub.length_le h7X
  obtain ⟨σ, hσ, h5c⟩ := id hfls
  have hσX : σ ∈ (X.map Card.s).dedup := dedup_suits_mono hsub hσ
  have h5X : 5 ≤ suitCount X σ := le_trans h5c (suitCount_sublist_le hsub σ)
  rw [evaluate_flush s σ hvs hs7 hσ h5c hn8s hn7s hn6s,
    evaluate_flush X σ hvX h7X hσX h5X hn8X hn7X hn6X]
  have hsp : ((s.filter fun c => c.s == σ).map Card.r).Subperm
      ((X.filter fun c => c.s == σ).map Card.r) :=
    ((hsub.filter _).map Card.r).subperm
  exact cmp_nonpos_of_pointwise
    (pointwise_cons le_rfl (fun i => topNDesc_getD_le hsp 5 i))

lemma diagStraight {s X : List Card} (hsub : s.Sublist X)
    (hvX : ∀ c ∈ X, c ∈ makeDeck)
    (hn8s : ¬hasSF s) (hn7s : ¬hasQuads s) (hn6s : ¬hasFH s)
    (hn5s : ¬hasFlush s) (hsts : hasStraight s)
    (hn8X : ¬hasSF X) (hn7X : ¬hasQuads X) (hn6X : ¬hasFH X)
    (hn5X : ¬hasFlush X) :
    compareRankTuples (evaluate s) (evaluate X) ≤ 0 := by
  have hvs : ∀ c ∈ s, c ∈ makeDeck := fun c hc => hvX c (hsub.subset hc)
  have hstX : hasStraight X := hasStraight_mono hsub hsts
  rw [evaluate_straight s hvs hn8s hn7s hn6s hn5s hsts,
    evaluate_straight X hvX hn8X hn7X hn6X hn5X hstX]
  have hsub2 : (s.map Card.r).toFinset ⊆ (X.map Card.r).toFinset := by
    intro x hx
    rw [List.mem_toFinset] at hx ⊢
    exact (hsub.map Card.r).subset hx
  have hmono := specStraightHigh_mono hsub2
  exact cmp_nonpos_of_pointwise
    (pointwise_cons le_rfl (pointwise_cons hmono (pointwise_nil [])))

lemma diagTrips {s X : List Card} (hsub : s.Sublist X) (hs5 : s.length = 5)
    (hvX : ∀ c ∈ X, c ∈ makeDeck) (hnX : X.Nodup)
    (hn8s : ¬hasSF s) (hn7s : ¬hasQuads s) (hn6s : ¬hasFH s)
    (hn5s : ¬hasFlush s) (hn4s : ¬hasStraight s) (htrs : hasTrips s)
    (hn8X : ¬hasSF X) (hn7X : ¬hasQuads X) (hn6X : ¬hasFH X)
    (hn5X : ¬hasFlush X) (hn4X : ¬hasStraight X) :
    compareRankTuples (evaluate s) (evaluate X) ≤ 0 := by
  have hvs : ∀ c ∈ s, c ∈ makeDeck := fun c hc => hvX c (hsub.subset hc)
  obtain ⟨a, ha3⟩ := (hasTrips_iff s).mp htrs
  have hmems : a ∈ ranksWithCount s 3 :=
    (mem_ranksWithCount (by omega)).mpr ha3
  have huniqs : ∀ x ∈ ranksWithCount s 3, x = a := by
    intro x hx
    have hx3 := (mem_ranksWithCount (by omega : (0:ℕ) < 3)).mp hx
    by_contra hne
    have hsum : rankCount s x + rankCount s a ≤ s.length :=
      rankCount_add_le hne
    omega
  have hts : tripsOf s = [a] := by
    rw [tripsOf, eq_single_of_unique_mem (ranksWithCount_nodup s 3) hmems huniqs]
    rfl
  have ha3X : rankCount X a = 3 := by
    have hle := rankCount_sublist_le hsub a
    have hle4 := rankCount_le_four hvX hnX a
    have h4 : rankCount X a ≠ 4 := fun h4 => hn7X ((hasQuads_iff X).mpr ⟨a, h4⟩)
    omega
  have hmemX : a ∈ ranksWithCount X 3 :=
    (mem_ranksWithCount (by omega)).mpr ha3X
  have hlenX : (ranksWithCount X 3).length < 2 := by
    by_contra hge
    exact hn6X (Or.inl (by omega))
  have huniqX : ∀ x ∈ ranksWithCount X 3, x = a := by
    intro x hx
    by_contra hne
    have h2 : 2 ≤ (ranksWithCount X 3).length :=
      (two_le_length_iff (ranksWithCount_nodup X 3)).mpr ⟨x, a, hne, hx, hmemX⟩
    omega
  have htX : tripsOf X = [a] := by
    rw [tripsOf, eq_single_of_unique_mem (ranksWithCount_nodup X 3) hmemX huniqX]
    rfl
  rw [evaluate_trips s hvs hn8s hn7s hn6s hn5s hn4s htrs,
    evaluate_trips X hvX hn8X hn7X hn6X hn5X hn4X
      ((hasTrips_iff X).mpr ⟨a, ha3X⟩),
    hts, htX]
  simp only [List.headD_cons]
  have hsp : ((s.filter fun c => c.r != a).map Card.r).Subperm
      ((X.filter fun c => c.r != a).map Card.r) :=
    ((hsub.filter _).map Card.r).subperm
  exact cmp_nonpos_of_pointwise
    (pointwise_cons le_rfl (pointwise_cons le_rfl
      (fun i => topNDesc_getD_le hsp 2 i)))

lemma diagPair {s X : List Card} (hsub : s.Sublist X)
    (hvX : ∀ c ∈ X, c ∈ makeDeck) (hnX : X.Nodup)
    (hn8s : ¬hasSF s) (hn7s : ¬hasQuads s) (hn6s : ¬hasFH s)
    (hn5s : ¬hasFlush s) (hn4s : ¬hasStraight s) (hn3s : ¬hasTrips s)
    (hn2s : ¬hasTwoPair s) (hps : hasPair s)
    (hn8X : ¬hasSF X) (hn7X : ¬hasQuads X) (hn6X : ¬hasFH X)
    (hn5X : ¬hasFlush X) (hn4X : ¬hasStraight X) (hn3X : ¬hasTrips X)
    (hn2X : ¬hasTwoPair X) :
    compareRankTuples (evaluate s) (evaluate X) ≤ 0 := by
  have hvs : ∀ c ∈ s, c ∈ makeDeck := fun c hc => hvX c (hsub.subset hc)
  obtain ⟨p, hp2⟩ := (hasPair_iff s).mp hps
  have hmems : p ∈ ranksWithCount s 2 :=
    (mem_ranksWithCount (by omega)).mpr hp2
  have huniqs : ∀ x ∈ ranksWithCount s 2, x = p := by
    intro x hx
    by_contra hne
    exact hn2s ((two_le_length_iff (ranksWithCount_nodup s 2)).mpr
      ⟨x, p, hne, hx, hmems⟩)
  have hpsl : pairsOf s = [p] := by
    rw [pairsOf, eq_single_of_unique_mem (ranksWithCount_nodup s 2) hmems huniqs]
    rfl
  have hp2X : rankCount X p = 2 := by
    have hle := rankCount_sublist_le hsub p
    have hle4 := rankCount_le_four hvX hnX p
    have h4 : rankCount X p ≠ 4 := fun h => hn7X ((hasQuads_iff X).mpr ⟨p, h⟩)
    have h3 : rankCount X p ≠ 3 := fun h => hn3X ((hasTrips_iff X).mpr ⟨p, h⟩)
    omega
  have hmemX : p ∈ ranksWithCount X 2 :=
    (mem_ranksWithCount (by omega)).mpr hp2X
  have huniqX : ∀ x ∈ ranksWithCount X 2, x = p := by
    intro x hx
    by_contra hne
    exact hn2X ((two_le_length_iff (ranksWithCount_nodup X 2)).mpr
      ⟨x, p, hne, hx, hmemX⟩)
  have hpXl : pairsOf X = [p] := by
    rw [pairsOf, eq_single_of_unique_mem (ranksWithCount_nodup X 2) hmemX huniqX]
    rfl
  rw [evaluate_pair s hvs hn8s hn7s hn6s hn5s hn4s hn3s hn2s hps,
    evaluate_pair X hvX hn8X hn7X hn6X hn5X hn4X hn3X hn2X
      ((hasPair_iff X).mpr ⟨p, hp2X⟩),
    hpsl, hpXl]
  simp only [List.headD_cons]
  have hsp : ((s.filter fun c => c.r != p).map Card.r).Subperm
      ((X.filter fun c => c.r != p).map Card.r) :=
    ((hsub.filter _).map Card.r).subperm
  exact cmp_nonpos_of_pointwise
    (pointwise_cons le_rfl (pointwise_cons le_rfl
      (fun i => topNDesc_getD_le hsp 3 i)))

lemma diagHigh {s X : List Card} (hsub : s.Sublist X)
    (hvX : ∀ c ∈ X, c ∈ makeDeck)
    (hn8s : ¬hasSF s) (hn7s : ¬hasQuads s) (hn6s : ¬hasFH s)
    (hn5s : ¬hasFlush s) (hn4s : ¬hasStraight s) (hn3s : ¬hasTrips s)
    (hn1s : ¬hasPair s)
    (hn8X : ¬hasSF X) (hn7X : ¬hasQuads X) (hn6X : ¬hasFH X)
    (hn5X : ¬hasFlush X) (hn4X : ¬hasStraight X) (hn3X : ¬hasTrips X)
    (hn1X : ¬hasPair X) :
    compareRankTuples (evaluate s) (evaluate X) ≤ 0 := by
  have hvs : ∀ c ∈ s, c ∈ makeDeck := fun c hc => hvX c (hsub.subset hc)
  rw [evaluate_high s hvs hn8s hn7s hn6s hn5s hn4s hn3s hn1s,
    evaluate_high X hvX hn8X hn7X hn6X hn5X hn4X hn3X hn1X]
  have hsp : (s.map Card.r).Subperm (X.map Card.r) := (hsub.map Card.r).subperm
  exact cmp_nonpos_of_pointwise
    (pointwise_cons le_rfl (fun i => topNDesc_getD_le hsp 5 i))

lemma sortDesc_head_ne_second {l : List ℕ} (hnd : l.Nodup)
    (h2 : 2 ≤ l.length) :
    (l.insertionSort (· ≥ ·)).getD 0 0 ≠ (l.insertionSort (· ≥ ·)).getD 1 0 := by
  have hnd2 := sortDesc_nodup hnd
  have hlen : 2 ≤ (l.insertionSort (· ≥ ·)).length := by
    rw [(sortDesc_perm l).length_eq]
    exact h2
  rcases hs : l.insertionSort (· ≥ ·) with - | ⟨a, t⟩
  · rw [hs] at hlen
    simp at hlen
  rcases t with - | ⟨b, t2⟩
  · rw [hs] at hlen
    simp at hlen
  · rw [hs] at hnd2
    rw [List.nodup_cons] at hnd2
    simp only [List.getD_cons_zero, List.getD_cons_succ]
    intro h
    exact hnd2.1 (by rw [h]; exact List.mem_cons_self b t2)

lemma three_distinct_of_length {l : List ℕ} (hnd : l.Nodup)
    (h3 : 3 ≤ l.length) :
    ∃ x y z, x ≠ y ∧ x ≠ z ∧ y ≠ z ∧ x ∈ l ∧ y ∈ l ∧ z ∈ l := by
  rcases l with - | ⟨x, t⟩
  · simp at h3
  rcases t with - | ⟨y, t2⟩
  · simp at h3
  rcases t2 with - | ⟨z, t3⟩
  · simp at h3
  rw [List.nodup_cons, List.nodup_cons] at hnd
  obtain ⟨hx, hy, -⟩ := hnd
  refine ⟨x, y, z, ?_, ?_, ?_, List.mem_cons_self _ _,
    List.mem_cons_of_mem _ (List.mem_cons_self _ _),
    List.mem_cons_of_mem _ (List.mem_cons_of_mem _ (List.mem_cons_self _ _))⟩
  · intro h
    exact hx (by rw [h]; exact List.mem_cons_self _ _)
  · intro h
    exact hx (by rw [h]; exact List.mem_cons_of_mem _ (List.mem_cons_self _ _))
  · intro h
    exact hy (by rw [h]; exact List.mem_cons_self _ _)

/-! Diagonal comparison: full house. -/

lemma diagFH {s X : List Card} (hsub : s.Sublist X) (hs5 : s.length = 5)
    (hvX : ∀ c ∈ X, c ∈ makeDeck) (hnX : X.Nodup) (h7X : X.length ≤ 7)
    (hn8s : ¬hasSF s) (hn7s : ¬hasQuads s) (hfhs : hasFH s)
    (hn8X : ¬hasSF X) (hn7X : ¬hasQuads X) (hfhX : hasFH X) :
    compareRankTuples (evaluate s) (evaluate X) ≤ 0 := by
  have hvs : ∀ c ∈ s, c ∈ makeDeck := fun c hc => hvX c (hsub.subset hc)
  obtain ⟨a, b, hab, ha3, hb⟩ := (hasFH_iff s).mp hfhs
  have hb2 : rankCount s b = 2 := by
    rcases hb with hb3 | hb2
    · exfalso
      have hsum : rankCount s a + rankCount s b ≤ s.length :=
        rankCount_add_le hab
      omega
    · exact hb2
  have hmem3s : a ∈ ranksWithCount s 3 :=
    (mem_ranksWithCount (by omega)).mpr ha3
  have huniq3s : ∀ x ∈ ranksWithCount s 3, x = a := by
    intro x hx
    have hx3 := (mem_ranksWithCount (by omega : (0:ℕ) < 3)).mp hx
    by_contra hne
    have hsum : rankCount s x + rankCount s a ≤ s.length :=
      rankCount_add_le hne
    omega
  have hts : tripsOf s = [a] := by
    rw [tripsOf,
      eq_single_of_unique_mem (ranksWithCount_nodup s 3) hmem3s huniq3s]
    rfl
  have hmem2s : b ∈ ranksWithCount s 2 :=
    (mem_ranksWithCount (by omega)).mpr hb2
  have huniq2s : ∀ x ∈ ranksWithCount s 2, x = b := by
    intro x hx
    have hx2 := (mem_ranksWithCount (by omega : (0:ℕ) < 2)).mp hx
    by_contra hne
    have hxa : x ≠ a := by
      intro h
      rw [h] at hx2
      omega
    have hsum : rankCount s a + rankCount s b + rankCount s x ≤ s.length :=
      rankCount_add3_le hab (Ne.symm hxa) (Ne.symm hne)
    omega
  have hpsl : pairsOf s = [b] := by
    rw [pairsOf,
      eq_single_of_unique_mem (ranksWithCount_nodup s 2) hmem2s huniq2s]
    rfl
  have ha3X : rankCount X a = 3 := by
    have hle := rankCount_sublist_le hsub a
    have hle4 := rankCount_le_four hvX hnX a
    have h4 : rankCount X a ≠ 4 := fun h4 => hn7X ((hasQuads_iff X).mpr ⟨a, h4⟩)
    omega
  have hmem3X : a ∈ ranksWithCount X 3 :=
    (mem_ranksWithCount (by omega)).mpr ha3X
  have hbX : rankCount X b = 2 ∨ rankCount X b = 3 := by
    have hle := rankCount_sublist_le hsub b
    have hle4 := rankCount_le_four hvX hnX b
    have h4 : rankCount X b ≠ 4 := fun h4 => hn7X ((hasQuads_iff X).mpr ⟨b, h4⟩)
    omega
  rw [evaluate_FH s hvs hn8s hn7s hfhs, evaluate_FH X hvX hn8X hn7X hfhX,
    hts, hpsl]
  simp only [List.headD_cons]
  rw [if_neg (show ¬ 2 ≤ [a].length by simp)]
  have haleX : a ≤ (tripsOf X).headD 0 := le_sortDesc_headD hmem3X
  rcases lt_or_eq_of_le haleX with hlt | heqa
  · rw [cmp_cons_eq]
    exact le_of_lt (cmp_cons_lt hlt _ _)
  · rw [← heqa]
    have hble : b ≤ (if 2 ≤ (tripsOf X).length then (tripsOf X).getD 1 0
        else (pairsOf X).headD 0) := by
      by_cases h2t : 2 ≤ (tripsOf X).length
      · rw [if_pos h2t]
        have h2r : 2 ≤ (ranksWithCount X 3).length := by
          rw [← tripsOf_length]
          exact h2t
        rcases hbX with hb2X | hb3X
        · exfalso
          have ht2mem : (tripsOf X).getD 1 0 ∈ ranksWithCount X 3 :=
            sortDesc_second_mem h2r
          have ht2cnt : rankCount X ((tripsOf X).getD 1 0) = 3 :=
            (mem_ranksWithCount (by omega : (0:ℕ) < 3)).mp ht2mem
          have hne01 : (tripsOf X).getD 0 0 ≠ (tripsOf X).getD 1 0 :=
            sortDesc_head_ne_second (ranksWithCount_nodup X 3) h2r
          have hat2 : a ≠ (tripsOf X).getD 1 0 := by
            rw [← getD_zero_eq_headD] at heqa
            rw [heqa]
            exact hne01
          have hbt2 : b ≠ (tripsOf X).getD 1 0 := by
            intro h
            rw [← h] at ht2cnt
            omega
          have hsum : rankCount X a + rankCount X ((tripsOf X).getD 1 0)
              + rankCount X b ≤ X.length :=
            rankCount_add3_le hat2 hab (Ne.symm hbt2)
          omega
        · have hmemb : b ∈ ranksWithCount X 3 :=
            (mem_ranksWithCount (by omega)).mpr hb3X
          have hneb : b ≠ (tripsOf X).getD 0 0 := by
            rw [getD_zero_eq_headD, ← heqa]
            exact Ne.symm hab
          exact le_sortDesc_second hmemb hneb
      · rw [if_neg h2t]
        rcases hbX with hb2X | hb3X
        · exact le_sortDesc_headD ((mem_ranksWithCount (by omega)).mpr hb2X)
        · exfalso
          apply h2t
          rw [tripsOf_length]
          exact (two_le_length_iff (ranksWithCount_nodup X 3)).mpr
            ⟨b, a, Ne.symm hab, (mem_ranksWithCount (by omega)).mpr hb3X,
              hmem3X⟩
    exact cmp_nonpos_of_pointwise
      (pointwise_cons le_rfl (pointwise_cons le_rfl
        (pointwise_cons hble (pointwise_nil []))))

/-! Diagonal comparison: two pair. -/

lemma diagTwoPair {s X : List Card} (hsub : s.Sublist X) (hs5 : s.length = 5)
    (hvX : ∀ c ∈ X, c ∈ makeDeck) (hnX : X.Nodup) (h7X : X.length ≤ 7)
    (hn8s : ¬hasSF s) (hn7s : ¬hasQuads s) (hn6s : ¬hasFH s)
    (hn5s : ¬hasFlush s) (hn4s : ¬hasStraight s) (hn3s : ¬hasTrips s)
    (htps : hasTwoPair s)
    (hn8X : ¬hasSF X) (hn7X : ¬hasQuads X) (hn6X : ¬hasFH X)
    (hn5X : ¬hasFlush X) (hn4X : ¬hasStraight X) (hn3X : ¬hasTrips X)
    (htpX : hasTwoPair X) :
    compareRankTuples (evaluate s) (evaluate X) ≤ 0 := by
  have hvs : ∀ c ∈ s, c ∈ makeDeck := fun c hc => hvX c (hsub.subset hc)
  have hlen2s : (ranksWithCount s 2).length = 2 := by
    have hge : 2 ≤ (ranksWithCount s 2).length := htps
    by_contra hne
    have h3 : 3 ≤ (ranksWithCount s 2).length := by omega
    obtain ⟨x, y, z, hxy, hxz, hyz, hx, hy, hz⟩ :=
      three_distinct_of_length (ranksWithCount_nodup s 2) h3
    have hcx := (mem_ranksWithCount (by omega : (0:ℕ) < 2)).mp hx
    have hcy := (mem_ranksWithCount (by omega : (0:ℕ) < 2)).mp hy
    have hcz := (mem_ranksWithCount (by omega : (0:ℕ) < 2)).mp hz
    have hsum : rankCount s x + rankCount s y + rankCount s z ≤ s.length :=
      rankCount_add3_le hxy hxz hyz
    omega
  have hlps : (pairsOf s).length = 2 := by
    rw [pairsOf_length]
    exact hlen2s
  rcases hps_eq : pairsOf s with - | ⟨q1, t⟩
  · rw [hps_eq] at hlps
    simp at hlps
  rcases t with - | ⟨q2, t2⟩
  · rw [hps_eq] at hlps
    simp at hlps
  have ht2nil : t2 = [] := by
    rw [hps_eq] at hlps
    simp at hlps
    exact hlps
  subst ht2nil
  have hq1m : q1 ∈ ranksWithCount s 2 := by
    refine (sortDesc_perm (ranksWithCount s 2)).subset ?_
    rw [show (ranksWithCount s 2).insertionSort (· ≥ ·) = pairsOf s from rfl,
      hps_eq]
    exact List.mem_cons_self _ _
  have hq2m : q2 ∈ ranksWithCount s 2 := by
    refine (sortDesc_perm (ranksWithCount s 2)).subset ?_
    rw [show (ranksWithCount s 2).insertionSort (· ≥ ·) = pairsOf s from rfl,
      hps_eq]
    exact List.mem_cons_of_mem _ (List.mem_cons_self _ _)
  have hq12 : q1 ≠ q2 := by
    have hnd := sortDesc_nodup (ranksWithCount_nodup s 2)
    rw [show (ranksWithCount s 2).insertionSort (· ≥ ·) = pairsOf s from rfl,
      hps_eq, List.nodup_cons] at hnd
    intro h
    exact hnd.1 (by rw [h]; exact List.mem_cons_self _ _)
  have hq1c : rankCount s q1 = 2 :=
    (mem_ranksWithCount (by omega : (0:ℕ) < 2)).mp hq1m
  have hq2c : rankCount s q2 = 2 :=
    (mem_ranksWithCount (by omega : (0:ℕ) < 2)).mp hq2m
  have hq1cX : rankCount X q1 = 2 := by
    have hle := rankCount_sublist_le hsub q1
    have hle4 := rankCount_le_four hvX hnX q1
    have h4 : rankCount X q1 ≠ 4 := fun h => hn7X ((hasQuads_iff X).mpr ⟨q1, h⟩)
    have h3 : rankCount X q1 ≠ 3 := fun h => hn3X ((hasTrips_iff X).mpr ⟨q1, h⟩)
    omega
  have hq2cX : rankCount X q2 = 2 := by
    have hle := rankCount_sublist_le hsub q2
    have hle4 := rankCount_le_four hvX hnX q2
    have h4 : rankCount X q2 ≠ 4 := fun h => hn7X ((hasQuads_iff X).mpr ⟨q2, h⟩)
    have h3 : rankCount X q2 ≠ 3 := fun h => hn3X ((hasTrips_iff X).mpr ⟨q2, h⟩)
    omega
  have hq1mX : q1 ∈ ranksWithCount X 2 :=
    (mem_ranksWithCount (by omega)).mpr hq1cX
  have hq2mX : q2 ∈ ranksWithCount X 2 :=
    (mem_ranksWithCount (by omega)).mpr hq2cX
  rw [evaluate_twoPair s hvs hn8s hn7s hn6s hn5s hn4s hn3s htps,
    evaluate_twoPair X hvX hn8X hn7X hn6X hn5X hn4X hn3X htpX, hps_eq]
  simp only [List.getD_cons_zero, List.getD_cons_succ]
  have hq1le : q1 ≤ (pairsOf X).getD 0 0 := by
    rw [getD_zero_eq_headD]
    exact le_sortDesc_headD hq1mX
  rcases lt_or_eq_of_le hq1le with hlt | heq1
  · rw [cmp_cons_eq]
    exact le_of_lt (cmp_cons_lt hlt _ _)
  · rw [← heq1]
    have hq2ne : q2 ≠ (pairsOf X).getD 0 0 := by
      rw [← heq1]
      exact Ne.symm hq12
    have hq2le : q2 ≤ (pairsOf X).getD 1 0 := le_sortDesc_second hq2mX hq2ne
    rcases lt_or_eq_of_le hq2le with hlt2 | heq2
    · rw [cmp_cons_eq, cmp_cons_eq]
      exact le_of_lt (cmp_cons_lt hlt2 _ _)
    · rw [← heq2]
      have hrem : (s.filter fun c => c.r != q1 && c.r != q2) ≠ [] := by
        have hge := filter2_length_ge s q1 q2
        intro hnil
        rw [hnil] at hge
        simp only [List.length_nil] at hge
        omega
      have hmapne : ((s.filter fun c => c.r != q1 && c.r != q2).map Card.r)
          ≠ [] := by
        simpa using hrem
      have hks := topNDesc_headD_mem hmapne (by omega : (0:ℕ) < 1)
      have hksX : (topNDesc ((s.filter fun c =>
            c.r != q1 && c.r != q2).map Card.r) 1).headD 0
          ∈ (X.filter fun c => c.r != q1 && c.r != q2).map Card.r :=
        ((hsub.filter _).map Card.r).subset hks
      have hkle := le_topNDesc_headD hksX (by omega : (0:ℕ) < 1)
      exact cmp_nonpos_of_pointwise
        (pointwise_cons le_rfl (pointwise_cons le_rfl
          (pointwise_cons le_rfl (pointwise_cons hkle (pointwise_nil [])))))

/-- Direction B of the refinement: a five-card sub-hand never compares
above the full hand. -/
lemma evaluate_sublist_le {s X : List Card} (hsub : s.Sublist X)
    (hs5 : s.length = 5) (hvX : ∀ c ∈ X, c ∈ makeDeck) (hnX : X.Nodup)
    (h7X : X.length ≤ 7) :
    compareRankTuples (evaluate s) (evaluate X) ≤ 0 := by
  have hvs : ∀ c ∈ s, c ∈ makeDeck := fun c hc => hvX c (hsub.subset hc)
  have hs7 : s.length ≤ 7 := by omega
  have hcat := catOf_le_of_sublist hsub hvX hnX
  rcases lt_or_eq_of_le hcat with hclt | hceq
  · obtain ⟨ts, hts⟩ := evaluate_head s hvs hs7
    obtain ⟨tX, htX⟩ := evaluate_head X hvX h7X
    rw [hts, htX]
    exact le_of_lt (cmp_cons_lt hclt _ _)
  · by_cases c8 : hasSF X
    · have hkX := catOf_of_hasSF c8
      exact diagSF hsub hvX h7X (catOf_eq_eight (by omega))
    by_cases c7 : hasQuads X
    · have hkX : catOf X = 7 := by
        have := catOf_ge_of_hasQuads c7
        have := catOf_le_seven c8
        omega
      obtain ⟨g8, g7⟩ := catOf_eq_seven (show catOf s = 7 by omega)
      exact diagQuads hsub hs5 hvX hnX h7X g8 g7 c8
    by_cases c6 : hasFH X
    · have hkX : catOf X = 6 := by
        have := catOf_ge_of_hasFH c6
        have := catOf_le_six c8 c7
        omega
      obtain ⟨g8, g7, g6⟩ := catOf_eq_six (show catOf s = 6 by omega)
      exact diagFH hsub hs5 hvX hnX h7X g8 g7 g6 c8 c7 c6
    by_cases c5 : hasFlush X
    · have hkX : catOf X = 5 := by
        have := catOf_ge_of_hasFlush c5
        have := catOf_le_five c8 c7 c6
        omega
      obtain ⟨g8, g7, g6, g5⟩ := catOf_eq_five (show catOf s = 5 by omega)
      exact diagFlush hsub hvX h7X g8 g7 g6 g5 c8 c7 c6
    by_cases c4 : hasStraight X
    · have hkX : catOf X = 4 := by
        have := catOf_ge_of_hasStraight c4
        have := catOf_le_four c8 c7 c6 c5
        omega
      obtain ⟨g8, g7, g6, g5, g4⟩ := catOf_eq_four (show catOf s = 4 by omega)
      exact diagStraight hsub hvX g8 g7 g6 g5 g4 c8 c7 c6 c5
    by_cases c3 : hasTrips X
    · have hkX : catOf X = 3 := by
        have := catOf_ge_of_hasTrips c3
        have := catOf_le_three c8 c7 c6 c5 c4
        omega
      obtain ⟨g8, g7, g6, g5, g4, g3⟩ :=
        catOf_eq_three (show catOf s = 3 by omega)
      exact diagTrips hsub hs5 hvX hnX g8 g7 g6 g5 g4 g3 c8 c7 c6 c5 c4
    by_cases c2 : hasTwoPair X
    · have hkX : catOf X = 2 := by
        have := catOf_ge_of_hasTwoPair c2
        have := catOf_le_two c8 c7 c6 c5 c4 c3
        omega
      obtain ⟨g8, g7, g6, g5, g4, g3, g2⟩ :=
        catOf_eq_two (show catOf s = 2 by omega)
      exact diagTwoPair hsub hs5 hvX hnX h7X g8 g7 g6 g5 g4 g3 g2
        c8 c7 c6 c5 c4 c3 c2
    by_cases c1 : hasPair X
    · have hkX : catOf X = 1 := by
        have := catOf_ge_of_hasPair c1
        have := catOf_le_one c8 c7 c6 c5 c4 c3 c2
        omega
      obtain ⟨g8, g7, g6, g5, g4, g3, g2, g1⟩ :=
        catOf_eq_one (show catOf s = 1 by omega)
      exact diagPair hsub hvX hnX g8 g7 g6 g5 g4 g3 g2 g1
        c8 c7 c6 c5 c4 c3 c2
    · have hkX : catOf X = 0 := by
        have := catOf_le_zero c8 c7 c6 c5 c4 c3 c2 c1
        omega
      obtain ⟨g8, g7, g6, g5, g4, g3, g2, g1⟩ :=
        catOf_eq_zero (show catOf s = 0 by omega)
      exact diagHigh hsub hvX g8 g7 g6 g5 g4 g3 g1 c8 c7 c6 c5 c4 c3 c1

/-! Generic selection toolkit for the achievability direction. -/

lemma filter_perm_of_mem_iff {X : List Card} (hn : X.Nodup)
    {p : Card → Bool} {l : List Card} (hl : l.Nodup)
    (h : ∀ c, (c ∈ X ∧ p c = true) ↔ c ∈ l) :
    List.Perm (X.filter p) l := by
  have h1 : (X.filter p).Nodup := (List.filter_sublist X).nodup hn
  have s1 : X.filter p ⊆ l := by
    intro c hc
    obtain ⟨hcX, hcp⟩ := List.mem_filter.mp hc
    exact (h c).mp ⟨hcX, hcp⟩
  have s2 : l ⊆ X.filter p := by
    intro c hc
    obtain ⟨hcX, hcp⟩ := (h c).mpr hc
    exact List.mem_filter.mpr ⟨hcX, hcp⟩
  exact (List.subperm_of_subset h1 s1).antisymm (List.subperm_of_subset hl s2)

lemma rankCount_perm {l1 l2 : List Card} (h : List.Perm l1 l2) (r : ℕ) :
    rankCount l1 r = rankCount l2 r :=
  (h.filter _).length_eq

lemma suitCount_perm {l1 l2 : List Card} (h : List.Perm l1 l2) (σ : Char) :
    suitCount l1 σ = suitCount l2 σ :=
  (h.filter _).length_eq

lemma rankCount_nil (r : ℕ) : rankCount [] r = 0 := rfl

lemma suitCount_cons (c : Card) (t : List Card) (σ : Char) :
    suitCount (c :: t) σ = (if c.s = σ then 1 else 0) + suitCount t σ := by
  simp only [suitCount, List.filter_cons]
  by_cases h : c.s = σ
  · simp [h]
    omega
  · simp [h]

lemma suitCount_nil (σ : Char) : suitCount [] σ = 0 := rfl

lemma exists_card_of_rank {X : List Card} {r : ℕ} (h : r ∈ X.map Card.r) :
    ∃ c ∈ X, c.r = r := by
  obtain ⟨c, hc, rfl⟩ := List.mem_map.mp h
  exact ⟨c, hc, rfl⟩

lemma toFinset_congr_of_mem_iff {l1 l2 : List ℕ}
    (h : ∀ x, x ∈ l1 ↔ x ∈ l2) : l1.toFinset = l2.toFinset :=
  Finset.ext fun x => by
    rw [List.mem_toFinset, List.mem_toFinset]
    exact h x

lemma topNDesc_congr_perm {l1 l2 : List ℕ} (h : List.Perm l1 l2) (n : ℕ) :
    topNDesc l1 n = topNDesc l2 n := by
  unfold topNDesc
  rw [insertionSort_desc_eq_of_perm h]

lemma topNDesc_sorted (l : List ℕ) (n : ℕ) :
    (topNDesc l n).Sorted (· ≥ ·) :=
  List.Pairwise.sublist (List.take_sublist _ _) (sortDesc_sorted l)

lemma topNDesc_nodup {l : List ℕ} (h : l.Nodup) (n : ℕ) :
    (topNDesc l n).Nodup :=
  (List.take_sublist _ _).nodup (sortDesc_nodup h)

lemma sortDesc_eq_self_of_sorted {u : List ℕ} (hu : u.Sorted (· ≥ ·)) :
    u.insertionSort (· ≥ ·) = u :=
  List.eq_of_perm_of_sorted (sortDesc_perm u) (sortDesc_sorted u) hu

lemma topNDesc_eq_self {u : List ℕ} (hu : u.Sorted (· ≥ ·)) {n : ℕ}
    (hlen : u.length ≤ n) : topNDesc u n = u := by
  unfold topNDesc
  rw [sortDesc_eq_self_of_sorted hu]
  exact List.take_of_length_le hlen

lemma topNDesc_length (l : List ℕ) (n : ℕ) :
    (topNDesc l n).length = min n l.length := by
  unfold topNDesc
  rw [List.length_take, (sortDesc_perm l).length_eq]

lemma topNDesc_subperm (l : List ℕ) (n : ℕ) :
    (topNDesc l n).Subperm l :=
  ((List.take_sublist _ _).subperm).trans (sortDesc_perm l).subperm

/-! The five concrete ranks of a straight ending at `h` (a low ace is the
rank-14 card). -/

def runRanks (h : ℕ) : List ℕ :=
  (List.range' (h - 4) 5).map fun j => if j = 1 then 14 else j

lemma runRanks_length (h : ℕ) : (runRanks h).length = 5 := by
  simp [runRanks]

lemma mem_runRanks {h x : ℕ} :
    x ∈ runRanks h ↔
      ∃ j, (h - 4 ≤ j ∧ j < h - 4 + 5) ∧ x = (if j = 1 then 14 else j) := by
  constructor
  · intro hx
    obtain ⟨j, hj, rfl⟩ := List.mem_map.mp hx
    rw [List.mem_range'_1] at hj
    exact ⟨j, hj, rfl⟩
  · rintro ⟨j, hj, rfl⟩
    exact List.mem_map.mpr ⟨j, List.mem_range'_1.mpr hj, rfl⟩

lemma runRanks_nodup {h : ℕ} (h5 : 5 ≤ h) : (runRanks h).Nodup := by
  have hr : (List.range' (h - 4) 5).Nodup := List.nodup_range' _ _
  refine List.Nodup.map_on ?_ hr
  intro a ha b hb hab
  rw [List.mem_range'_1] at ha hb
  by_cases ha1 : a = 1 <;> by_cases hb1 : b = 1
  · omega
  · rw [if_pos ha1, if_neg hb1] at hab
    omega
  · rw [if_neg ha1, if_pos hb1] at hab
    omega
  · rw [if_neg ha1, if_neg hb1] at hab
    omega

lemma subset_aceLow (S : Finset ℕ) : S ⊆ aceLow S := by
  intro x hx
  unfold aceLow
  split
  · exact Finset.mem_insert_of_mem hx
  · exact hx

lemma mem_aceLow_elim {S : Finset ℕ} {v : ℕ} (hv : v ∈ aceLow S) :
    (v = 1 ∧ 14 ∈ S) ∨ v ∈ S := by
  unfold aceLow at hv
  split at hv
  · next h14 =>
    rcases Finset.mem_insert.mp hv with rfl | h
    · exact Or.inl ⟨rfl, h14⟩
    · exact Or.inr h
  · exact Or.inr hv

lemma run_mem_goodEnds {S : Finset ℕ} {h : ℕ} (h5 : 5 ≤ h)
    (hsub : ∀ x ∈ runRanks h, x ∈ S) : h ∈ goodEnds (aceLow S) := by
  have hjmem : ∀ j, h - 4 ≤ j → j ≤ h → j ∈ aceLow S := by
    intro j hj1 hj2
    by_cases hj : j = 1
    · subst hj
      have h14 : (14 : ℕ) ∈ S := by
        apply hsub
        rw [mem_runRanks]
        exact ⟨1, ⟨hj1, by omega⟩, by simp⟩
      unfold aceLow
      rw [if_pos h14]
      exact Finset.mem_insert_self 1 S
    · apply subset_aceLow
      apply hsub
      rw [mem_runRanks]
      exact ⟨j, ⟨hj1, by omega⟩, by rw [if_neg hj]⟩
  unfold goodEnds
  rw [Finset.mem_filter]
  exact ⟨hjmem h (by omega) le_rfl, hjmem (h-1) (by omega) (by omega),
    hjmem (h-2) (by omega) (by omega), hjmem (h-3) (by omega) (by omega),
    hjmem (h-4) le_rfl (by omega)⟩

lemma spec_ge_of_run {S : Finset ℕ} {h : ℕ} (h5 : 5 ≤ h)
    (hsub : ∀ x ∈ runRanks h, x ∈ S) : h ≤ specStraightHigh S := by
  unfold specStraightHigh
  exact Finset.le_sup (f := id) (run_mem_goodEnds h5 hsub)

lemma spec_runRanks {h : ℕ} (h5 : 5 ≤ h) (h14 : h ≤ 14) :
    specStraightHigh (runRanks h).toFinset = h := by
  refine le_antisymm ?_
    (spec_ge_of_run h5 (fun x hx => List.mem_toFinset.mpr hx))
  unfold specStraightHigh
  apply Finset.sup_le
  intro v hv
  simp only [id_eq]
  have hm := Finset.mem_filter.mp hv
  have hva : v ∈ aceLow (runRanks h).toFinset := hm.1
  have hv13 : v - 1 ∈ aceLow (runRanks h).toFinset := hm.2.1
  rcases mem_aceLow_elim hva with ⟨rfl, -⟩ | hvS
  · omega
  · rw [List.mem_toFinset, mem_runRanks] at hvS
    obtain ⟨j, ⟨hj1, hj2⟩, rfl⟩ := hvS
    by_cases hj : j = 1
    · exfalso
      have hh5 : h = 5 := by omega
      rw [if_pos hj] at hv13
      norm_num at hv13
      rcases mem_aceLow_elim hv13 with ⟨h13, -⟩ | h13S
      · omega
      · rw [List.mem_toFinset, mem_runRanks] at h13S
        obtain ⟨j2, ⟨hj21, hj22⟩, hjeq⟩ := h13S
        by_cases hj2' : j2 = 1
        · rw [if_pos hj2'] at hjeq
          omega
        · rw [if_neg hj2'] at hjeq
          omega
    · rw [if_neg hj]
      omega

lemma spec_mem_goodEnds {S : Finset ℕ} (h : 0 < specStraightHigh S) :
    specStraightHigh S ∈ goodEnds (aceLow S) := by
  have hne : (goodEnds (aceLow S)).Nonempty := by
    by_contra he
    rw [Finset.not_nonempty_iff_eq_empty] at he
    unfold specStraightHigh at h
    rw [he] at h
    simp at h
  obtain ⟨b, hb, heq⟩ := Finset.exists_mem_eq_sup (goodEnds (aceLow S)) hne id
  unfold specStraightHigh
  rw [heq]
  simpa using hb

lemma run_sub_of_goodEnds {S : Finset ℕ} (hS1 : (1:ℕ) ∉ S) {h : ℕ}
    (hg : h ∈ goodEnds (aceLow S)) (h5 : 5 ≤ h) :
    ∀ x ∈ runRanks h, x ∈ S := by
  have hm := Finset.mem_filter.mp hg
  have hmem : ∀ j, h - 4 ≤ j → j ≤ h → j ∈ aceLow S := by
    intro j hj1 hj2
    have hcase : j = h ∨ j = h - 1 ∨ j = h - 2 ∨ j = h - 3 ∨ j = h - 4 := by
      omega
    rcases hcase with rfl | hh | hh | hh | hh
    · exact hm.1
    · rw [hh]
      exact hm.2.1
    · rw [hh]
      exact hm.2.2.1
    · rw [hh]
      exact hm.2.2.2.1
    · rw [hh]
      exact hm.2.2.2.2
  intro x hx
  rw [mem_runRanks] at hx
  obtain ⟨j, ⟨hj1, hj2⟩, rfl⟩ := hx
  by_cases hj : j = 1
  · rw [if_pos hj]
    have h1a : (1:ℕ) ∈ aceLow S := by
      have := hmem j hj1 (by omega)
      rw [hj] at this
      exact this
    rcases mem_aceLow_elim h1a with ⟨-, h14⟩ | h1S
    · exact h14
    · exact absurd h1S hS1
  · rw [if_neg hj]
    have hja : j ∈ aceLow S := hmem j hj1 (by omega)
    rcases mem_aceLow_elim hja with ⟨rfl, -⟩ | hjS
    · exact absurd rfl hj
    · exact hjS

lemma goodEnds_five_le {S : Finset ℕ} (hS : ∀ x ∈ S, 2 ≤ x) {h : ℕ}
    (hg : h ∈ goodEnds (aceLow S)) : 5 ≤ h := by
  have hm := Finset.mem_filter.mp hg
  have h4 : h - 4 ∈ aceLow S := hm.2.2.2.2
  rcases mem_aceLow_elim h4 with ⟨he, -⟩ | hS4
  · omega
  · have := hS _ hS4
    omega

lemma goodEnds_le_fourteen {S : Finset ℕ} (hS : ∀ x ∈ S, x ≤ 14) {h : ℕ}
    (hg : h ∈ goodEnds (aceLow S)) : h ≤ 14 := by
  have hm := Finset.mem_filter.mp hg
  rcases mem_aceLow_elim hm.1 with ⟨rfl, -⟩ | hSh
  · omega
  · exact hS _ hSh

/-! Choosing one card per rank out of a pool, and realizing the chosen
cards as a sublist of the hand. -/

lemma exists_selection {P : List Card} {u : List ℕ} (hu : u.Nodup)
    (hmem : ∀ r ∈ u, r ∈ P.map Card.r) :
    ∃ e : List Card, e.Nodup ∧ (∀ c ∈ e, c ∈ P) ∧
      List.Perm (e.map Card.r) u := by
  induction u with
  | nil => exact ⟨[], List.nodup_nil, by simp, by simp⟩
  | cons r u ih =>
    have hrm : r ∈ P.map Card.r := hmem r (List.mem_cons_self r u)
    obtain ⟨c, hcP, hcr⟩ := exists_card_of_rank hrm
    rw [List.nodup_cons] at hu
    obtain ⟨e, hend, heP, heperm⟩ :=
      ih hu.2 (fun x hx => hmem x (List.mem_cons_of_mem r hx))
    have hce : c ∉ e := by
      intro hc
      apply hu.1
      have : c.r ∈ e.map Card.r := List.mem_map.mpr ⟨c, hc, rfl⟩
      rw [hcr] at this
      exact heperm.subset this
    refine ⟨c :: e, List.nodup_cons.mpr ⟨hce, hend⟩, ?_, ?_⟩
    · intro x hx
      rcases List.mem_cons.mp hx with rfl | hx2
      · exact hcP
      · exact heP x hx2
    · rw [List.map_cons, hcr]
      exact heperm.cons r

lemma build_sublist {X : List Card} (hn : X.Nodup) {e : List Card}
    (he : e.Nodup) (heX : ∀ c ∈ e, c ∈ X) :
    ∃ s, s.Sublist X ∧ List.Perm s e := by
  refine ⟨X.filter (fun c => decide (c ∈ e)), List.filter_sublist X, ?_⟩
  apply filter_perm_of_mem_iff hn he
  intro c
  constructor
  · rintro ⟨-, hc⟩
    exact of_decide_eq_true hc
  · intro hc
    exact ⟨heX c hc, decide_eq_true hc⟩

lemma map_r_nodup_of_counts {X : List Card}
    (h1 : ∀ r, rankCount X r ≤ 1) : (X.map Card.r).Nodup := by
  rw [List.nodup_iff_count_le_one]
  intro r
  have hc : (X.map Card.r).count r = X.countP fun c => c.r == r := by
    rw [List.count_eq_countP, List.countP_map]
    rfl
  rw [hc, ← rankCount_eq_countP]
  exact h1 r

/-! Achievability: a five-card sub-hand attaining the full hand's value. -/

lemma achieve_high {X : List Card} (hv : ∀ c ∈ X, c ∈ makeDeck)
    (hn : X.Nodup) (h5X : 5 ≤ X.length)
    (c8 : ¬hasSF X) (c7 : ¬hasQuads X) (c6 : ¬hasFH X) (c5 : ¬hasFlush X)
    (c4 : ¬hasStraight X) (c3 : ¬hasTrips X) (c2 : ¬hasTwoPair X)
    (c1 : ¬hasPair X) :
    ∃ s, s.Sublist X ∧ s.length = 5 ∧ evaluate s = evaluate X := by
  have hcnt1 : ∀ r, rankCount X r ≤ 1 := by
    intro r
    have h4 := rankCount_le_four hv hn r
    have hne4 : rankCount X r ≠ 4 := fun h => c7 ((hasQuads_iff X).mpr ⟨r, h⟩)
    have hne3 : rankCount X r ≠ 3 := fun h => c3 ((hasTrips_iff X).mpr ⟨r, h⟩)
    have hne2 : rankCount X r ≠ 2 := fun h => c1 ((hasPair_iff X).mpr ⟨r, h⟩)
    omega
  have hrnd : (X.map Card.r).Nodup := map_r_nodup_of_counts hcnt1
  have hulen : (topNDesc (X.map Card.r) 5).length = 5 := by
    rw [topNDesc_length]
    have h1 : 5 ≤ (X.map Card.r).length := by
      rw [List.length_map]
      exact h5X
    omega
  have hund : (topNDesc (X.map Card.r) 5).Nodup := topNDesc_nodup hrnd 5
  obtain ⟨e, hend, heX, heperm⟩ := exists_selection hund
    (fun r hr => topNDesc_subset hr)
  obtain ⟨s, hsub, hsperm⟩ := build_sublist hn hend heX
  have hslen : s.length = 5 := by
    have h1 := hsperm.length_eq
    have h2 := heperm.length_eq
    rw [List.length_map] at h2
    omega
  have hk : catOf X = 0 := by
    have := catOf_le_zero c8 c7 c6 c5 c4 c3 c2 c1
    omega
  have hks : catOf s ≤ 0 := by
    have := catOf_le_of_sublist hsub hv hn
    omega
  have hs8 : ¬hasSF s := fun h => by
    have := catOf_of_hasSF h
    omega
  have hs7 : ¬hasQuads s := fun h => by
    have := catOf_ge_of_hasQuads h
    omega
  have hs6 : ¬hasFH s := fun h => by
    have := catOf_ge_of_hasFH h
    omega
  have hs5f : ¬hasFlush s := fun h => by
    have := catOf_ge_of_hasFlush h
    omega
  have hs4 : ¬hasStraight s := fun h => by
    have := catOf_ge_of_hasStraight h
    omega
  have hs3 : ¬hasTrips s := fun h => by
    have := catOf_ge_of_hasTrips h
    omega
  have hs1 : ¬hasPair s := fun h => by
    have := catOf_ge_of_hasPair h
    omega
  have hvs : ∀ c ∈ s, c ∈ makeDeck := fun c hc => hv c (hsub.subset hc)
  refine ⟨s, hsub, hslen, ?_⟩
  rw [evaluate_high s hvs hs8 hs7 hs6 hs5f hs4 hs3 hs1,
    evaluate_high X hv c8 c7 c6 c5 c4 c3 c1]
  congr 1
  calc topNDesc (s.map Card.r) 5
      = topNDesc (topNDesc (X.map Card.r) 5) 5 :=
        topNDesc_congr_perm ((hsperm.map Card.r).trans heperm) 5
    _ = topNDesc (X.map Card.r) 5 :=
        topNDesc_eq_self (topNDesc_sorted _ 5) (by rw [hulen])

lemma achieve_flush {X : List Card} (hv : ∀ c ∈ X, c ∈ makeDeck)
    (hn : X.Nodup) (h7X : X.length ≤ 7)
    (c8 : ¬hasSF X) (c7 : ¬hasQuads X) (c6 : ¬hasFH X) (hfl : hasFlush X) :
    ∃ s, s.Sublist X ∧ s.length = 5 ∧ evaluate s = evaluate X := by
  obtain ⟨σ, hσ, h5c⟩ := id hfl
  have hGnd : (X.filter fun c => c.s == σ).Nodup :=
    (List.filter_sublist X).nodup hn
  have hGrnd : ((X.filter fun c => c.s == σ).map Card.r).Nodup := by
    refine List.Nodup.map_on ?_ hGnd
    intro a ha b hb hab
    have has : a.s = σ := by simpa using (List.mem_filter.mp ha).2
    have hbs : b.s = σ := by simpa using (List.mem_filter.mp hb).2
    cases a
    cases b
    simp_all
  have hGlen : 5 ≤ (X.filter fun c => c.s == σ).length := h5c
  have hulen : (topNDesc ((X.filter fun c => c.s == σ).map Card.r) 5).length
      = 5 := by
    rw [topNDesc_length, List.length_map]
    omega
  have hund := topNDesc_nodup hGrnd 5
  obtain ⟨e, hend, heG, heperm⟩ := exists_selection hund
    (fun r hr => topNDesc_subset hr)
  have heX : ∀ c ∈ e, c ∈ X := fun c hc =>
    (List.mem_filter.mp (heG c hc)).1
  have heσ : ∀ c ∈ e, c.s = σ := fun c hc => by
    simpa using (List.mem_filter.mp (heG c hc)).2
  obtain ⟨s, hsub, hsperm⟩ := build_sublist hn hend heX
  have hslen : s.length = 5 := by
    have h1 := hsperm.length_eq
    have h2 := heperm.length_eq
    rw [List.length_map] at h2
    omega
  have hsσ : ∀ c ∈ s, c.s = σ := fun c hc => heσ c (hsperm.subset hc)
  have hsfilter : s.filter (fun c => c.s == σ) = s :=
    List.filter_eq_self.mpr fun c hc => by simp [hsσ c hc]
  have hs5c : 5 ≤ suitCount s σ := by
    have : suitCount s σ = s.length := by
      unfold suitCount
      rw [hsfilter]
    omega
  have hsne : s ≠ [] := by
    intro h
    rw [h] at hslen
    simp at hslen
  have hσs : σ ∈ (s.map Card.s).dedup := by
    rw [List.mem_dedup]
    rcases s with - | ⟨c0, t⟩
    · exact absurd rfl hsne
    · exact List.mem_map.mpr ⟨c0, List.mem_cons_self c0 t,
        hsσ c0 (List.mem_cons_self c0 t)⟩
  have hk : catOf X = 5 := by
    have := catOf_ge_of_hasFlush hfl
    have := catOf_le_five c8 c7 c6
    omega
  have hks : catOf s ≤ 5 := by
    have := catOf_le_of_sublist hsub hv hn
    omega
  have hs8 : ¬hasSF s := fun h => by
    have := catOf_of_hasSF h
    omega
  have hs7q : ¬hasQuads s := fun h => by
    have := catOf_ge_of_hasQuads h
    omega
  have hs6 : ¬hasFH s := fun h => by
    have := catOf_ge_of_hasFH h
    omega
  have hvs : ∀ c ∈ s, c ∈ makeDeck := fun c hc => hv c (hsub.subset hc)
  refine ⟨s, hsub, hslen, ?_⟩
  rw [evaluate_flush s σ hvs (by omega) hσs hs5c hs8 hs7q hs6,
    evaluate_flush X σ hv h7X hσ h5c c8 c7 c6]
  congr 1
  rw [hsfilter]
  calc topNDesc (s.map Card.r) 5
      = topNDesc (topNDesc ((X.filter fun c => c.s == σ).map Card.r) 5) 5 :=
        topNDesc_congr_perm ((hsperm.map Card.r).trans heperm) 5
    _ = topNDesc ((X.filter fun c => c.s == σ).map Card.r) 5 :=
        topNDesc_eq_self (topNDesc_sorted _ 5) (by rw [hulen])

lemma achieve_straight {X : List Card} (hv : ∀ c ∈ X, c ∈ makeDeck)
    (hn : X.Nodup)
    (c8 : ¬hasSF X) (c7 : ¬hasQuads X) (c6 : ¬hasFH X) (c5 : ¬hasFlush X)
    (hst : hasStraight X) :
    ∃ s, s.Sublist X ∧ s.length = 5 ∧ evaluate s = evaluate X := by
  have hg := spec_mem_goodEnds hst
  have hb2 : ∀ x ∈ (X.map Card.r).toFinset, 2 ≤ x := by
    intro x hx
    rw [List.mem_toFinset] at hx
    obtain ⟨c, hc, rfl⟩ := List.mem_map.mp hx
    exact (rank_bounds hv c hc).1
  have hb14 : ∀ x ∈ (X.map Card.r).toFinset, x ≤ 14 := by
    intro x hx
    rw [List.mem_toFinset] at hx
    obtain ⟨c, hc, rfl⟩ := List.mem_map.mp hx
    exact (rank_bounds hv c hc).2
  have hS1 : (1:ℕ) ∉ (X.map Card.r).toFinset := fun h => by
    have := hb2 1 h
    omega
  have hh5 := goodEnds_five_le hb2 hg
  have hh14 := goodEnds_le_fourteen hb14 hg
  have hrun := run_sub_of_goodEnds hS1 hg hh5
  have hund := runRanks_nodup hh5
  obtain ⟨e, hend, heX0, heperm⟩ := exists_selection hund
    (fun r hr => List.mem_toFinset.mp (hrun r hr))
  obtain ⟨s, hsub, hsperm⟩ := build_sublist hn hend heX0
  have hslen : s.length = 5 := by
    have h1 := hsperm.length_eq
    have h2 := heperm.length_eq
    rw [List.length_map] at h2
    have h3 := runRanks_length (specStraightHigh (X.map Card.r).toFinset)
    omega
  have hsetfeq : (s.map Card.r).toFinset
      = (runRanks (specStraightHigh (X.map Card.r).toFinset)).toFinset := by
    apply toFinset_congr_of_mem_iff
    intro x
    exact ((hsperm.map Card.r).mem_iff).trans heperm.mem_iff
  have hspec : specStraightHigh (s.map Card.r).toFinset
      = specStraightHigh (X.map Card.r).toFinset := by
    rw [hsetfeq]
    exact spec_runRanks hh5 hh14
  have hsts : hasStraight s := by
    unfold hasStraight
    rw [hspec]
    exact hst
  have hk : catOf X = 4 := by
    have := catOf_ge_of_hasStraight hst
    have := catOf_le_four c8 c7 c6 c5
    omega
  have hks : catOf s ≤ 4 := by
    have := catOf_le_of_sublist hsub hv hn
    omega
  have hs8 : ¬hasSF s := fun h => by
    have := catOf_of_hasSF h
    omega
  have hs7q : ¬hasQuads s := fun h => by
    have := catOf_ge_of_hasQuads h
    omega
  have hs6 : ¬hasFH s := fun h => by
    have := catOf_ge_of_hasFH h
    omega
  have hs5f : ¬hasFlush s := fun h => by
    have := catOf_ge_of_hasFlush h
    omega
  have hvs : ∀ c ∈ s, c ∈ makeDeck := fun c hc => hv c (hsub.subset hc)
  refine ⟨s, hsub, hslen, ?_⟩
  rw [evaluate_straight s hvs hs8 hs7q hs6 hs5f hsts,
    evaluate_straight X hv c8 c7 c6 c5 hst, hspec]

lemma achieve_SF {X : List Card} (hv : ∀ c ∈ X, c ∈ makeDeck)
    (hn : X.Nodup) (h7X : X.length ≤ 7) (h8 : hasSF X) :
    ∃ s, s.Sublist X ∧ s.length = 5 ∧ evaluate s = evaluate X := by
  obtain ⟨σ, hσ, h5c, hrunX⟩ := id h8
  have hg := spec_mem_goodEnds hrunX
  have hb2 : ∀ x ∈ suitRanks X σ, 2 ≤ x := by
    intro x hx
    rw [suitRanks, List.mem_toFinset] at hx
    obtain ⟨c, hc, rfl⟩ := List.mem_map.mp hx
    exact (rank_bounds hv c ((List.filter_sublist X).subset hc)).1
  have hb14 : ∀ x ∈ suitRanks X σ, x ≤ 14 := by
    intro x hx
    rw [suitRanks, List.mem_toFinset] at hx
    obtain ⟨c, hc, rfl⟩ := List.mem_map.mp hx
    exact (rank_bounds hv c ((List.filter_sublist X).subset hc)).2
  have hS1 : (1:ℕ) ∉ suitRanks X σ := fun h => by
    have := hb2 1 h
    omega
  have hh5 := goodEnds_five_le hb2 hg
  have hh14 := goodEnds_le_fourteen hb14 hg
  have hrun := run_sub_of_goodEnds hS1 hg hh5
  have hund := runRanks_nodup hh5
  have hmemG : ∀ r ∈ runRanks (specStraightHigh (suitRanks X σ)),
      r ∈ (X.filter fun c => c.s == σ).map Card.r := by
    intro r hr
    have := hrun r hr
    rw [suitRanks, List.mem_toFinset] at this
    exact this
  obtain ⟨e, hend, heG, heperm⟩ := exists_selection hund hmemG
  have heX : ∀ c ∈ e, c ∈ X := fun c hc =>
    (List.mem_filter.mp (heG c hc)).1
  have heσ : ∀ c ∈ e, c.s = σ := fun c hc => by
    simpa using (List.mem_filter.mp (heG c hc)).2
  obtain ⟨s, hsub, hsperm⟩ := build_sublist hn hend heX
  have hslen : s.length = 5 := by
    have h1 := hsperm.length_eq
    have h2 := heperm.length_eq
    rw [List.length_map] at h2
    have h3 := runRanks_length (specStraightHigh (suitRanks X σ))
    omega
  have hsσ : ∀ c ∈ s, c.s = σ := fun c hc => heσ c (hsperm.subset hc)
  have hsfilter : s.filter (fun c => c.s == σ) = s :=
    List.filter_eq_self.mpr fun c hc => by simp [hsσ c hc]
  have hs5c : 5 ≤ suitCount s σ := by
    have : suitCount s σ = s.length := by
      unfold suitCount
      rw [hsfilter]
    omega
  have hsne : s ≠ [] := by
    intro h
    rw [h] at hslen
    simp at hslen
  have hσs : σ ∈ (s.map Card.s).dedup := by
    rw [List.mem_dedup]
    rcases s with - | ⟨c0, t⟩
    · exact absurd rfl hsne
    · exact List.mem_map.mpr ⟨c0, List.mem_cons_self c0 t,
        hsσ c0 (List.mem_cons_self c0 t)⟩
  have hsuitR : suitRanks s σ
      = (runRanks (specStraightHigh (suitRanks X σ))).toFinset := by
    rw [suitRanks, hsfilter]
    apply toFinset_congr_of_mem_iff
    intro x
    exact ((hsperm.map Card.r).mem_iff).trans heperm.mem_iff
  have hspec : specStraightHigh (suitRanks s σ)
      = specStraightHigh (suitRanks X σ) := by
    rw [hsuitR]
    exact spec_runRanks hh5 hh14
  have hruns : 0 < specStraightHigh (suitRanks s σ) := by
    rw [hspec]
    exact hrunX
  have hvs : ∀ c ∈ s, c ∈ makeDeck := fun c hc => hv c (hsub.subset hc)
  refine ⟨s, hsub, hslen, ?_⟩
  rw [evaluate_SF s σ hvs (by omega) hσs hs5c hruns,
    evaluate_SF X σ hv h7X hσ h5c hrunX, hspec]

/-! Count bookkeeping for mixed selections (pattern cards plus kickers). -/

lemma rankCount_append (l1 l2 : List Card) (r : ℕ) :
    rankCount (l1 ++ l2) r = rankCount l1 r + rankCount l2 r := by
  unfold rankCount
  rw [List.filter_append, List.length_append]

lemma count_map_r (l : List Card) (r : ℕ) :
    (l.map Card.r).count r = rankCount l r := by
  rw [List.count_eq_countP, List.countP_map, rankCount_eq_countP]
  rfl

lemma rankCount_self_filter (X : List Card) (q : ℕ) :
    rankCount (X.filter fun c => c.r == q) q = rankCount X q := by
  unfold rankCount
  congr 1
  rw [List.filter_eq_self]
  intro c hc
  exact (List.mem_filter.mp hc).2

lemma rankCount_other_filter (X : List Card) {q r : ℕ} (h : r ≠ q) :
    rankCount (X.filter fun c => c.r == q) r = 0 := by
  unfold rankCount
  rw [List.length_eq_zero, List.filter_eq_nil_iff]
  intro c hc
  have hcq : c.r = q := by simpa using (List.mem_filter.mp hc).2
  simp [hcq]
  omega

lemma rankCount_filter_ne (X : List Card) (a r : ℕ) :
    rankCount (X.filter fun c => c.r != a) r
      = if r = a then 0 else rankCount X r := by
  by_cases h : r = a
  · rw [if_pos h]
    unfold rankCount
    rw [List.length_eq_zero, List.filter_eq_nil_iff]
    intro c hc
    have hca : c.r ≠ a := by simpa using (List.mem_filter.mp hc).2
    simp [h]
    omega
  · rw [if_neg h]
    unfold rankCount
    congr 1
    rw [List.filter_filter]
    apply List.filter_congr
    intro c _
    by_cases hc : c.r = r
    · simp [hc]
      omega
    · simp [hc]

lemma sortDesc_pair {a b : ℕ} (hab : b ≤ a) :
    ([a, b] : List ℕ).insertionSort (· ≥ ·) = [a, b] := by
  apply sortDesc_eq_self_of_sorted
  rw [List.sorted_cons]
  refine ⟨?_, List.sorted_singleton b⟩
  intro y hy
  rw [List.mem_singleton] at hy
  omega

lemma perm_pair_of_mem {l : List ℕ} (hnd : l.Nodup) {a b : ℕ} (hab : a ≠ b)
    (hmem : ∀ x, x ∈ l ↔ (x = a ∨ x = b)) : List.Perm l [a, b] := by
  have h2 : ([a, b] : List ℕ).Nodup := by simp [hab]
  refine (List.subperm_of_subset hnd ?_).antisymm
    (List.subperm_of_subset h2 ?_)
  · intro x hx
    rcases (hmem x).mp hx with rfl | rfl
    · exact List.mem_cons_self _ _
    · exact List.mem_cons_of_mem _ (List.mem_cons_self _ _)
  · intro x hx
    rcases List.mem_cons.mp hx with rfl | hx2
    · exact (hmem x).mpr (Or.inl rfl)
    · rw [List.mem_singleton] at hx2
      exact (hmem x).mpr (Or.inr hx2)

lemma disjoint_of_rank {l1 l2 : List Card} {q : ℕ}
    (h1 : ∀ c ∈ l1, c.r = q) (h2 : ∀ c ∈ l2, c.r ≠ q) :
    List.Disjoint l1 l2 := by
  intro c hc1 hc2
  exact h2 c hc2 (h1 c hc1)

lemma achieve_quads {X : List Card} (hv : ∀ c ∈ X, c ∈ makeDeck)
    (hn : X.Nodup) (h5X : 5 ≤ X.length) (h7X : X.length ≤ 7)
    (c8 : ¬hasSF X) (hq : hasQuads X) :
    ∃ s, s.Sublist X ∧ s.length = 5 ∧ evaluate s = evaluate X := by
  obtain ⟨q, hq4⟩ := (hasQuads_iff X).mp hq
  have hqsingle : quadsOf X = [q] := quadsOf_eq_single h7X hq4
  have hremlen : (X.filter fun c => c.r != q).length = X.length - 4 := by
    rw [length_filter_rne, hq4]
  have hremne0 : (X.filter fun c => c.r != q) ≠ [] := by
    intro h
    rw [h] at hremlen
    simp at hremlen
    omega
  have hremne : ((X.filter fun c => c.r != q).map Card.r) ≠ [] := by
    simpa using hremne0
  have hkmem : (topNDesc ((X.filter fun c => c.r != q).map Card.r) 1).headD 0
      ∈ (X.filter fun c => c.r != q).map Card.r :=
    topNDesc_headD_mem hremne (by omega)
  obtain ⟨ck, hckrem, hckr⟩ := exists_card_of_rank hkmem
  have hckX : ck ∈ X := (List.mem_filter.mp hckrem).1
  have hckq : ck.r ≠ q := by simpa using (List.mem_filter.mp hckrem).2
  have hFnd : (X.filter fun c => c.r == q).Nodup :=
    (List.filter_sublist X).nodup hn
  have hFq : ∀ c ∈ (X.filter fun c => c.r == q), c.r = q := fun c hc => by
    simpa using (List.mem_filter.mp hc).2
  have hend : ((X.filter fun c => c.r == q) ++ [ck]).Nodup := by
    refine List.Nodup.append hFnd (List.nodup_singleton ck)
      (disjoint_of_rank hFq ?_)
    intro c hc
    rw [List.mem_singleton] at hc
    subst hc
    exact hckq
  have heX : ∀ c ∈ (X.filter fun c => c.r == q) ++ [ck], c ∈ X := by
    intro c hc
    rcases List.mem_append.mp hc with hc1 | hc2
    · exact (List.mem_filter.mp hc1).1
    · rw [List.mem_singleton] at hc2
      subst hc2
      exact hckX
  obtain ⟨s, hsub, hsperm⟩ := build_sublist hn hend heX
  have hFlen : (X.filter fun c => c.r == q).length = 4 := hq4
  have hslen : s.length = 5 := by
    rw [hsperm.length_eq, List.length_append, hFlen]
    rfl
  have hsq : rankCount s q = 4 := by
    rw [rankCount_perm hsperm, rankCount_append, rankCount_self_filter, hq4,
      rankCount_cons, if_neg hckq, rankCount_nil]
  have hqs : hasQuads s := (hasQuads_iff s).mpr ⟨q, hsq⟩
  have hqss : quadsOf s = [q] := quadsOf_eq_single (by omega) hsq
  have hk : catOf X = 7 := by
    have := catOf_ge_of_hasQuads hq
    have := catOf_le_seven c8
    omega
  have hks : catOf s ≤ 7 := by
    have := catOf_le_of_sublist hsub hv hn
    omega
  have hs8 : ¬hasSF s := fun h => by
    have := catOf_of_hasSF h
    omega
  have hvs : ∀ c ∈ s, c ∈ makeDeck := fun c hc => hv c (hsub.subset hc)
  refine ⟨s, hsub, hslen, ?_⟩
  rw [evaluate_quads s hvs hs8 hqs, evaluate_quads X hv c8 hq, hqss, hqsingle]
  simp only [List.headD_cons]
  have hFnilrem : ((X.filter fun c => c.r == q).filter
      fun c => c.r != q) = [] := by
    rw [List.filter_eq_nil_iff]
    intro c hc
    have := hFq c hc
    simp [this]
  have hckpass : (([ck] : List Card).filter fun c => c.r != q) = [ck] := by
    rw [List.filter_eq_self]
    intro c hc
    rw [List.mem_singleton] at hc
    subst hc
    simp [hckq]
  have hsrem : List.Perm (s.filter fun c => c.r != q) [ck] := by
    have h1 := hsperm.filter (fun c => c.r != q)
    rw [List.filter_append, hFnilrem, hckpass] at h1
    simpa using h1
  have hkickS : (topNDesc ((s.filter fun c => c.r != q).map Card.r) 1).headD 0
      = ck.r := by
    rw [topNDesc_congr_perm (hsrem.map Card.r) 1]
    rfl
  rw [hkickS, ← hckr]

lemma achieve_trips {X : List Card} (hv : ∀ c ∈ X, c ∈ makeDeck)
    (hn : X.Nodup) (h5X : 5 ≤ X.length) (h7X : X.length ≤ 7)
    (c8 : ¬hasSF X) (c7 : ¬hasQuads X) (c6 : ¬hasFH X) (c5 : ¬hasFlush X)
    (c4 : ¬hasStraight X) (htr : hasTrips X) :
    ∃ s, s.Sublist X ∧ s.length = 5 ∧ evaluate s = evaluate X := by
  obtain ⟨a, ha3⟩ := (hasTrips_iff X).mp htr
  have honly : ∀ r, r ≠ a → rankCount X r ≤ 1 := by
    intro r hr
    have h4 := rankCount_le_four hv hn r
    have hne4 : rankCount X r ≠ 4 := fun h => c7 ((hasQuads_iff X).mpr ⟨r, h⟩)
    have hne3 : rankCount X r ≠ 3 := fun h =>
      c6 ((hasFH_iff X).mpr ⟨a, r, Ne.symm hr, ha3, Or.inl h⟩)
    have hne2 : rankCount X r ≠ 2 := fun h =>
      c6 ((hasFH_iff X).mpr ⟨a, r, Ne.symm hr, ha3, Or.inr h⟩)
    omega
  have htXs : tripsOf X = [a] := by
    have hmem : a ∈ ranksWithCount X 3 :=
      (mem_ranksWithCount (by omega)).mpr ha3
    have huniq : ∀ x ∈ ranksWithCount X 3, x = a := by
      intro x hx
      have hx3 := (mem_ranksWithCount (by omega : (0:ℕ) < 3)).mp hx
      by_contra hne
      have := honly x hne
      omega
    rw [tripsOf, eq_single_of_unique_mem (ranksWithCount_nodup X 3) hmem huniq]
    rfl
  have hremcnt : ∀ r, rankCount (X.filter fun c => c.r != a) r ≤ 1 := by
    intro r
    rw [rankCount_filter_ne]
    by_cases h : r = a
    · rw [if_pos h]
      omega
    · rw [if_neg h]
      exact honly r h
  have hremrnd : ((X.filter fun c => c.r != a).map Card.r).Nodup :=
    map_r_nodup_of_counts hremcnt
  have hremlen : (X.filter fun c => c.r != a).length = X.length - 3 := by
    rw [length_filter_rne, ha3]
  have hulen : (topNDesc ((X.filter fun c => c.r != a).map Card.r) 2).length
      = 2 := by
    rw [topNDesc_length, List.length_map, hremlen]
    omega
  have hund := topNDesc_nodup hremrnd 2
  obtain ⟨e2, he2nd, he2rem, he2perm⟩ := exists_selection hund
    (fun r hr => topNDesc_subset hr)
  have he2X : ∀ c ∈ e2, c ∈ X := fun c hc =>
    (List.mem_filter.mp (he2rem c hc)).1
  have he2a : ∀ c ∈ e2, c.r ≠ a := fun c hc => by
    simpa using (List.mem_filter.mp (he2rem c hc)).2
  have hFnd : (X.filter fun c => c.r == a).Nodup :=
    (List.filter_sublist X).nodup hn
  have hFa : ∀ c ∈ (X.filter fun c => c.r == a), c.r = a := fun c hc => by
    simpa using (List.mem_filter.mp hc).2
  have hend : ((X.filter fun c => c.r == a) ++ e2).Nodup :=
    List.Nodup.append hFnd he2nd (disjoint_of_rank hFa he2a)
  have heX : ∀ c ∈ (X.filter fun c => c.r == a) ++ e2, c ∈ X := by
    intro c hc
    rcases List.mem_append.mp hc with hc1 | hc2
    · exact (List.mem_filter.mp hc1).1
    · exact he2X c hc2
  obtain ⟨s, hsub, hsperm⟩ := build_sublist hn hend heX
  have hFlen : (X.filter fun c => c.r == a).length = 3 := ha3
  have he2len : e2.length = 2 := by
    have h2 := he2perm.length_eq
    rw [List.length_map] at h2
    omega
  have hslen : s.length = 5 := by
    rw [hsperm.length_eq, List.length_append, hFlen, he2len]
  have hsa : rankCount s a = 3 := by
    rw [rankCount_perm hsperm, rankCount_append, rankCount_self_filter, ha3]
    have he2cnt : rankCount e2 a = 0 := by
      rw [← count_map_r, he2perm.count_eq, List.count_eq_zero]
      intro hmem
      have hmem2 := topNDesc_subset hmem
      obtain ⟨c, hc, hcr⟩ := exists_card_of_rank hmem2
      have hca : c.r ≠ a := by simpa using (List.mem_filter.mp hc).2
      exact hca hcr
    omega
  have hsother : ∀ r, r ≠ a → rankCount s r ≤ 1 := by
    intro r hr
    rw [rankCount_perm hsperm, rankCount_append, rankCount_other_filter _ hr]
    have : rankCount e2 r ≤ 1 := by
      rw [← count_map_r, he2perm.count_eq]
      exact (List.nodup_iff_count_le_one.mp hund) r
    omega
  have htrs : hasTrips s := (hasTrips_iff s).mpr ⟨a, hsa⟩
  have htss : tripsOf s = [a] := by
    have hmem : a ∈ ranksWithCount s 3 :=
      (mem_ranksWithCount (by omega)).mpr hsa
    have huniq : ∀ x ∈ ranksWithCount s 3, x = a := by
      intro x hx
      have hx3 := (mem_ranksWithCount (by omega : (0:ℕ) < 3)).mp hx
      by_contra hne
      have := hsother x hne
      omega
    rw [tripsOf, eq_single_of_unique_mem (ranksWithCount_nodup s 3) hmem huniq]
    rfl
  have hk : catOf X = 3 := by
    have := catOf_ge_of_hasTrips htr
    have := catOf_le_three c8 c7 c6 c5 c4
    omega
  have hks : catOf s ≤ 3 := by
    have := catOf_le_of_sublist hsub hv hn
    omega
  have hs8 : ¬hasSF s := fun h => by
    have := catOf_of_hasSF h
    omega
  have hs7q : ¬hasQuads s := fun h => by
    have := catOf_ge_of_hasQuads h
    omega
  have hs6 : ¬hasFH s := fun h => by
    have := catOf_ge_of_hasFH h
    omega
  have hs5f : ¬hasFlush s := fun h => by
    have := catOf_ge_of_hasFlush h
    omega
  have hs4 : ¬hasStraight s := fun h => by
    have := catOf_ge_of_hasStraight h
    omega
  have hvs : ∀ c ∈ s, c ∈ makeDeck := fun c hc => hv c (hsub.subset hc)
  refine ⟨s, hsub, hslen, ?_⟩
  rw [evaluate_trips s hvs hs8 hs7q hs6 hs5f hs4 htrs,
    evaluate_trips X hv c8 c7 c6 c5 c4 htr, htss, htXs]
  simp only [List.headD_cons]
  have hFnilrem : ((X.filter fun c => c.r == a).filter
      fun c => c.r != a) = [] := by
    rw [List.filter_eq_nil_iff]
    intro c hc
    have := hFa c hc
    simp [this]
  have he2pass : (e2.filter fun c => c.r != a) = e2 := by
    rw [List.filter_eq_self]
    intro c hc
    simp [he2a c hc]
  have hsrem : List.Perm (s.filter fun c => c.r != a) e2 := by
    have h1 := hsperm.filter (fun c => c.r != a)
    rw [List.filter_append, hFnilrem, he2pass] at h1
    simpa using h1
  have htopeq : topNDesc ((s.filter fun c => c.r != a).map Card.r) 2
      = topNDesc ((X.filter fun c => c.r != a).map Card.r) 2 := by
    calc topNDesc ((s.filter fun c => c.r != a).map Card.r) 2
        = topNDesc (topNDesc ((X.filter fun c => c.r != a).map Card.r) 2) 2 :=
          topNDesc_congr_perm ((hsrem.map Card.r).trans he2perm) 2
      _ = topNDesc ((X.filter fun c => c.r != a).map Card.r) 2 :=
          topNDesc_eq_self (topNDesc_sorted _ 2) (by rw [hulen])
  rw [htopeq]

lemma achieve_pair {X : List Card} (hv : ∀ c ∈ X, c ∈ makeDeck)
    (hn : X.Nodup) (h5X : 5 ≤ X.length) (h7X : X.length ≤ 7)
    (c8 : ¬hasSF X) (c7 : ¬hasQuads X) (c6 : ¬hasFH X) (c5 : ¬hasFlush X)
    (c4 : ¬hasStraight X) (c3 : ¬hasTrips X) (c2 : ¬hasTwoPair X)
    (hp : hasPair X) :
    ∃ s, s.Sublist X ∧ s.length = 5 ∧ evaluate s = evaluate X := by
  obtain ⟨p, hp2⟩ := (hasPair_iff X).mp hp
  have honly : ∀ r, r ≠ p → rankCount X r ≤ 1 := by
    intro r hr
    have h4 := rankCount_le_four hv hn r
    have hne4 : rankCount X r ≠ 4 := fun h => c7 ((hasQuads_iff X).mpr ⟨r, h⟩)
    have hne3 : rankCount X r ≠ 3 := fun h => c3 ((hasTrips_iff X).mpr ⟨r, h⟩)
    have hne2 : rankCount X r ≠ 2 := fun h =>
      c2 ((hasTwoPair_iff X).mpr ⟨p, r, Ne.symm hr, hp2, h⟩)
    omega
  have hpXs : pairsOf X = [p] := by
    have hmem : p ∈ ranksWithCount X 2 :=
      (mem_ranksWithCount (by omega)).mpr hp2
    have huniq : ∀ x ∈ ranksWithCount X 2, x = p := by
      intro x hx
      have hx2 := (mem_ranksWithCount (by omega : (0:ℕ) < 2)).mp hx
      by_contra hne
      have := honly x hne
      omega
    rw [pairsOf, eq_single_of_unique_mem (ranksWithCount_nodup X 2) hmem huniq]
    rfl
  have hremcnt : ∀ r, rankCount (X.filter fun c => c.r != p) r ≤ 1 := by
    intro r
    rw [rankCount_filter_ne]
    by_cases h : r = p
    · rw [if_pos h]
      omega
    · rw [if_neg h]
      exact honly r h
  have hremrnd : ((X.filter fun c => c.r != p).map Card.r).Nodup :=
    map_r_nodup_of_counts hremcnt
  have hremlen : (X.filter fun c => c.r != p).length = X.length - 2 := by
    rw [length_filter_rne, hp2]
  have hulen : (topNDesc ((X.filter fun c => c.r != p).map Card.r) 3).length
      = 3 := by
    rw [topNDesc_length, List.length_map, hremlen]
    omega
  have hund := topNDesc_nodup hremrnd 3
  obtain ⟨e3, he3nd, he3rem, he3perm⟩ := exists_selection hund
    (fun r hr => topNDesc_subset hr)
  have he3X : ∀ c ∈ e3, c ∈ X := fun c hc =>
    (List.mem_filter.mp (he3rem c hc)).1
  have he3p : ∀ c ∈ e3, c.r ≠ p := fun c hc => by
    simpa using (List.mem_filter.mp (he3rem c hc)).2
  have hFnd : (X.filter fun c => c.r == p).Nodup :=
    (List.filter_sublist X).nodup hn
  have hFp : ∀ c ∈ (X.filter fun c => c.r == p), c.r = p := fun c hc => by
    simpa using (List.mem_filter.mp hc).2
  have hend : ((X.filter fun c => c.r == p) ++ e3).Nodup :=
    List.Nodup.append hFnd he3nd (disjoint_of_rank hFp he3p)
  have heX : ∀ c ∈ (X.filter fun c => c.r == p) ++ e3, c ∈ X := by
    intro c hc
    rcases List.mem_append.mp hc with hc1 | hc2
    · exact (List.mem_filter.mp hc1).1
    · exact he3X c hc2
  obtain ⟨s, hsub, hsperm⟩ := build_sublist hn hend heX
  have hFlen : (X.filter fun c => c.r == p).length = 2 := hp2
  have he3len : e3.length = 3 := by
    have h2 := he3perm.length_eq
    rw [List.length_map] at h2
    omega
  have hslen : s.length = 5 := by
    rw [hsperm.length_eq, List.length_append, hFlen, he3len]
  have hsp : rankCount s p = 2 := by
    rw [rankCount_perm hsperm, rankCount_append, rankCount_self_filter, hp2]
    have he3cnt : rankCount e3 p = 0 := by
      rw [← count_map_r, he3perm.count_eq, List.count_eq_zero]
      intro hmem
      have hmem2 := topNDesc_subset hmem
      obtain ⟨c, hc, hcr⟩ := exists_card_of_rank hmem2
      have hca : c.r ≠ p := by simpa using (List.mem_filter.mp hc).2
      exact hca hcr
    omega
  have hsother : ∀ r, r ≠ p → rankCount s r ≤ 1 := by
    intro r hr
    rw [rankCount_perm hsperm, rankCount_append, rankCount_other_filter _ hr]
    have : rankCount e3 r ≤ 1 := by
      rw [← count_map_r, he3perm.count_eq]
      exact (List.nodup_iff_count_le_one.mp hund) r
    omega
  have hps : hasPair s := (hasPair_iff s).mpr ⟨p, hsp⟩
  have hpss : pairsOf s = [p] := by
    have hmem : p ∈ ranksWithCount s 2 :=
      (mem_ranksWithCount (by omega)).mpr hsp
    have huniq : ∀ x ∈ ranksWithCount s 2, x = p := by
      intro x hx
      have hx2 := (mem_ranksWithCount (by omega : (0:ℕ) < 2)).mp hx
      by_contra hne
      have := hsother x hne
      omega
    rw [pairsOf, eq_single_of_unique_mem (ranksWithCount_nodup s 2) hmem huniq]
    rfl
  have hk : catOf X = 1 := by
    have := catOf_ge_of_hasPair hp
    have := catOf_le_one c8 c7 c6 c5 c4 c3 c2
    omega
  have hks : catOf s ≤ 1 := by
    have := catOf_le_of_sublist hsub hv hn
    omega
  have hs8 : ¬hasSF s := fun h => by
    have := catOf_of_hasSF h
    omega
  have hs7q : ¬hasQuads s := fun h => by
    have := catOf_ge_of_hasQuads h
    omega
  have hs6 : ¬hasFH s := fun h => by
    have := catOf_ge_of_hasFH h
    omega
  have hs5f : ¬hasFlush s := fun h => by
    have := catOf_ge_of_hasFlush h
    omega
  have hs4 : ¬hasStraight s := fun h => by
    have := catOf_ge_of_hasStraight h
    omega
  have hs3 : ¬hasTrips s := fun h => by
    have := catOf_ge_of_hasTrips h
    omega
  have hs2 : ¬hasTwoPair s := fun h => by
    have := catOf_ge_of_hasTwoPair h
    omega
  have hvs : ∀ c ∈ s, c ∈ makeDeck := fun c hc => hv c (hsub.subset hc)
  refine ⟨s, hsub, hslen, ?_⟩
  rw [evaluate_pair s hvs hs8 hs7q hs6 hs5f hs4 hs3 hs2 hps,
    evaluate_pair X hv c8 c7 c6 c5 c4 c3 c2 hp, hpss, hpXs]
  simp only [List.headD_cons]
  have hFnilrem : ((X.filter fun c => c.r == p).filter
      fun c => c.r != p) = [] := by
    rw [List.filter_eq_nil_iff]
    intro c hc
    have := hFp c hc
    simp [this]
  have he3pass : (e3.filter fun c => c.r != p) = e3 := by
    rw [List.filter_eq_self]
    intro c hc
    simp [he3p c hc]
  have hsrem : List.Perm (s.filter fun c => c.r != p) e3 := by
    have h1 := hsperm.filter (fun c => c.r != p)
    rw [List.filter_append, hFnilrem, he3pass] at h1
    simpa using h1
  have htopeq : topNDesc ((s.filter fun c => c.r != p).map Card.r) 3
      = topNDesc ((X.filter fun c => c.r != p).map Card.r) 3 := by
    calc topNDesc ((s.filter fun c => c.r != p).map Card.r) 3
        = topNDesc (topNDesc ((X.filter fun c => c.r != p).map Card.r) 3) 3 :=
          topNDesc_congr_perm ((hsrem.map Card.r).trans he3perm) 3
      _ = topNDesc ((X.filter fun c => c.r != p).map Card.r) 3 :=
          topNDesc_eq_self (topNDesc_sorted _ 3) (by rw [hulen])
  rw [htopeq]

lemma achieve_twoPair {X : List Card} (hv : ∀ c ∈ X, c ∈ makeDeck)
    (hn : X.Nodup) (h5X : 5 ≤ X.length) (h7X : X.length ≤ 7)
    (c8 : ¬hasSF X) (c7 : ¬hasQuads X) (c6 : ¬hasFH X) (c5 : ¬hasFlush X)
    (c4 : ¬hasStraight X) (c3 : ¬hasTrips X) (htp : hasTwoPair X) :
    ∃ s, s.Sublist X ∧ s.length = 5 ∧ evaluate s = evaluate X := by
  have hne2 : ranksWithCount X 2 ≠ [] := by
    intro h
    have h2 : 2 ≤ (ranksWithCount X 2).length := htp
    rw [h] at h2
    simp at h2
  obtain ⟨p1, hp1⟩ : ∃ t, (pairsOf X).getD 0 0 = t := ⟨_, rfl⟩
  obtain ⟨p2, hq2⟩ : ∃ t, (pairsOf X).getD 1 0 = t := ⟨_, rfl⟩
  have hp1mem : p1 ∈ ranksWithCount X 2 := by
    rw [← hp1, getD_zero_eq_headD]
    exact sortDesc_headD_mem hne2
  have hp2mem : p2 ∈ ranksWithCount X 2 := by
    rw [← hq2]
    exact sortDesc_second_mem htp
  have hp12 : p1 ≠ p2 := by
    rw [← hp1, ← hq2]
    exact sortDesc_head_ne_second (ranksWithCount_nodup X 2) htp
  have hp1c : rankCount X p1 = 2 := (mem_ranksWithCount (by omega)).mp hp1mem
  have hp2c : rankCount X p2 = 2 := (mem_ranksWithCount (by omega)).mp hp2mem
  have hp21le : p2 ≤ p1 := by
    rw [← hp1, getD_zero_eq_headD]
    exact le_sortDesc_headD hp2mem
  have hremlen5 : X.length
      ≤ (X.filter fun c => c.r != p1 && c.r != p2).length + 4 := by
    have := filter2_length_ge X p1 p2
    omega
  have hremne0 : (X.filter fun c => c.r != p1 && c.r != p2) ≠ [] := by
    intro h
    rw [h] at hremlen5
    simp at hremlen5
    omega
  have hremne : ((X.filter fun c => c.r != p1 && c.r != p2).map Card.r)
      ≠ [] := by
    simpa using hremne0
  have hkmem := topNDesc_headD_mem hremne (show (0:ℕ) < 1 by omega)
  obtain ⟨ck, hckrem, hckr⟩ := exists_card_of_rank hkmem
  have hckX : ck ∈ X := (List.mem_filter.mp hckrem).1
  have hckp : ¬ck.r = p1 ∧ ¬ck.r = p2 := by
    simpa using (List.mem_filter.mp hckrem).2
  have hF1nd : (X.filter fun c => c.r == p1).Nodup :=
    (List.filter_sublist X).nodup hn
  have hF2nd : (X.filter fun c => c.r == p2).Nodup :=
    (List.filter_sublist X).nodup hn
  have hF1p : ∀ c ∈ (X.filter fun c => c.r == p1), c.r = p1 := fun c hc => by
    simpa using (List.mem_filter.mp hc).2
  have hF2p : ∀ c ∈ (X.filter fun c => c.r == p2), c.r = p2 := fun c hc => by
    simpa using (List.mem_filter.mp hc).2
  have hinnd : ((X.filter fun c => c.r == p2) ++ [ck]).Nodup := by
    refine List.Nodup.append hF2nd (List.nodup_singleton ck)
      (disjoint_of_rank hF2p ?_)
    intro c hc
    rw [List.mem_singleton] at hc
    subst hc
    exact hckp.2
  have hend : ((X.filter fun c => c.r == p1)
      ++ ((X.filter fun c => c.r == p2) ++ [ck])).Nodup := by
    refine List.Nodup.append hF1nd hinnd (disjoint_of_rank hF1p ?_)
    intro c hc
    rcases List.mem_append.mp hc with hc1 | hc2
    · have := hF2p c hc1
      rw [this]
      exact Ne.symm hp12
    · rw [List.mem_singleton] at hc2
      subst hc2
      exact hckp.1
  have heX : ∀ c ∈ (X.filter fun c => c.r == p1)
      ++ ((X.filter fun c => c.r == p2) ++ [ck]), c ∈ X := by
    intro c hc
    rcases List.mem_append.mp hc with hc1 | hc2
    · exact (List.mem_filter.mp hc1).1
    rcases List.mem_append.mp hc2 with hc3 | hc4
    · exact (List.mem_filter.mp hc3).1
    · rw [List.mem_singleton] at hc4
      subst hc4
      exact hckX
  obtain ⟨s, hsub, hsperm⟩ := build_sublist hn hend heX
  have hF1len : (X.filter fun c => c.r == p1).length = 2 := hp1c
  have hF2len : (X.filter fun c => c.r == p2).length = 2 := hp2c
  have hslen : s.length = 5 := by
    rw [hsperm.length_eq, List.length_append, List.length_append,
      hF1len, hF2len]
    rfl
  have hsp1 : rankCount s p1 = 2 := by
    rw [rankCount_perm hsperm, rankCount_append, rankCount_append,
      rankCount_self_filter, hp1c,
      rankCount_other_filter _ hp12,
      rankCount_cons, if_neg hckp.1, rankCount_nil]
  have hsp2 : rankCount s p2 = 2 := by
    rw [rankCount_perm hsperm, rankCount_append, rankCount_append,
      rankCount_other_filter _ (Ne.symm hp12),
      rankCount_self_filter, hp2c,
      rankCount_cons, if_neg hckp.2, rankCount_nil]
  have hsother : ∀ r, r ≠ p1 → r ≠ p2 → rankCount s r ≤ 1 := by
    intro r hr1 hr2
    rw [rankCount_perm hsperm, rankCount_append, rankCount_append,
      rankCount_other_filter _ hr1, rankCount_other_filter _ hr2,
      rankCount_cons, rankCount_nil]
    split_ifs <;> omega
  have htps : hasTwoPair s := (hasTwoPair_iff s).mpr ⟨p1, p2, hp12, hsp1, hsp2⟩
  have hpairperm : List.Perm (ranksWithCount s 2) [p1, p2] := by
    refine perm_pair_of_mem (ranksWithCount_nodup s 2) hp12 ?_
    intro x
    constructor
    · intro hx
      have hx2 := (mem_ranksWithCount (by omega : (0:ℕ) < 2)).mp hx
      by_contra hcon
      push_neg at hcon
      have := hsother x hcon.1 hcon.2
      omega
    · rintro (rfl | rfl)
      · exact (mem_ranksWithCount (by omega)).mpr hsp1
      · exact (mem_ranksWithCount (by omega)).mpr hsp2
  have hpspair : pairsOf s = [p1, p2] := by
    rw [pairsOf, insertionSort_desc_eq_of_perm hpairperm, sortDesc_pair hp21le]
  have hk : catOf X = 2 := by
    have := catOf_ge_of_hasTwoPair htp
    have := catOf_le_two c8 c7 c6 c5 c4 c3
    omega
  have hks : catOf s ≤ 2 := by
    have := catOf_le_of_sublist hsub hv hn
    omega
  have hs8 : ¬hasSF s := fun h => by
    have := catOf_of_hasSF h
    omega
  have hs7q : ¬hasQuads s := fun h => by
    have := catOf_ge_of_hasQuads h
    omega
  have hs6 : ¬hasFH s := fun h => by
    have := catOf_ge_of_hasFH h
    omega
  have hs5f : ¬hasFlush s := fun h => by
    have := catOf_ge_of_hasFlush h
    omega
  have hs4 : ¬hasStraight s := fun h => by
    have := catOf_ge_of_hasStraight h
    omega
  have hs3 : ¬hasTrips s := fun h => by
    have := catOf_ge_of_hasTrips h
    omega
  have hvs : ∀ c ∈ s, c ∈ makeDeck := fun c hc => hv c (hsub.subset hc)
  refine ⟨s, hsub, hslen, ?_⟩
  rw [evaluate_twoPair s hvs hs8 hs7q hs6 hs5f hs4 hs3 htps,
    evaluate_twoPair X hv c8 c7 c6 c5 c4 c3 htp, hpspair, hp1, hq2]
  simp only [List.getD_cons_zero, List.getD_cons_succ]
  have hF1nil : ((X.filter fun c => c.r == p1).filter
      fun c => c.r != p1 && c.r != p2) = [] := by
    rw [List.filter_eq_nil_iff]
    intro c hc
    have := hF1p c hc
    simp [this]
  have hF2nil : ((X.filter fun c => c.r == p2).filter
      fun c => c.r != p1 && c.r != p2) = [] := by
    rw [List.filter_eq_nil_iff]
    intro c hc
    have := hF2p c hc
    simp [this]
  have hckpass : (([ck] : List Card).filter
      fun c => c.r != p1 && c.r != p2) = [ck] := by
    rw [List.filter_eq_self]
    intro c hc
    rw [List.mem_singleton] at hc
    subst hc
    simp [hckp.1, hckp.2]
  have hsrem : List.Perm (s.filter fun c => c.r != p1 && c.r != p2) [ck] := by
    have h1 := hsperm.filter (fun c => c.r != p1 && c.r != p2)
    rw [List.filter_append, List.filter_append, hF1nil, hF2nil, hckpass] at h1
    simpa using h1
  have hkickS : (topNDesc ((s.filter fun c =>
      c.r != p1 && c.r != p2).map Card.r) 1).headD 0 = ck.r := by
    rw [topNDesc_congr_perm (hsrem.map Card.r) 1]
    rfl
  rw [hkickS, ← hckr]

lemma achieve_FH {X : List Card} (hv : ∀ c ∈ X, c ∈ makeDeck)
    (hn : X.Nodup) (h5X : 5 ≤ X.length) (h7X : X.length ≤ 7)
    (c8 : ¬hasSF X) (c7 : ¬hasQuads X) (hfh : hasFH X) :
    ∃ s, s.Sublist X ∧ s.length = 5 ∧ evaluate s = evaluate X := by
  have htne : ranksWithCount X 3 ≠ [] := by
    rcases hfh with h2 | ⟨h1, -⟩
    · intro h
      rw [h] at h2
      simp at h2
    · intro h
      rw [h] at h1
      simp at h1
  obtain ⟨tX, htXeq⟩ : ∃ t, (tripsOf X).headD 0 = t := ⟨_, rfl⟩
  have htXmem : tX ∈ ranksWithCount X 3 := by
    rw [← htXeq]
    exact sortDesc_headD_mem htne
  have htXc : rankCount X tX = 3 := (mem_ranksWithCount (by omega)).mp htXmem
  have hF3nd : (X.filter fun c => c.r == tX).Nodup :=
    (List.filter_sublist X).nodup hn
  have hF3p : ∀ c ∈ (X.filter fun c => c.r == tX), c.r = tX := fun c hc => by
    simpa using (List.mem_filter.mp hc).2
  have hF3len : (X.filter fun c => c.r == tX).length = 3 := htXc
  have hk : catOf X = 6 := by
    have := catOf_ge_of_hasFH hfh
    have := catOf_le_six c8 c7
    omega
  by_cases h2t : 2 ≤ (tripsOf X).length
  · obtain ⟨ρ, hρeq⟩ : ∃ t, (tripsOf X).getD 1 0 = t := ⟨_, rfl⟩
    have h2r : 2 ≤ (ranksWithCount X 3).length := by
      rw [← tripsOf_length]
      exact h2t
    have hρmem : ρ ∈ ranksWithCount X 3 := by
      rw [← hρeq]
      exact sortDesc_second_mem h2r
    have hρc : rankCount X ρ = 3 := (mem_ranksWithCount (by omega)).mp hρmem
    have htρ : tX ≠ ρ := by
      have hne01 : (tripsOf X).getD 0 0 ≠ (tripsOf X).getD 1 0 :=
        sortDesc_head_ne_second (ranksWithCount_nodup X 3) h2r
      rw [← htXeq, ← hρeq, ← getD_zero_eq_headD]
      exact hne01
    rcases hFρ : (X.filter fun c => c.r == ρ) with - | ⟨d1, t1⟩
    · exfalso
      have hl : (X.filter fun c => c.r == ρ).length = 3 := hρc
      rw [hFρ] at hl
      simp at hl
    rcases t1 with - | ⟨d2, t2⟩
    · exfalso
      have hl : (X.filter fun c => c.r == ρ).length = 3 := hρc
      rw [hFρ] at hl
      simp at hl
    have hd1mem : d1 ∈ X.filter fun c => c.r == ρ := by
      rw [hFρ]
      exact List.mem_cons_self _ _
    have hd2mem : d2 ∈ X.filter fun c => c.r == ρ := by
      rw [hFρ]
      exact List.mem_cons_of_mem _ (List.mem_cons_self _ _)
    have hd1X : d1 ∈ X := (List.mem_filter.mp hd1mem).1
    have hd2X : d2 ∈ X := (List.mem_filter.mp hd2mem).1
    have hd1r : d1.r = ρ := by simpa using (List.mem_filter.mp hd1mem).2
    have hd2r : d2.r = ρ := by simpa using (List.mem_filter.mp hd2mem).2
    have hd12 : d1 ≠ d2 := by
      have hnd : (d1 :: d2 :: t2).Nodup := by
        rw [← hFρ]
        exact (List.filter_sublist X).nodup hn
      rw [List.nodup_cons] at hnd
      intro h
      subst h
      exact hnd.1 (List.mem_cons_self _ _)
    have hdd : ([d1, d2] : List Card).Nodup := by simp [hd12]
    have hda : ∀ c ∈ ([d1, d2] : List Card), c.r ≠ tX := by
      intro c hc
      rcases List.mem_cons.mp hc with rfl | hc2
      · rw [hd1r]
        exact Ne.symm htρ
      · rw [List.mem_singleton] at hc2
        subst hc2
        rw [hd2r]
        exact Ne.symm htρ
    have hend : ((X.filter fun c => c.r == tX) ++ [d1, d2]).Nodup :=
      List.Nodup.append hF3nd hdd (disjoint_of_rank hF3p hda)
    have heX : ∀ c ∈ (X.filter fun c => c.r == tX) ++ [d1, d2], c ∈ X := by
      intro c hc
      rcases List.mem_append.mp hc with hc1 | hc2
      · exact (List.mem_filter.mp hc1).1
      rcases List.mem_cons.mp hc2 with rfl | hc3
      · exact hd1X
      · rw [List.mem_singleton] at hc3
        subst hc3
        exact hd2X
    obtain ⟨s, hsub, hsperm⟩ := build_sublist hn hend heX
    have hslen : s.length = 5 := by
      rw [hsperm.length_eq, List.length_append, hF3len]
      rfl
    have hcnt_d : ∀ r, rankCount [d1, d2] r = if r = ρ then 2 else 0 := by
      intro r
      rw [rankCount_cons, rankCount_cons, rankCount_nil, hd1r, hd2r]
      split_ifs <;> omega
    have hst : rankCount s tX = 3 := by
      rw [rankCount_perm hsperm, rankCount_append, rankCount_self_filter,
        htXc, hcnt_d, if_neg htρ]
    have hsρ : rankCount s ρ = 2 := by
      rw [rankCount_perm hsperm, rankCount_append,
        rankCount_other_filter _ (Ne.symm htρ), hcnt_d, if_pos rfl]
    have hsother : ∀ r, r ≠ tX → r ≠ ρ → rankCount s r = 0 := by
      intro r h1 h2
      rw [rankCount_perm hsperm, rankCount_append,
        rankCount_other_filter _ h1, hcnt_d, if_neg h2]
    have hfhs : hasFH s := (hasFH_iff s).mpr ⟨tX, ρ, htρ, hst, Or.inr hsρ⟩
    have htss : tripsOf s = [tX] := by
      have hmem : tX ∈ ranksWithCount s 3 :=
        (mem_ranksWithCount (by omega)).mpr hst
      have huniq : ∀ x ∈ ranksWithCount s 3, x = tX := by
        intro x hx
        have hx3 := (mem_ranksWithCount (by omega : (0:ℕ) < 3)).mp hx
        by_contra hne
        by_cases hxρ : x = ρ
        · rw [hxρ] at hx3
          omega
        · have := hsother x hne hxρ
          omega
      rw [tripsOf,
        eq_single_of_unique_mem (ranksWithCount_nodup s 3) hmem huniq]
      rfl
    have hpss : pairsOf s = [ρ] := by
      have hmem : ρ ∈ ranksWithCount s 2 :=
        (mem_ranksWithCount (by omega)).mpr hsρ
      have huniq : ∀ x ∈ ranksWithCount s 2, x = ρ := by
        intro x hx
        have hx2 := (mem_ranksWithCount (by omega : (0:ℕ) < 2)).mp hx
        by_contra hne
        by_cases hxt : x = tX
        · rw [hxt] at hx2
          omega
        · have := hsother x hxt hne
          omega
      rw [pairsOf,
        eq_single_of_unique_mem (ranksWithCount_nodup s 2) hmem huniq]
      rfl
    have hks : catOf s ≤ 6 := by
      have := catOf_le_of_sublist hsub hv hn
      omega
    have hs8 : ¬hasSF s := fun h => by
      have := catOf_of_hasSF h
      omega
    have hs7q : ¬hasQuads s := fun h => by
      have := catOf_ge_of_hasQuads h
      omega
    have hvs : ∀ c ∈ s, c ∈ makeDeck := fun c hc => hv c (hsub.subset hc)
    refine ⟨s, hsub, hslen, ?_⟩
    rw [evaluate_FH s hvs hs8 hs7q hfhs, evaluate_FH X hv c8 c7 hfh,
      htss, hpss]
    simp only [List.headD_cons]
    rw [if_neg (show ¬ 2 ≤ [tX].length by simp), if_pos h2t, htXeq, hρeq]
  · have hpne : ranksWithCount X 2 ≠ [] := by
      rcases hfh with h2 | ⟨-, h1⟩
      · exfalso
        apply h2t
        rw [tripsOf_length]
        exact h2
      · intro h
        rw [h] at h1
        simp at h1
    obtain ⟨ρ, hρeq⟩ : ∃ t, (pairsOf X).headD 0 = t := ⟨_, rfl⟩
    have hρmem : ρ ∈ ranksWithCount X 2 := by
      rw [← hρeq]
      exact sortDesc_headD_mem hpne
    have hρc : rankCount X ρ = 2 := (mem_ranksWithCount (by omega)).mp hρmem
    have htρ : tX ≠ ρ := by
      intro h
      rw [h] at htXc
      omega
    have hFρnd : (X.filter fun c => c.r == ρ).Nodup :=
      (List.filter_sublist X).nodup hn
    have hFρp : ∀ c ∈ (X.filter fun c => c.r == ρ), c.r = ρ := fun c hc => by
      simpa using (List.mem_filter.mp hc).2
    have hFρlen : (X.filter fun c => c.r == ρ).length = 2 := hρc
    have hda : ∀ c ∈ (X.filter fun c => c.r == ρ), c.r ≠ tX := by
      intro c hc
      rw [hFρp c hc]
      exact Ne.symm htρ
    have hend : ((X.filter fun c => c.r == tX)
        ++ (X.filter fun c => c.r == ρ)).Nodup :=
      List.Nodup.append hF3nd hFρnd (disjoint_of_rank hF3p hda)
    have heX : ∀ c ∈ (X.filter fun c => c.r == tX)
        ++ (X.filter fun c => c.r == ρ), c ∈ X := by
      intro c hc
      rcases List.mem_append.mp hc with hc1 | hc2
      · exact (List.mem_filter.mp hc1).1
      · exact (List.mem_filter.mp hc2).1
    obtain ⟨s, hsub, hsperm⟩ := build_sublist hn hend heX
    have hslen : s.length = 5 := by
      rw [hsperm.length_eq, List.length_append, hF3len, hFρlen]
    have hst : rankCount s tX = 3 := by
      rw [rankCount_perm hsperm, rankCount_append, rankCount_self_filter,
        htXc, rankCount_other_filter _ htρ]
    have hsρ : rankCount s ρ = 2 := by
      rw [rankCount_perm hsperm, rankCount_append,
        rankCount_other_filter _ (Ne.symm htρ), rankCount_self_filter, hρc]
    have hsother : ∀ r, r ≠ tX → r ≠ ρ → rankCount s r = 0 := by
      intro r h1 h2
      rw [rankCount_perm hsperm, rankCount_append,
        rankCount_other_filter _ h1, rankCount_other_filter _ h2]
    have hfhs : hasFH s := (hasFH_iff s).mpr ⟨tX, ρ, htρ, hst, Or.inr hsρ⟩
    have htss : tripsOf s = [tX] := by
      have hmem : tX ∈ ranksWithCount s 3 :=
        (mem_ranksWithCount (by omega)).mpr hst
      have huniq : ∀ x ∈ ranksWithCount s 3, x = tX := by
        intro x hx
        have hx3 := (mem_ranksWithCount (by omega : (0:ℕ) < 3)).mp hx
        by_contra hne
        by_cases hxρ : x = ρ
        · rw [hxρ] at hx3
          omega
        · have := hsother x hne hxρ
          omega
      rw [tripsOf,
        eq_single_of_unique_mem (ranksWithCount_nodup s 3) hmem huniq]
      rfl
    have hpss : pairsOf s = [ρ] := by
      have hmem : ρ ∈ ranksWithCount s 2 :=
        (mem_ranksWithCount (by omega)).mpr hsρ
      have huniq : ∀ x ∈ ranksWithCount s 2, x = ρ := by
        intro x hx
        have hx2 := (mem_ranksWithCount (by omega : (0:ℕ) < 2)).mp hx
        by_contra hne
        by_cases hxt : x = tX
        · rw [hxt] at hx2
          omega
        · have := hsother x hxt hne
          omega
      rw [pairsOf,
        eq_single_of_unique_mem (ranksWithCount_nodup s 2) hmem huniq]
      rfl
    have hks : catOf s ≤ 6 := by
      have := catOf_le_of_sublist hsub hv hn
      omega
    have hs8 : ¬hasSF s := fun h => by
      have := catOf_of_hasSF h
      omega
    have hs7q : ¬hasQuads s := fun h => by
      have := catOf_ge_of_hasQuads h
      omega
    have hvs : ∀ c ∈ s, c ∈ makeDeck := fun c hc => hv c (hsub.subset hc)
    refine ⟨s, hsub, hslen, ?_⟩
    rw [evaluate_FH s hvs hs8 hs7q hfhs, evaluate_FH X hv c8 c7 hfh,
      htss, hpss]
    simp only [List.headD_cons]
    rw [if_neg (show ¬ 2 ≤ [tX].length by simp), if_neg h2t, htXeq, hρeq]

lemma evaluate_tail_ne_nil {X : List Card} (hv : ∀ c ∈ X, c ∈ makeDeck)
    (hn : X.Nodup) (h5X : 5 ≤ X.length) (h7X : X.length ≤ 7) :
    (evaluate X).tail ≠ [] := by
  by_cases c8 : hasSF X
  · obtain ⟨σ, hσ, h5c, hrun⟩ := id c8
    rw [evaluate_SF X σ hv h7X hσ h5c hrun]
    simp
  by_cases c7 : hasQuads X
  · rw [evaluate_quads X hv c8 c7]
    simp
  by_cases c6 : hasFH X
  · rw [evaluate_FH X hv c8 c7 c6]
    simp
  by_cases c5 : hasFlush X
  · obtain ⟨σ, hσ, h5c⟩ := id c5
    rw [evaluate_flush X σ hv h7X hσ h5c c8 c7 c6]
    simp only [List.tail_cons]
    intro h
    have hlen := topNDesc_length ((X.filter fun c => c.s == σ).map Card.r) 5
    rw [h] at hlen
    simp only [List.length_nil] at hlen
    rw [List.length_map] at hlen
    have h5c2 : 5 ≤ (X.filter fun c => c.s == σ).length := h5c
    omega
  by_cases c4 : hasStraight X
  · rw [evaluate_straight X hv c8 c7 c6 c5 c4]
    simp
  by_cases c3 : hasTrips X
  · rw [evaluate_trips X hv c8 c7 c6 c5 c4 c3]
    simp
  by_cases c2 : hasTwoPair X
  · rw [evaluate_twoPair X hv c8 c7 c6 c5 c4 c3 c2]
    simp
  by_cases c1 : hasPair X
  · rw [evaluate_pair X hv c8 c7 c6 c5 c4 c3 c2 c1]
    simp
  · rw [evaluate_high X hv c8 c7 c6 c5 c4 c3 c1]
    simp only [List.tail_cons]
    intro h
    have hlen := topNDesc_length (X.map Card.r) 5
    rw [h] at hlen
    simp only [List.length_nil] at hlen
    rw [List.length_map] at hlen
    omega

lemma cmp_nil_pos {t : List ℕ} (h2 : t.tail ≠ [])
    (htail : ∀ x ∈ t.tail, 0 < x) : 0 < compareRankTuples t [] := by
  rcases t with - | ⟨a, t1⟩
  · simp at h2
  rcases t1 with - | ⟨b, t2⟩
  · simp at h2
  have hbpos : 0 < b := htail b (by simp)
  rw [compareRankTuples_eq_lexPad, lexPad_swap]
  have hneg : lexPad [] (a :: b :: t2) < 0 := by
    rw [lexPad_neg_iff]
    by_cases ha : 0 < a
    · refine ⟨0, by simpa using ha, ?_⟩
      intro j hj
      exact absurd hj (Nat.not_lt_zero j)
    · refine ⟨1, by simpa using hbpos, ?_⟩
      intro j hj
      have hj0 : j = 0 := by omega
      subst hj0
      have ha0 : a = 0 := by omega
      simp [ha0]
  omega

/-- Achievability: some five-card sublist evaluates exactly to the full
hand's value. -/
lemma evaluate_attained {X : List Card} (hv : ∀ c ∈ X, c ∈ makeDeck)
    (hn : X.Nodup) (h5X : 5 ≤ X.length) (h7X : X.length ≤ 7) :
    ∃ s, s.Sublist X ∧ s.length = 5 ∧ evaluate s = evaluate X := by
  by_cases c8 : hasSF X
  · exact achieve_SF hv hn h7X c8
  by_cases c7 : hasQuads X
  · exact achieve_quads hv hn h5X h7X c8 c7
  by_cases c6 : hasFH X
  · exact achieve_FH hv hn h5X h7X c8 c7 c6
  by_cases c5 : hasFlush X
  · exact achieve_flush hv hn h7X c8 c7 c6 c5
  by_cases c4 : hasStraight X
  · exact achieve_straight hv hn c8 c7 c6 c5 c4
  by_cases c3 : hasTrips X
  · exact achieve_trips hv hn h5X h7X c8 c7 c6 c5 c4 c3
  by_cases c2 : hasTwoPair X
  · exact achieve_twoPair hv hn h5X h7X c8 c7 c6 c5 c4 c3 c2
  by_cases c1 : hasPair X
  · exact achieve_pair hv hn h5X h7X c8 c7 c6 c5 c4 c3 c2 c1
  · exact achieve_high hv hn h5X c8 c7 c6 c5 c4 c3 c2 c1

lemma rank_ge_two_of_count {X : List Card} (hv : ∀ c ∈ X, c ∈ makeDeck)
    {r k : ℕ} (hk : 0 < k) (hc : rankCount X r = k) : 2 ≤ r := by
  have hpos : 0 < rankCount X r := by omega
  have hmem := (rankCount_pos_iff X r).mp hpos
  obtain ⟨c, hcX, rfl⟩ := List.mem_map.mp hmem
  exact (rank_bounds hv c hcX).1

/-- Every tiebreak entry of an evaluation of a valid 5–7 card hand is
positive. -/
lemma evaluate_tail_pos {X : List Card} (hv : ∀ c ∈ X, c ∈ makeDeck)
    (hn : X.Nodup) (h5X : 5 ≤ X.length) (h7X : X.length ≤ 7) :
    ∀ x ∈ (evaluate X).tail, 0 < x := by
  have hb : ∀ c ∈ X, 2 ≤ c.r := fun c hc => (rank_bounds hv c hc).1
  by_cases c8 : hasSF X
  · obtain ⟨σ, hσ, h5c, hrun⟩ := id c8
    rw [evaluate_SF X σ hv h7X hσ h5c hrun]
    intro x hx
    simp only [List.tail_cons, List.mem_singleton] at hx
    omega
  by_cases c7 : hasQuads X
  · obtain ⟨q, hq4⟩ := (hasQuads_iff X).mp c7
    have hqs := quadsOf_eq_single h7X hq4
    rw [evaluate_quads X hv c8 c7, hqs]
    simp only [List.headD_cons]
    intro x hx
    simp only [List.tail_cons] at hx
    rcases List.mem_cons.mp hx with rfl | hx2
    · have := rank_ge_two_of_count hv (show (0:ℕ) < 4 by omega) hq4
      omega
    · rw [List.mem_singleton] at hx2
      subst hx2
      have hremlen : (X.filter fun c => c.r != q).length = X.length - 4 := by
        rw [length_filter_rne, hq4]
      have hremne0 : (X.filter fun c => c.r != q) ≠ [] := by
        intro h
        rw [h] at hremlen
        simp at hremlen
        omega
      have hremne : ((X.filter fun c => c.r != q).map Card.r) ≠ [] := by
        simpa using hremne0
      have hmem := topNDesc_headD_mem hremne (show (0:ℕ) < 1 by omega)
      obtain ⟨c, hc, hcr⟩ := List.mem_map.mp hmem
      have := hb c ((List.filter_sublist X).subset hc)
      omega
  by_cases c6 : hasFH X
  · have htne : ranksWithCount X 3 ≠ [] := by
      rcases c6 with h2 | ⟨h1, -⟩
      · intro h
        rw [h] at h2
        simp at h2
      · intro h
        rw [h] at h1
        simp at h1
    have htXmem : (tripsOf X).headD 0 ∈ ranksWithCount X 3 :=
      sortDesc_headD_mem htne
    have htXc := (mem_ranksWithCount (show (0:ℕ) < 3 by omega)).mp htXmem
    rw [evaluate_FH X hv c8 c7 c6]
    intro x hx
    simp only [List.tail_cons] at hx
    rcases List.mem_cons.mp hx with rfl | hx2
    · have := rank_ge_two_of_count hv (show (0:ℕ) < 3 by omega) htXc
      omega
    · rw [List.mem_singleton] at hx2
      subst hx2
      by_cases h2t : 2 ≤ (tripsOf X).length
      · rw [if_pos h2t]
        have h2r : 2 ≤ (ranksWithCount X 3).length := by
          rw [← tripsOf_length]
          exact h2t
        have hmem2 : (tripsOf X).getD 1 0 ∈ ranksWithCount X 3 :=
          sortDesc_second_mem h2r
        have := rank_ge_two_of_count hv (show (0:ℕ) < 3 by omega)
          ((mem_ranksWithCount (show (0:ℕ) < 3 by omega)).mp hmem2)
        omega
      · rw [if_neg h2t]
        have hpne : ranksWithCount X 2 ≠ [] := by
          rcases c6 with h2 | ⟨-, h1⟩
          · exfalso
            apply h2t
            rw [tripsOf_length]
            exact h2
          · intro h
            rw [h] at h1
            simp at h1
        have hmem2 : (pairsOf X).headD 0 ∈ ranksWithCount X 2 :=
          sortDesc_headD_mem hpne
        have := rank_ge_two_of_count hv (show (0:ℕ) < 2 by omega)
          ((mem_ranksWithCount (show (0:ℕ) < 2 by omega)).mp hmem2)
        omega
  by_cases c5 : hasFlush X
  · obtain ⟨σ, hσ, h5c⟩ := id c5
    rw [evaluate_flush X σ hv h7X hσ h5c c8 c7 c6]
    intro x hx
    simp only [List.tail_cons] at hx
    have hmem := topNDesc_subset hx
    obtain ⟨c, hc, rfl⟩ := List.mem_map.mp hmem
    have := hb c ((List.filter_sublist X).subset hc)
    omega
  by_cases c4 : hasStraight X
  · rw [evaluate_straight X hv c8 c7 c6 c5 c4]
    intro x hx
    simp only [List.tail_cons, List.mem_singleton] at hx
    have : 0 < specStraightHigh (X.map Card.r).toFinset := c4
    omega
  by_cases c3 : hasTrips X
  · have htXmem : (tripsOf X).headD 0 ∈ ranksWithCount X 3 :=
      sortDesc_headD_mem c3
    have htXc := (mem_ranksWithCount (show (0:ℕ) < 3 by omega)).mp htXmem
    rw [evaluate_trips X hv c8 c7 c6 c5 c4 c3]
    intro x hx
    simp only [List.cons_append, List.nil_append, List.tail_cons] at hx
    rcases List.mem_cons.mp hx with rfl | hx2
    · have := rank_ge_two_of_count hv (show (0:ℕ) < 3 by omega) htXc
      omega
    · have hmem := topNDesc_subset hx2
      obtain ⟨c, hc, rfl⟩ := List.mem_map.mp hmem
      have := hb c ((List.filter_sublist X).subset hc)
      omega
  by_cases c2 : hasTwoPair X
  · have hne2 : ranksWithCount X 2 ≠ [] := by
      intro h
      have h2 : 2 ≤ (ranksWithCount X 2).length := c2
      rw [h] at h2
      simp at h2
    have hp1mem : (pairsOf X).getD 0 0 ∈ ranksWithCount X 2 := by
      rw [getD_zero_eq_headD]
      exact sortDesc_headD_mem hne2
    have hp2mem : (pairsOf X).getD 1 0 ∈ ranksWithCount X 2 :=
      sortDesc_second_mem c2
    have hp1c := (mem_ranksWithCount (show (0:ℕ) < 2 by omega)).mp hp1mem
    have hp2c := (mem_ranksWithCount (show (0:ℕ) < 2 by omega)).mp hp2mem
    rw [evaluate_twoPair X hv c8 c7 c6 c5 c4 c3 c2]
    intro x hx
    simp only [List.tail_cons] at hx
    rcases List.mem_cons.mp hx with rfl | hx2
    · have := rank_ge_two_of_count hv (show (0:ℕ) < 2 by omega) hp1c
      omega
    rcases List.mem_cons.mp hx2 with rfl | hx3
    · have := rank_ge_two_of_count hv (show (0:ℕ) < 2 by omega) hp2c
      omega
    · rw [List.mem_singleton] at hx3
      subst hx3
      have hremlen5 : X.length ≤ (X.filter fun c =>
          c.r != (pairsOf X).getD 0 0 && c.r != (pairsOf X).getD 1 0).length
            + 4 := by
        have := filter2_length_ge X ((pairsOf X).getD 0 0)
          ((pairsOf X).getD 1 0)
        omega
      have hremne0 : (X.filter fun c =>
          c.r != (pairsOf X).getD 0 0 && c.r != (pairsOf X).getD 1 0)
            ≠ [] := by
        intro h
        rw [h] at hremlen5
        simp at hremlen5
        omega
      have hremne : ((X.filter fun c =>
          c.r != (pairsOf X).getD 0 0 && c.r != (pairsOf X).getD 1 0).map
            Card.r) ≠ [] := by
        simpa using hremne0
      have hmem := topNDesc_headD_mem hremne (show (0:ℕ) < 1 by omega)
      obtain ⟨c, hc, hcr⟩ := List.mem_map.mp hmem
      have := hb c ((List.filter_sublist X).subset hc)
      omega
  by_cases c1 : hasPair X
  · have hpmem : (pairsOf X).headD 0 ∈ ranksWithCount X 2 :=
      sortDesc_headD_mem c1
    have hpc := (mem_ranksWithCount (show (0:ℕ) < 2 by omega)).mp hpmem
    rw [evaluate_pair X hv c8 c7 c6 c5 c4 c3 c2 c1]
    intro x hx
    simp only [List.cons_append, List.nil_append, List.tail_cons] at hx
    rcases List.mem_cons.mp hx with rfl | hx2
    · have := rank_ge_two_of_count hv (show (0:ℕ) < 2 by omega) hpc
      omega
    · have hmem := topNDesc_subset hx2
      obtain ⟨c, hc, rfl⟩ := List.mem_map.mp hmem
      have := hb c ((List.filter_sublist X).subset hc)
      omega
  · rw [evaluate_high X hv c8 c7 c6 c5 c4 c3 c1]
    intro x hx
    simp only [List.tail_cons] at hx
    have hmem := topNDesc_subset hx
    obtain ⟨c, hc, rfl⟩ := List.mem_map.mp hmem
    have := hb c hc
    omega

/-- C1: for every hand of 5, 6, or 7 pairwise-distinct valid cards,
`evaluate` returns exactly the maximum, under `compareRankTuples`, of the
evaluations of all of its 5-card subsets (the reference best-of-five
definition, `maxByCompare` being modelled from the spec's words), and the
returned category (the tuple's first entry) is at most 8. -/
theorem C1_refinement (cards : List Card) (hv : ∀ c ∈ cards, c ∈ makeDeck)
    (hn : cards.Nodup) (h5 : 5 ≤ cards.length) (h7 : cards.length ≤ 7) :
    evaluate cards = maxByCompare ((cards.sublistsLen 5).map evaluate) ∧
      (evaluate cards).headD 0 ≤ 8 := by
  obtain ⟨s0, hs0sub, hs0len, hs0eq⟩ := evaluate_attained hv hn h5 h7
  have hs0mem : evaluate s0 ∈ (cards.sublistsLen 5).map evaluate :=
    List.mem_map.mpr ⟨s0, List.mem_sublistsLen.mpr ⟨hs0sub, hs0len⟩, rfl⟩
  have hspec := foldMax_spec ((cards.sublistsLen 5).map evaluate) []
  rw [show ((cards.sublistsLen 5).map evaluate).foldl
      (fun acc t => if compareRankTuples acc t < 0 then t else acc) []
        = maxByCompare ((cards.sublistsLen 5).map evaluate) from rfl] at hspec
  obtain ⟨hM1, -, hM3⟩ := hspec
  have htailpos := evaluate_tail_pos hv hn h5 h7
  have htailne := evaluate_tail_ne_nil hv hn h5 h7
  have hMmem : maxByCompare ((cards.sublistsLen 5).map evaluate)
      ∈ (cards.sublistsLen 5).map evaluate := by
    rcases hM1 with hM0 | hMm
    · exfalso
      have h3 := hM3 (evaluate s0) hs0mem
      rw [hM0, hs0eq] at h3
      have := cmp_nil_pos htailne htailpos
      omega
    · exact hMm
  obtain ⟨s1, hs1mem, hs1eq⟩ := List.mem_map.mp hMmem
  obtain ⟨hs1sub, hs1len⟩ := List.mem_sublistsLen.mp hs1mem
  have hBle : compareRankTuples
      (maxByCompare ((cards.sublistsLen 5).map evaluate)) (evaluate cards)
        ≤ 0 := by
    rw [← hs1eq]
    exact evaluate_sublist_le hs1sub hs1len hv hn h7
  have hAle : compareRankTuples (evaluate cards)
      (maxByCompare ((cards.sublistsLen 5).map evaluate)) ≤ 0 := by
    have h3 := hM3 (evaluate s0) hs0mem
    rw [hs0eq] at h3
    exact h3
  have hzero : compareRankTuples (evaluate cards)
      (maxByCompare ((cards.sublistsLen 5).map evaluate)) = 0 := by
    rw [compareRankTuples_eq_lexPad] at hAle hBle ⊢
    have := lexPad_swap (evaluate cards)
      (maxByCompare ((cards.sublistsLen 5).map evaluate))
    omega
  have hvs1 : ∀ c ∈ s1, c ∈ makeDeck := fun c hc => hv c (hs1sub.subset hc)
  have hns1 : s1.Nodup := hs1sub.nodup hn
  have hMtailpos : ∀ x ∈ (maxByCompare
      ((cards.sublistsLen 5).map evaluate)).tail, 0 < x := by
    rw [← hs1eq]
    exact evaluate_tail_pos hvs1 hns1 (by omega) (by omega)
  have hMne : maxByCompare ((cards.sublistsLen 5).map evaluate) ≠ [] := by
    rw [← hs1eq]
    obtain ⟨c, t, hct, -⟩ := evaluate_shape s1
    rw [hct]
    simp
  have hcardsne : evaluate cards ≠ [] := by
    obtain ⟨c, t, hct, -⟩ := evaluate_shape cards
    rw [hct]
    simp
  refine ⟨cmp_zero_eq hcardsne hMne htailpos hMtailpos hzero, ?_⟩
  obtain ⟨c, t, hct, hc8⟩ := evaluate_shape cards
  rw [hct]
  simpa using hc8

/-- Witness: C1 instantiated at a concrete valid 7-card hand. -/
theorem C1_witness :
    evaluate [⟨14,'s'⟩, ⟨13,'s'⟩, ⟨12,'s'⟩, ⟨11,'s'⟩, ⟨10,'s'⟩,
        ⟨9,'h'⟩, ⟨2,'d'⟩]
      = maxByCompare ((([⟨14,'s'⟩, ⟨13,'s'⟩, ⟨12,'s'⟩, ⟨11,'s'⟩, ⟨10,'s'⟩,
        ⟨9,'h'⟩, ⟨2,'d'⟩] : List Card).sublistsLen 5).map evaluate) ∧
      (evaluate [⟨14,'s'⟩, ⟨13,'s'⟩, ⟨12,'s'⟩, ⟨11,'s'⟩, ⟨10,'s'⟩,
        ⟨9,'h'⟩, ⟨2,'d'⟩]).headD 0 ≤ 8 :=
  C1_refinement
    [⟨14,'s'⟩, ⟨13,'s'⟩, ⟨12,'s'⟩, ⟨11,'s'⟩, ⟨10,'s'⟩, ⟨9,'h'⟩, ⟨2,'d'⟩]
    (by decide) (by decide) (by decide) (by decide)
